import Mathlib

/-!
# Verification of the kaddons Addon Identity & Compatibility Resolution Engine

A shallow embedding of the core of the `kaddons` repository
(`internal/agent/agent.go` and `internal/addon/addon.go`) in Lean 4, together
with theorems settling the frozen claims about the resolver, the name matcher,
the EOL-status resolver and the evidence pruner.

Go strings are modelled as lists of characters (`GoStr`); byte-exact code
(the evidence pruner and the UTF-8 truncation helper) is modelled over lists
of bytes (`List Nat`) in a later section.  Go `int` values are modelled as
`Int`, with 64-bit wraparound made explicit in the one accumulation loop
(`parseLeadingInt`) where Go overflow could occur; `strconv.Atoi` failure on
overflow is modelled by an explicit bound check.  Character-level operations
agree with Go's byte-level operations on all inputs relevant here (ASCII
separators never occur inside a multi-byte UTF-8 character, and UTF-8 byte
order coincides with code-point order).
-/

set_option maxRecDepth 10000

namespace Kaddons

/-- Go strings, modelled as lists of characters. -/
abbrev GoStr := List Char

/-- Coerce a Lean string literal to the `GoStr` model. -/
def gs (s : String) : GoStr := s.data

/-- Go `unicode.IsSpace` on a single character. -/
def goIsSpaceChar (c : Char) : Bool :=
  let n := c.toNat
  (9 ≤ n && n ≤ 13) || n = 32 || n = 0x85 || n = 0xA0 || n = 0x1680 ||
  (0x2000 ≤ n && n ≤ 0x200A) || n = 0x2028 || n = 0x2029 || n = 0x202F ||
  n = 0x205F || n = 0x3000

/-- ASCII lower-casing of one character (the only case the embedded inputs use). -/
def toLowerChar (c : Char) : Char :=
  if 65 ≤ c.toNat && c.toNat ≤ 90 then Char.ofNat (c.toNat + 32) else c

/-- Go `strings.ToLower`. -/
def goToLower (s : GoStr) : GoStr := s.map toLowerChar

/-- Go `strings.TrimSpace` (character level). -/
def trimSpaceS (s : GoStr) : GoStr :=
  ((s.dropWhile goIsSpaceChar).reverse.dropWhile goIsSpaceChar).reverse

/-- Go `strings.HasPrefix p s` ↔ `p` begins `s`. -/
def hasPrefixS (s p : GoStr) : Bool := p.isPrefixOf s

/-- Go `strings.HasSuffix`. -/
def hasSuffixS (s p : GoStr) : Bool := p.isSuffixOf s

/-- Go `strings.TrimPrefix`. -/
def trimPrefixS (s p : GoStr) : GoStr :=
  if hasPrefixS s p then s.drop p.length else s

/-- Go `strings.TrimSuffix`. -/
def trimSuffixS (s p : GoStr) : GoStr :=
  if hasSuffixS s p then s.take (s.length - p.length) else s

/-- Go `strings.Contains` (substring test). -/
def containsS : GoStr → GoStr → Bool
  | s, sub =>
    if sub.isPrefixOf s then true
    else
      match s with
      | [] => false
      | _ :: t => containsS t sub

/-- Go `strings.Index s [c]` for a one-character separator: index of first
occurrence, `none` for Go's `-1`. -/
def indexOfCharS (s : GoStr) (c : Char) : Option Nat :=
  s.findIdx? (· = c)

/-- Split at the first occurrence of `c`: `some (before, after)` or `none`. -/
def splitFirstS (c : Char) (s : GoStr) : Option (GoStr × GoStr) :=
  if s.contains c then some (s.takeWhile (· ≠ c), (s.dropWhile (· ≠ c)).tail)
  else none

/-- Go `strings.SplitN s sep n` for a one-character separator `sep`. -/
def splitNCharS (c : Char) : Nat → GoStr → List GoStr
  | 0, _ => []
  | 1, s => [s]
  | n + 2, s =>
    match splitFirstS c s with
    | none => [s]
    | some (a, b) => a :: splitNCharS c (n + 1) b

/-- Fuelled worker for `splitOnCharS`. -/
def splitOnCharGo (c : Char) : Nat → GoStr → List GoStr
  | 0, s => [s]
  | n + 1, s =>
    match splitFirstS c s with
    | none => [s]
    | some (a, b) => a :: splitOnCharGo c n b

/-- Go `strings.Split s sep` for a one-character separator. -/
def splitOnCharS (c : Char) (s : GoStr) : List GoStr :=
  splitOnCharGo c (s.length + 1) s

/-- Worker for `fieldsS`; `acc` holds the current word reversed. -/
def fieldsGoS : GoStr → GoStr → List GoStr
  | [], acc => if acc = [] then [] else [acc.reverse]
  | c :: rest, acc =>
    if goIsSpaceChar c then
      if acc = [] then fieldsGoS rest [] else acc.reverse :: fieldsGoS rest []
    else fieldsGoS rest (c :: acc)

/-- Go `strings.Fields`: whitespace-separated words. -/
def fieldsS (s : GoStr) : List GoStr := fieldsGoS s []

/-- Go `strings.Join` / `List.intercalate`. -/
def joinS (xs : List GoStr) (sep : GoStr) : GoStr := List.intercalate sep xs

/-- Byte-lexicographic (equivalently code-point-lexicographic) strict order on
strings, as used by Go's `sort.Strings` and string `<`/`>`. -/
def strLtB : GoStr → GoStr → Bool
  | [], [] => false
  | [], _ :: _ => true
  | _ :: _, [] => false
  | a :: as, b :: bs => if a < b then true else if b < a then false else strLtB as bs

/-- Non-strict byte-lexicographic order. -/
def strLeB (a b : GoStr) : Bool := !(strLtB b a)

/-- `strconv.Atoi` on a nonempty all-digit string: errors (returns `none`)
exactly on 64-bit signed overflow. -/
def atoiDigits (ds : GoStr) : Option Nat :=
  let n := ds.foldl (fun acc c => acc * 10 + (c.toNat - 48)) 0
  if n < 2 ^ 63 then some n else none

/-- Interpret a bit pattern below `2^64` as a signed 64-bit integer. -/
def toInt64 (n : Nat) : Int :=
  if n % 2 ^ 64 < 2 ^ 63 then ((n % 2 ^ 64 : Nat) : Int)
  else ((n % 2 ^ 64 : Nat) : Int) - 2 ^ 64

/-- Accumulator loop of Go `parseLeadingInt`, tracked as a 64-bit bit pattern. -/
def parseLeadingIntNat : GoStr → Nat → Nat
  | [], acc => acc
  | c :: rest, acc =>
    if c.isDigit then parseLeadingIntNat rest ((acc * 10 + (c.toNat - 48)) % 2 ^ 64)
    else acc

/-- `parseLeadingInt` from `agent.go`: parse the leading run of digits as a Go
`int` (64-bit, wrapping on overflow). -/
def parseLeadingInt (value : GoStr) : Int := toInt64 (parseLeadingIntNat value 0)

/-- `normalizeK8sVersion` from `agent.go`: extract the major.minor portion of a
Kubernetes version string. -/
def normalizeK8sVersion (version : GoStr) : GoStr :=
  let v := trimPrefixS version (gs "v")
  let parts := splitNCharS '.' 3 v
  if 2 ≤ parts.length then parts.getD 0 [] ++ gs "." ++ parts.getD 1 [] else v

/-- `compareK8sVersions` from `agent.go`: compare two major.minor version
strings, returning -1/0/1. -/
def compareK8sVersions (a b : GoStr) : Int :=
  let aParts := splitNCharS '.' 2 a
  let bParts := splitNCharS '.' 2 b
  if aParts.length < 2 || bParts.length < 2 then
    let aLeading := parseLeadingInt a
    let bLeading := parseLeadingInt b
    if aLeading < bLeading then -1 else if bLeading < aLeading then 1 else 0
  else
    let aMajor := parseLeadingInt (aParts.getD 0 [])
    let bMajor := parseLeadingInt (bParts.getD 0 [])
    if aMajor ≠ bMajor then (if aMajor < bMajor then -1 else 1)
    else
      let aMin := parseLeadingInt (aParts.getD 1 [])
      let bMin := parseLeadingInt (bParts.getD 1 [])
      if aMin < bMin then -1 else if bMin < aMin then 1 else 0

/-- Segment loop of `parseAddonVersionFloor`: stops at the first empty or
non-digit-leading segment, fails (`none`) on `Atoi` overflow. -/
def floorSegments : List GoStr → Option (List Nat)
  | [] => some []
  | seg :: rest =>
    if seg = [] then some []
    else
      let digits := seg.takeWhile Char.isDigit
      if digits = [] then some []
      else
        match atoiDigits digits with
        | none => none
        | some v => (floorSegments rest).map (v :: ·)

/-- `parseAddonVersionFloor` from `agent.go`: numeric floor of an addon
version or threshold-style matrix key. -/
def parseAddonVersionFloor (rawVersion : GoStr) : Option (List Nat) :=
  let version := goToLower (trimSpaceS rawVersion)
  let version := trimPrefixS version (gs ">=")
  let version := trimPrefixS version (gs "v")
  let version := trimSpaceS version
  let version := trimSuffixS version (gs ".x")
  let version := trimSuffixS version (gs "+")
  if version = [] then none
  else
    match floorSegments (splitOnCharS '.' version) with
    | none => none
    | some parts => if parts = [] then none else some parts

/-- Loop of `compareAddonVersionFloors`: `fuel` counts the remaining indices of
Go's `for i := 0; i < maxLen; i++`; a missing component reads as zero. -/
def cmpFloorsGo : Nat → List Nat → List Nat → Int
  | 0, _, _ => 0
  | n + 1, a, b =>
    if a.headD 0 < b.headD 0 then -1
    else if b.headD 0 < a.headD 0 then 1
    else cmpFloorsGo n a.tail b.tail

/-- `compareAddonVersionFloors` from `agent.go`: left-to-right comparison of
dot-separated integer tuples, missing trailing components read as zero. -/
def compareAddonVersionFloors (a b : List Nat) : Int :=
  cmpFloorsGo (max a.length b.length) a b

/-- `isNonSemverKey` from `agent.go`: keys not starting with a digit. -/
def isNonSemverKey (key : GoStr) : Bool :=
  match key with
  | [] => true
  | c :: _ => c.toNat < 48 || 57 < c.toNat

/-- `parseVersionRangeKey` from `agent.go`: parse `"2.0.0-v2.1.3"`-style keys
into a lo/hi pair. -/
def parseVersionRangeKey (key : GoStr) : Option (GoStr × GoStr) :=
  match indexOfCharS key '-' with
  | none => none
  | some dashIdx =>
    if dashIdx = 0 ∨ (key.length : Int) - 1 ≤ (dashIdx : Int) then none
    else
      let left := trimPrefixS (key.take dashIdx) (gs "v")
      let right := trimPrefixS (key.drop (dashIdx + 1)) (gs "v")
      if left = [] ∨ right = [] then none
      else if isNonSemverKey left || isNonSemverKey right then none
      else if !(left.contains '.') || !(right.contains '.') then none
      else some (left, right)

/-- `versionInRange` from `agent.go`. -/
def versionInRange (installed lo hi : GoStr) : Bool :=
  match parseAddonVersionFloor installed, parseAddonVersionFloor lo,
      parseAddonVersionFloor hi with
  | some instParts, some loParts, some hiParts =>
    0 ≤ compareAddonVersionFloors instParts loParts &&
      compareAddonVersionFloors instParts hiParts ≤ 0
  | _, _, _ => false

/-- The key normalization shared by `matrixKeyMatchesInstalledVersion` and
`scoreMatrixKeyMatch`: trim, lower-case, strip a leading "v". -/
def keyNormOf (matrixKey : GoStr) : GoStr :=
  trimPrefixS (goToLower (trimSpaceS matrixKey)) (gs "v")

/-- The installed-version normalization shared by
`matrixKeyMatchesInstalledVersion` and `findDirectMatrixCompatibilityMatch`. -/
def installedNormOf (installedVersion : GoStr) : GoStr :=
  goToLower (trimPrefixS (trimSpaceS installedVersion) (gs "v"))

/-- `matrixKeyMatchesInstalledVersion` from `agent.go`. -/
def matrixKeyMatchesInstalledVersion (matrixKey installedVersion : GoStr) : Bool :=
  let keyNorm := keyNormOf matrixKey
  let installedNorm := installedNormOf installedVersion
  if keyNorm = [] then false
  else if isNonSemverKey keyNorm then false
  else
    match parseVersionRangeKey keyNorm with
    | some (lo, hi) => versionInRange installedNorm lo hi
    | none =>
      if keyNorm = installedNorm || hasPrefixS installedNorm (keyNorm ++ ['.']) ||
          hasPrefixS installedNorm (keyNorm ++ ['-']) then true
      else if hasSuffixS keyNorm (gs ".x") then
        let keyBase := trimSuffixS keyNorm (gs ".x")
        installedNorm = keyBase || hasPrefixS installedNorm (keyBase ++ ['.'])
      else false

/-- `isSimpleSemverTriplet` from `agent.go`: digits and exactly two dots. -/
def isSimpleSemverTriplet (version : GoStr) : Bool :=
  (version.all fun c => c = '.' || c.isDigit) &&
    version.count '.' = 2

/-- `isPatchLevelKeyCompatible` from `agent.go`: a 3-component key on the same
major.minor line with installed ≥ key. -/
def isPatchLevelKeyCompatible (matrixKey installedVersion : GoStr) : Bool :=
  if !isSimpleSemverTriplet matrixKey then false
  else
    match parseAddonVersionFloor matrixKey, parseAddonVersionFloor installedVersion with
    | some matrixParts, some installedParts =>
      if matrixParts.length < 3 || installedParts.length < 3 then false
      else if matrixParts.getD 0 0 ≠ installedParts.getD 0 0 ||
          matrixParts.getD 1 0 ≠ installedParts.getD 1 0 then false
      else 0 ≤ compareAddonVersionFloors installedParts matrixParts
    | _, _ => false

/-- Trailing `matrixKeyMatchesInstalledVersion` fallback of
`scoreMatrixKeyMatch` (reached after the switch falls through): deterministic
selection of the remaining supported key forms, e.g. ranges. -/
def scoreMatrixFallback (matrixKey installedVersion : GoStr) : Int × Bool :=
  if matrixKeyMatchesInstalledVersion matrixKey installedVersion then
    (50 + ((keyNormOf matrixKey).length : Int), true)
  else (0, false)

/-- `scoreMatrixKeyMatch` from `agent.go`: score of one matrix key against the
(already normalized) installed version; `(score, matched)`. -/
def scoreMatrixKeyMatch (matrixKey installedVersion : GoStr) : Int × Bool :=
  let keyNorm := keyNormOf matrixKey
  if keyNorm = [] then (0, false)
  else if keyNorm = installedVersion then (300 + keyNorm.length, true)
  else if hasPrefixS installedVersion (keyNorm ++ ['.']) ||
      hasPrefixS installedVersion (keyNorm ++ ['-']) then
    (200 + keyNorm.length, true)
  else if hasSuffixS keyNorm (gs ".x") then
    let keyBase := trimSuffixS keyNorm (gs ".x")
    if installedVersion = keyBase || hasPrefixS installedVersion (keyBase ++ ['.']) then
      (100 + keyNorm.length, true)
    else scoreMatrixFallback matrixKey installedVersion
  else if isPatchLevelKeyCompatible keyNorm installedVersion then
    (150 + keyNorm.length, true)
  else scoreMatrixFallback matrixKey installedVersion

/-- A Go `map[string][]string` compatibility matrix, as an association list in
iteration order (Go map iteration order is arbitrary; theorems that depend on
it quantify over permutations of this list). -/
abbrev Matrix := List (GoStr × List GoStr)

/-- The non-strict byte-lexicographic order as a relation, for sorting. -/
def strLe (a b : GoStr) : Prop := strLeB a b = true

instance : DecidableRel strLe := fun a b =>
  inferInstanceAs (Decidable (strLeB a b = true))

/-- `sortedMatrixKeys` from `agent.go`: the keys of the matrix, sorted. -/
def sortedMatrixKeys (matrix : Matrix) : List GoStr :=
  List.insertionSort strLe (matrix.map Prod.fst)

/-- Go map lookup `matrix[key]` (missing key yields Go's `nil` slice). -/
def lookupMatrix (matrix : Matrix) (key : GoStr) : List GoStr :=
  match matrix.find? (fun p => p.1 = key) with
  | some p => p.2
  | none => []

/-- Best-scoring-key loop of `findDirectMatrixCompatibilityMatch`. -/
def bestDirectKey (installedNorm : GoStr) : List GoStr → GoStr → Int → GoStr
  | [], bestKey, _ => bestKey
  | key :: rest, bestKey, bestScore =>
    let sm := scoreMatrixKeyMatch key installedNorm
    if !sm.2 then bestDirectKey installedNorm rest bestKey bestScore
    else if bestScore < sm.1 then bestDirectKey installedNorm rest key sm.1
    else bestDirectKey installedNorm rest bestKey bestScore

/-- `findDirectMatrixCompatibilityMatch` from `agent.go`. -/
def findDirectMatrixCompatibilityMatch (matrix : Matrix) (installedVersion : GoStr) :
    Option (GoStr × List GoStr) :=
  let installedNorm := installedNormOf installedVersion
  if installedNorm = [] then none
  else
    let bestKey := bestDirectKey installedNorm (sortedMatrixKeys matrix) [] (-1)
    if bestKey = [] then none
    else some (bestKey, lookupMatrix matrix bestKey)

/-- `looksLikeThresholdStyleMatrix` from `agent.go`. -/
def looksLikeThresholdStyleMatrix (matrix : Matrix) : Bool :=
  matrix.any fun p =>
    let normalizedKey := goToLower (trimSpaceS p.1)
    hasPrefixS normalizedKey (gs ">=") || containsS normalizedKey (gs ".x") ||
      hasSuffixS normalizedKey (gs "+")

/-- `supportsK8sVersion` from `agent.go`. -/
def supportsK8sVersion (supportedVersions : List GoStr) (targetK8sVersion : GoStr) : Bool :=
  supportedVersions.any fun v => normalizeK8sVersion v = targetK8sVersion

/-- One iteration of the `findThresholdCompatibilityMatch` selection loop
(one map entry, in map iteration order). -/
def thresholdStep (installedParts : List Nat) (targetK8sVersion : GoStr)
    (best : Option (GoStr × List GoStr × List Nat)) (entry : GoStr × List GoStr) :
    Option (GoStr × List GoStr × List Nat) :=
  if !supportsK8sVersion entry.2 targetK8sVersion then best
  else
    match parseAddonVersionFloor entry.1 with
    | none => best
    | some keyParts =>
      if compareAddonVersionFloors installedParts keyParts < 0 then best
      else
        match best with
        | none => some (entry.1, entry.2, keyParts)
        | some (bk, bv, bestParts) =>
          if 0 < compareAddonVersionFloors keyParts bestParts then
            some (entry.1, entry.2, keyParts)
          else some (bk, bv, bestParts)

/-- `findThresholdCompatibilityMatch` from `agent.go`. -/
def findThresholdCompatibilityMatch (matrix : Matrix)
    (installedVersion targetK8sVersion : GoStr) : Option (GoStr × List GoStr) :=
  if !looksLikeThresholdStyleMatrix matrix then none
  else
    match parseAddonVersionFloor installedVersion with
    | none => none
    | some installedParts =>
      (matrix.foldl (thresholdStep installedParts targetK8sVersion) none).map
        fun t => (t.1, t.2.1)

/-- One step of the `findLatestCompatibleVersion` loop (one map entry, in map
iteration order). -/
def latestStep (k8sVersion : GoStr) (state : GoStr × Option (List Nat))
    (entry : GoStr × List GoStr) : GoStr × Option (List Nat) :=
  if supportsK8sVersion entry.2 k8sVersion then
    match parseAddonVersionFloor entry.1 with
    | some currentParts =>
      if state.1 = [] then (entry.1, some currentParts)
      else
        match state.2 with
        | some lp =>
          if 0 < compareAddonVersionFloors currentParts lp then
            (entry.1, some currentParts)
          else (state.1, some lp)
        | none => (entry.1, some currentParts)
    | none =>
      if state.1 = [] then (entry.1, state.2)
      else
        match state.2 with
        | some lp => (state.1, some lp)
        | none => if strLtB state.1 entry.1 then (entry.1, none) else (state.1, none)
  else state

/-- `findLatestCompatibleVersion` from `agent.go`: the latest matrix key whose
supported-version set contains the target, in map iteration order. -/
def findLatestCompatibleVersion (matrix : Matrix) (k8sVersion : GoStr) : GoStr :=
  (matrix.foldl (latestStep k8sVersion) ([], none)).1

/-- Tri-state verdict (`output.Status`). -/
inductive Status where
  | strue
  | sfalse
  | unknown
deriving DecidableEq, Repr

/-- `output.DataSource`. -/
inductive DataSource where
  | stored
  | runtime
  | localOnly
deriving DecidableEq, Repr

/-- `addon.Addon`: a record of the embedded addon database. -/
structure Addon where
  name : GoStr := []
  projectURL : GoStr := []
  repository : GoStr := []
  compatibilityMatrixURL : GoStr := []
  changelogLocation : GoStr := []
  kubernetesCompatibility : Matrix := []
  kubernetesMinVersion : GoStr := []
  kubernetesMaxVersion : GoStr := []
deriving DecidableEq, Repr

/-- The fields of `addonWithInfo` used by the stored-data resolver.  The Go
field `DBMatch` is a pointer that is always non-nil on this code path. -/
structure AddonWithInfo where
  name : GoStr := []
  nspace : GoStr := []
  version : GoStr := []
  dbMatch : Addon := {}
deriving DecidableEq, Repr

/-- `output.AddonCompatibility`: the resolver verdict record. -/
structure AddonCompatibility where
  name : GoStr := []
  nspace : GoStr := []
  installedVersion : GoStr := []
  compatible : Status := Status.unknown
  latestCompatibleVersion : GoStr := []
  note : GoStr := []
  dataSource : DataSource := DataSource.stored
deriving DecidableEq, Repr

/-- `appendSourceReference` from `agent.go`. -/
def appendSourceReference (note sourceURL : GoStr) : GoStr :=
  if sourceURL = [] || containsS note sourceURL then note
  else if note = [] then gs "Source: " ++ sourceURL
  else note ++ gs " Source: " ++ sourceURL

/-- `resolveFromMinMaxVersion` from `agent.go`: `some (verdict, note)` when a
verdict was produced, `none` otherwise. -/
def resolveFromMinMaxVersion (a : Addon) (k8sMajorMinor : GoStr) :
    Option (Status × GoStr) :=
  if a.kubernetesMinVersion = [] ∧ a.kubernetesMaxVersion = [] then none
  else
    let aboveMin := a.kubernetesMinVersion = [] ∨
      0 ≤ compareK8sVersions k8sMajorMinor a.kubernetesMinVersion
    let belowMax := a.kubernetesMaxVersion = [] ∨
      compareK8sVersions k8sMajorMinor a.kubernetesMaxVersion ≤ 0
    if aboveMin ∧ belowMax then
      if a.kubernetesMinVersion ≠ [] ∧ a.kubernetesMaxVersion ≠ [] then
        some (Status.strue, gs "K8s " ++ k8sMajorMinor ++ gs " is within supported range " ++
          a.kubernetesMinVersion ++ gs "–" ++ a.kubernetesMaxVersion)
      else if a.kubernetesMinVersion ≠ [] then
        some (Status.strue, gs "K8s " ++ k8sMajorMinor ++ gs " >= minimum required " ++
          a.kubernetesMinVersion)
      else
        some (Status.strue, gs "K8s " ++ k8sMajorMinor ++ gs " <= maximum supported " ++
          a.kubernetesMaxVersion)
    else if ¬ aboveMin then
      some (Status.sfalse, gs "K8s " ++ k8sMajorMinor ++ gs " < minimum required " ++
        a.kubernetesMinVersion)
    else
      some (Status.sfalse, gs "K8s " ++ k8sMajorMinor ++ gs " > maximum supported " ++
        a.kubernetesMaxVersion)

/-- `resolveFromStoredData` from `agent.go`: the deterministic stored-data
compatibility verdict. -/
def resolveFromStoredData (info : AddonWithInfo) (k8sVersion : GoStr) :
    AddonCompatibility :=
  let base : AddonCompatibility :=
    { name := info.name, nspace := info.nspace, installedVersion := info.version,
      dataSource := DataSource.stored }
  let k8sMajorMinor := normalizeK8sVersion k8sVersion
  let finalize : AddonCompatibility → AddonCompatibility := fun r =>
    { r with note := appendSourceReference r.note info.dbMatch.compatibilityMatrixURL }
  if info.dbMatch.kubernetesCompatibility ≠ [] then
    let installedNorm := trimPrefixS info.version (gs "v")
    match findDirectMatrixCompatibilityMatch info.dbMatch.kubernetesCompatibility
        installedNorm with
    | none =>
      match findThresholdCompatibilityMatch info.dbMatch.kubernetesCompatibility
          installedNorm k8sMajorMinor with
      | some (thresholdKey, _) =>
        finalize { base with
          compatible := Status.strue,
          note := gs "Addon version " ++ info.version ++ gs " satisfies threshold " ++
            thresholdKey ++ gs " for K8s " ++ k8sMajorMinor ++ gs " per stored matrix",
          latestCompatibleVersion :=
            findLatestCompatibleVersion info.dbMatch.kubernetesCompatibility k8sMajorMinor }
      | none =>
        match resolveFromMinMaxVersion info.dbMatch k8sMajorMinor with
        | some (st, mmNote) =>
          finalize { base with
            compatible := st,
            note := gs "Installed version " ++ info.version ++
              gs " not found in stored matrix; " ++ mmNote }
        | none =>
          let latestKey :=
            findLatestCompatibleVersion info.dbMatch.kubernetesCompatibility k8sMajorMinor
          if latestKey ≠ [] then
            finalize { base with
              compatible := Status.unknown,
              latestCompatibleVersion := latestKey,
              note := gs "Installed version " ++ info.version ++
                gs " not found in stored matrix. Latest version supporting K8s " ++
                k8sMajorMinor ++ gs ": " ++ latestKey }
          else
            finalize { base with
              compatible := Status.unknown,
              note := gs "Installed version " ++ info.version ++
                gs " not found in stored compatibility matrix" }
    | some (matchedKey, matchedK8sVersions) =>
      if matchedK8sVersions.any (fun v => normalizeK8sVersion v = k8sMajorMinor) then
        finalize { base with
          compatible := Status.strue,
          note := gs "Addon version " ++ matchedKey ++ gs " supports K8s " ++
            k8sMajorMinor ++ gs " per stored matrix" }
      else
        let latestKey :=
          findLatestCompatibleVersion info.dbMatch.kubernetesCompatibility k8sMajorMinor
        finalize { base with
          compatible := Status.sfalse,
          latestCompatibleVersion := if latestKey ≠ [] then latestKey else [],
          note := gs "Addon version " ++ matchedKey ++ gs " does not support K8s " ++
            k8sMajorMinor ++ gs " per stored matrix (supports: " ++
            joinS matchedK8sVersions (gs ", ") ++ gs ")" }
  else
    match resolveFromMinMaxVersion info.dbMatch k8sMajorMinor with
    | some (st, mmNote) =>
      finalize { base with compatible := st, note := mmNote }
    | none =>
      finalize { base with
        compatible := Status.unknown,
        note := gs "No stored compatibility data available" }

/-! ## Claim C5: direct-match verdict -/

/-- **C5.** When direct matrix matching finds a best-scoring key, the stored-data
resolver's verdict is `true` iff the target platform version, normalized to
major.minor, appears (after the same normalization) in that key's
supported-version set, and `false` otherwise. -/
theorem C5_direct_match_verdict (info : AddonWithInfo) (k8sVersion matchedKey : GoStr)
    (matchedVers : List GoStr)
    (hne : info.dbMatch.kubernetesCompatibility ≠ [])
    (hm : findDirectMatrixCompatibilityMatch info.dbMatch.kubernetesCompatibility
      (trimPrefixS info.version (gs "v")) = some (matchedKey, matchedVers)) :
    (((resolveFromStoredData info k8sVersion).compatible = Status.strue) ↔
      ∃ v ∈ matchedVers, normalizeK8sVersion v = normalizeK8sVersion k8sVersion) ∧
    (((resolveFromStoredData info k8sVersion).compatible = Status.sfalse) ↔
      ¬ ∃ v ∈ matchedVers, normalizeK8sVersion v = normalizeK8sVersion k8sVersion) := by
  have hres : resolveFromStoredData info k8sVersion =
      (if matchedVers.any (fun v =>
          normalizeK8sVersion v = normalizeK8sVersion k8sVersion) then
        { name := info.name, nspace := info.nspace, installedVersion := info.version,
          dataSource := DataSource.stored,
          compatible := Status.strue,
          note := appendSourceReference
            (gs "Addon version " ++ matchedKey ++ gs " supports K8s " ++
              normalizeK8sVersion k8sVersion ++ gs " per stored matrix")
            info.dbMatch.compatibilityMatrixURL }
      else
        { name := info.name, nspace := info.nspace, installedVersion := info.version,
          dataSource := DataSource.stored,
          compatible := Status.sfalse,
          latestCompatibleVersion :=
            if findLatestCompatibleVersion info.dbMatch.kubernetesCompatibility
                (normalizeK8sVersion k8sVersion) ≠ [] then
              findLatestCompatibleVersion info.dbMatch.kubernetesCompatibility
                (normalizeK8sVersion k8sVersion)
            else [],
          note := appendSourceReference
            (gs "Addon version " ++ matchedKey ++ gs " does not support K8s " ++
              normalizeK8sVersion k8sVersion ++ gs " per stored matrix (supports: " ++
              joinS matchedVers (gs ", ") ++ gs ")")
            info.dbMatch.compatibilityMatrixURL }) := by
    unfold resolveFromStoredData
    rw [if_pos hne]
    simp only [hm]
  by_cases hany : matchedVers.any (fun v =>
      normalizeK8sVersion v = normalizeK8sVersion k8sVersion)
  · rw [hres, if_pos hany]
    have hex : ∃ v ∈ matchedVers, normalizeK8sVersion v = normalizeK8sVersion k8sVersion := by
      rcases List.any_eq_true.mp hany with ⟨v, hv, hp⟩
      exact ⟨v, hv, of_decide_eq_true hp⟩
    exact ⟨⟨fun _ => hex, fun _ => rfl⟩,
      ⟨fun h => absurd (show Status.strue = Status.sfalse from h) (by decide),
        fun h => absurd hex h⟩⟩
  · rw [hres, if_neg hany]
    have hnex : ¬ ∃ v ∈ matchedVers, normalizeK8sVersion v = normalizeK8sVersion k8sVersion := by
      intro ⟨v, hv, hp⟩
      exact hany (List.any_eq_true.mpr ⟨v, hv, decide_eq_true hp⟩)
    exact ⟨⟨fun h => absurd (show Status.sfalse = Status.strue from h) (by decide),
      fun h => absurd h hnex⟩, ⟨fun _ => hnex, fun _ => rfl⟩⟩

/-- The first example of claim C5: matrix
`{"1.15": ["1.28","1.29","1.30","1.31"], "1.14": ["1.27","1.28","1.29","1.30"]}`,
installed `v1.15.0`. -/
def c5Example1 : AddonWithInfo :=
  { name := gs "cert-manager", version := gs "v1.15.0",
    dbMatch := { kubernetesCompatibility :=
      [(gs "1.15", [gs "1.28", gs "1.29", gs "1.30", gs "1.31"]),
       (gs "1.14", [gs "1.27", gs "1.28", gs "1.29", gs "1.30"])] } }

/-- The second example of claim C5: matrix `{"1.15": ["1.28","1.29","1.30"]}`. -/
def c5Example2 : AddonWithInfo :=
  { name := gs "cert-manager", version := gs "v1.15.0",
    dbMatch := { kubernetesCompatibility :=
      [(gs "1.15", [gs "1.28", gs "1.29", gs "1.30"])] } }

/-- **C5 witness.** Both examples of the claim, via `C5_direct_match_verdict`:
`"v1.15.0"` against target `"1.30"` is `true` citing key `"1.15"`, and against
target `"1.32"` is `false`. -/
theorem C5_direct_match_verdict_witness :
    (resolveFromStoredData c5Example1 (gs "1.30")).compatible = Status.strue ∧
    (resolveFromStoredData c5Example2 (gs "1.32")).compatible = Status.sfalse := by
  constructor
  · exact (C5_direct_match_verdict c5Example1 (gs "1.30") (gs "1.15")
      [gs "1.28", gs "1.29", gs "1.30", gs "1.31"] (by decide) (by decide)).1.mpr
      ⟨gs "1.30", by decide, by decide⟩
  · exact (C5_direct_match_verdict c5Example2 (gs "1.32") (gs "1.15")
      [gs "1.28", gs "1.29", gs "1.30"] (by decide) (by decide)).2.mpr (by decide)

/-! ## Claim C2: match-score ordering of key forms -/

/-- **C2 counterexample.** The claim puts the `".x"` wildcard form above the
3-component patch-line form, but in the code a matching wildcard key scores
`100 + len` while a matching patch-line triplet scores `150 + len`: with
matrix `{"1.2.x": ["1.30"], "1.2.0": ["1.31"]}` and installed `"1.2.3"` both
keys match, the patch-line key `"1.2.0"` outscores the wildcard `"1.2.x"`
(155 vs 105) and is the one selected. -/
theorem C2_counterexample :
    (scoreMatrixKeyMatch (gs "1.2.x") (gs "1.2.3")).2 = true ∧
    (scoreMatrixKeyMatch (gs "1.2.0") (gs "1.2.3")).2 = true ∧
    (scoreMatrixKeyMatch (gs "1.2.x") (gs "1.2.3")).1 <
      (scoreMatrixKeyMatch (gs "1.2.0") (gs "1.2.3")).1 ∧
    findDirectMatrixCompatibilityMatch
      [(gs "1.2.x", [gs "1.30"]), (gs "1.2.0", [gs "1.31"])] (gs "1.2.3") =
      some (gs "1.2.0", [gs "1.31"]) := by
  exact ⟨by decide, by decide, by decide, by decide⟩

/-- Helper for C2: the score formulas of the wildcard and patch-line cases of
`scoreMatrixKeyMatch`. -/
theorem score_wildcard_patch_formulas (kw kp inst : GoStr)
    (hx : hasSuffixS (keyNormOf kw) (gs ".x") = true)
    (hbase : inst = trimSuffixS (keyNormOf kw) (gs ".x") ∨
      hasPrefixS inst (trimSuffixS (keyNormOf kw) (gs ".x") ++ ['.']) = true)
    (hew : keyNormOf kw ≠ inst)
    (hpw1 : hasPrefixS inst (keyNormOf kw ++ ['.']) = false)
    (hpw2 : hasPrefixS inst (keyNormOf kw ++ ['-']) = false)
    (hpatch : isPatchLevelKeyCompatible (keyNormOf kp) inst = true)
    (hep : keyNormOf kp ≠ inst)
    (hpp1 : hasPrefixS inst (keyNormOf kp ++ ['.']) = false)
    (hpp2 : hasPrefixS inst (keyNormOf kp ++ ['-']) = false) :
    scoreMatrixKeyMatch kw inst = (100 + ((keyNormOf kw).length : Int), true) ∧
    scoreMatrixKeyMatch kp inst = (150 + ((keyNormOf kp).length : Int), true) := by
  have hkwne : keyNormOf kw ≠ [] := by
    intro h
    rw [h] at hx
    exact absurd hx (by decide)
  have htrip : isSimpleSemverTriplet (keyNormOf kp) = true := by
    by_contra h
    rw [Bool.not_eq_true] at h
    unfold isPatchLevelKeyCompatible at hpatch
    rw [h] at hpatch
    simp at hpatch
  have hkpne : keyNormOf kp ≠ [] := by
    intro h
    rw [h] at htrip
    exact absurd htrip (by decide)
  have hkpnx : hasSuffixS (keyNormOf kp) (gs ".x") = false := by
    rcases hsx : hasSuffixS (keyNormOf kp) (gs ".x") with _ | _
    · rfl
    · exfalso
      unfold hasSuffixS at hsx
      rcases List.isSuffixOf_iff_suffix.mp hsx with ⟨pre, hpre⟩
      have hxmem : 'x' ∈ keyNormOf kp := by
        rw [← hpre]
        simp [gs]
      unfold isSimpleSemverTriplet at htrip
      have hall := List.all_eq_true.mp (Bool.and_elim_left htrip) 'x' hxmem
      exact absurd hall (by decide)
  constructor
  · unfold scoreMatrixKeyMatch
    simp only [if_neg hkwne, if_neg hew, hpw1, hpw2, Bool.or_self, if_pos hx]
    rcases hbase with hb | hb
    · simp [← hb]
    · simp [hb]
  · unfold scoreMatrixKeyMatch
    simp only [if_neg hkpne, if_neg hep, hpp1, hpp2, Bool.or_self, hkpnx, hpatch]
    simp

/-- **C2 (amended).** In direct matrix matching the score forms are: exact
equality `300 + len`, strict numeric prefix `200 + len`, patch-line triplet
`150 + len`, `".x"` wildcard `100 + len`, range `50 + len`.  In particular,
for a matrix holding a `".x"` wildcard key and a patch-line triplet key that
each match the installed version, the patch-line key scores higher and is the
one selected whenever the wildcard key is less than 50 characters longer than
the patch-line key. -/
theorem C2_patch_beats_wildcard (kw kp inst : GoStr) (vw vp : List GoStr)
    (hx : hasSuffixS (keyNormOf kw) (gs ".x") = true)
    (hbase : inst = trimSuffixS (keyNormOf kw) (gs ".x") ∨
      hasPrefixS inst (trimSuffixS (keyNormOf kw) (gs ".x") ++ ['.']) = true)
    (hew : keyNormOf kw ≠ inst)
    (hpw1 : hasPrefixS inst (keyNormOf kw ++ ['.']) = false)
    (hpw2 : hasPrefixS inst (keyNormOf kw ++ ['-']) = false)
    (hpatch : isPatchLevelKeyCompatible (keyNormOf kp) inst = true)
    (hep : keyNormOf kp ≠ inst)
    (hpp1 : hasPrefixS inst (keyNormOf kp ++ ['.']) = false)
    (hpp2 : hasPrefixS inst (keyNormOf kp ++ ['-']) = false)
    (hlen : (keyNormOf kw).length < 50 + (keyNormOf kp).length)
    (hkeys : kw ≠ kp)
    (hkpraw : kp ≠ [])
    (hin : installedNormOf inst = inst)
    (hinst : inst ≠ []) :
    scoreMatrixKeyMatch kw inst = (100 + ((keyNormOf kw).length : Int), true) ∧
    scoreMatrixKeyMatch kp inst = (150 + ((keyNormOf kp).length : Int), true) ∧
    findDirectMatrixCompatibilityMatch [(kw, vw), (kp, vp)] inst = some (kp, vp) ∧
    findDirectMatrixCompatibilityMatch [(kp, vp), (kw, vw)] inst = some (kp, vp) := by
  obtain ⟨hw, hp⟩ := score_wildcard_patch_formulas kw kp inst hx hbase hew hpw1 hpw2
    hpatch hep hpp1 hpp2
  have hcmp1 : (-1 : Int) < 100 + ((keyNormOf kw).length : Int) := by omega
  have hcmp1p : (-1 : Int) < 150 + ((keyNormOf kp).length : Int) := by omega
  have hcmp2 : (100 + ((keyNormOf kw).length : Int)) < 150 + ((keyNormOf kp).length : Int) := by
    omega
  have hbest : ∀ keys : List GoStr, keys = [kw, kp] ∨ keys = [kp, kw] →
      bestDirectKey inst keys [] (-1) = kp := by
    rintro keys (rfl | rfl)
    · simp only [bestDirectKey, hw, hp, Bool.not_true, Bool.false_eq_true, if_false,
        if_pos hcmp1, if_pos hcmp2]
    · simp only [bestDirectKey, hw, hp, Bool.not_true, Bool.false_eq_true, if_false,
        if_pos hcmp1p, if_neg (not_lt.mpr hcmp2.le)]
  have hsorted : sortedMatrixKeys [(kw, vw), (kp, vp)] = [kw, kp] ∨
      sortedMatrixKeys [(kw, vw), (kp, vp)] = [kp, kw] := by
    unfold sortedMatrixKeys
    by_cases hord : strLe kw kp
    · left
      simp [List.insertionSort, List.orderedInsert, hord]
    · right
      simp [List.insertionSort, List.orderedInsert, hord]
  have hsorted2 : sortedMatrixKeys [(kp, vp), (kw, vw)] = [kw, kp] ∨
      sortedMatrixKeys [(kp, vp), (kw, vw)] = [kp, kw] := by
    unfold sortedMatrixKeys
    by_cases hord : strLe kp kw
    · right
      simp [List.insertionSort, List.orderedInsert, hord]
    · left
      simp [List.insertionSort, List.orderedInsert, hord]
  refine ⟨hw, hp, ?_, ?_⟩
  · unfold findDirectMatrixCompatibilityMatch
    rw [hin]
    rw [if_neg hinst, hbest _ hsorted, if_neg hkpraw]
    unfold lookupMatrix
    simp [List.find?, hkeys]
  · unfold findDirectMatrixCompatibilityMatch
    rw [hin]
    rw [if_neg hinst, hbest _ hsorted2, if_neg hkpraw]
    unfold lookupMatrix
    simp [List.find?]

/-- **C2 witness.** `C2_patch_beats_wildcard` at the concrete matrix
`{"1.2.x": ["1.30"], "1.2.0": ["1.31"]}` with installed `"1.2.3"`. -/
theorem C2_patch_beats_wildcard_witness :
    findDirectMatrixCompatibilityMatch
      [(gs "1.2.x", [gs "1.30"]), (gs "1.2.0", [gs "1.31"])] (gs "1.2.3") =
      some (gs "1.2.0", [gs "1.31"]) := by
  exact (C2_patch_beats_wildcard (gs "1.2.x") (gs "1.2.0") (gs "1.2.3")
    [gs "1.30"] [gs "1.31"] (by decide) (Or.inr (by decide)) (by decide) (by decide)
    (by decide) (by decide) (by decide) (by decide) (by decide) (by decide)
    (by decide) (by decide) (by decide) (by decide)).2.2.1

/-! ## Claim C3: non-digit keys -/

/-- Does a string begin with an ASCII digit? -/
def startsWithDigit : GoStr → Bool
  | [] => false
  | c :: _ => c.isDigit

/-- **C3 counterexample.** The claim says a key whose trimmed, `"v"`-stripped
form does not begin with a digit scores zero against *every* installed
version, but the exact-equality and prefix cases of `scoreMatrixKeyMatch` do
not test `isNonSemverKey`: key `"master"` against installed version
`"master"` scores `306` and is selected. -/
theorem C3_counterexample :
    isNonSemverKey (keyNormOf (gs "master")) = true ∧
    scoreMatrixKeyMatch (gs "master") (gs "master") = (306, true) ∧
    findDirectMatrixCompatibilityMatch [(gs "master", [gs "1.30"])] (gs "master") =
      some (gs "master", [gs "1.30"]) := by
  exact ⟨by decide, by decide, by decide⟩

/-- `Char.isDigit` in terms of code points. -/
theorem isDigit_iff_toNat {c : Char} : c.isDigit = true ↔ 48 ≤ c.toNat ∧ c.toNat ≤ 57 := by
  unfold Char.isDigit
  simp [UInt32.le_def, Char.toNat]
  constructor
  · intro h
    exact ⟨h.1, h.2⟩
  · intro h
    exact ⟨h.1, h.2⟩

/-- Strings without whitespace are fixed by `trimSpaceS`. -/
theorem trimSpaceS_eq_self {s : GoStr} (h : ∀ c ∈ s, goIsSpaceChar c = false) :
    trimSpaceS s = s := by
  unfold trimSpaceS
  have h1 : s.dropWhile goIsSpaceChar = s := by
    cases s with
    | nil => rfl
    | cons c t =>
      rw [List.dropWhile_cons_of_neg]
      simp [h c (List.mem_cons_self c t)]
  rw [h1]
  have h2 : s.reverse.dropWhile goIsSpaceChar = s.reverse := by
    cases hs : s.reverse with
    | nil => rfl
    | cons c t =>
      rw [List.dropWhile_cons_of_neg]
      have hc : c ∈ s := by
        rw [← List.mem_reverse, hs]
        exact List.mem_cons_self c t
      simp [h c hc]
  rw [h2, List.reverse_reverse]

/-- Strings without ASCII uppercase letters are fixed by `goToLower`. -/
theorem goToLower_eq_self {s : GoStr} (h : ∀ c ∈ s, toLowerChar c = c) :
    goToLower s = s := by
  unfold goToLower
  rw [List.map_congr_left h]
  exact List.map_id s

/-- A nonempty prefix of a nonempty string forces equal heads. -/
theorem hasPrefixS_cons_head {a b : Char} {l m : GoStr}
    (h : hasPrefixS (b :: m) (a :: l) = true) : a = b := by
  unfold hasPrefixS at h
  rw [List.isPrefixOf_iff_prefix, List.cons_prefix_cons] at h
  exact h.1

/-- Distinct heads refute a prefix. -/
theorem hasPrefixS_cons_ne {a b : Char} {l m : GoStr} (h : a ≠ b) :
    hasPrefixS (b :: m) (a :: l) = false := by
  rcases hb : hasPrefixS (b :: m) (a :: l) with _ | _
  · rfl
  · exact (h (hasPrefixS_cons_head hb)).elim

/-- `trimPrefixS` is the identity without the prefix. -/
theorem trimPrefixS_of_not {s p : GoStr} (h : hasPrefixS s p = false) :
    trimPrefixS s p = s := by
  unfold trimPrefixS
  rw [h]
  simp

/-- `trimSuffixS` is the identity without the suffix. -/
theorem trimSuffixS_of_not {s p : GoStr} (h : hasSuffixS s p = false) :
    trimSuffixS s p = s := by
  unfold trimSuffixS
  rw [h]
  simp

/-- A string missing some element of `p` cannot end in `p`. -/
theorem hasSuffixS_false_of_no_mem {s p : GoStr} {c : Char}
    (hc : c ∈ p) (hmem : c ∉ s) : hasSuffixS s p = false := by
  rcases hb : hasSuffixS s p with _ | _
  · rfl
  · exfalso
    unfold hasSuffixS at hb
    rcases List.isSuffixOf_iff_suffix.mp hb with ⟨pre, hpre⟩
    exact hmem (hpre ▸ List.mem_append_right pre hc)

/-- Facts about digit and dot characters used to evaluate the normalization
chain of `parseAddonVersionFloor`. -/
theorem dotdigit_char_facts {ch : Char} (h : ch = '.' ∨ ch.isDigit = true) :
    goIsSpaceChar ch = false ∧ toLowerChar ch = ch ∧ ch ≠ 'x' ∧ ch ≠ '+' := by
  rcases h with rfl | hd
  · exact ⟨by decide, by decide, by decide, by decide⟩
  · have hb := isDigit_iff_toNat.mp hd
    refine ⟨?_, ?_, ?_, ?_⟩
    · unfold goIsSpaceChar
      simp only [Bool.or_eq_false_iff, Bool.and_eq_false_iff, decide_eq_false_iff_not,
        not_le, not_lt]
      omega
    · unfold toLowerChar
      rw [if_neg]
      simp only [Bool.and_eq_true, decide_eq_true_eq, not_and, not_le]
      omega
    · intro hx
      subst hx
      revert hb
      decide
    · intro hx
      subst hx
      revert hb
      decide

/-- A dot-leading string of dots and digits has no parseable numeric floor. -/
theorem parseFloor_dot_leading_none (ks : GoStr)
    (hall : ∀ ch ∈ ('.' :: ks : GoStr), ch = '.' ∨ ch.isDigit = true) :
    parseAddonVersionFloor ('.' :: ks) = none := by
  have hfacts := fun ch hm => dotdigit_char_facts (hall ch hm)
  have htrim : trimSpaceS ('.' :: ks) = '.' :: ks :=
    trimSpaceS_eq_self (fun ch hm => (hfacts ch hm).1)
  have hlower : goToLower ('.' :: ks) = '.' :: ks :=
    goToLower_eq_self (fun ch hm => (hfacts ch hm).2.1)
  have hnox : 'x' ∉ ('.' :: ks : GoStr) := fun hm => (hfacts 'x' hm).2.2.1 rfl
  have hnop : '+' ∉ ('.' :: ks : GoStr) := fun hm => (hfacts '+' hm).2.2.2 rfl
  have hge : gs ">=" = '>' :: ['='] := rfl
  have hv : gs "v" = 'v' :: [] := rfl
  have hfirst : splitFirstS '.' ('.' :: ks) = some ([], ks) := by
    unfold splitFirstS
    rw [if_pos (by simp [List.contains_cons])]
    simp [List.takeWhile_cons, List.dropWhile_cons]
  have hsplit : splitOnCharS '.' ('.' :: ks) = [] :: splitOnCharGo '.' (ks.length + 1) ks := by
    show splitOnCharGo '.' (('.' :: ks : GoStr).length + 1) ('.' :: ks) = _
    have hlen : ('.' :: ks : GoStr).length + 1 = ks.length + 1 + 1 := by simp
    rw [hlen]
    conv_lhs => rw [splitOnCharGo]
    rw [hfirst]
  unfold parseAddonVersionFloor
  simp only [htrim, hlower]
  rw [hge, hv,
    trimPrefixS_of_not (hasPrefixS_cons_ne (by decide)),
    trimPrefixS_of_not (hasPrefixS_cons_ne (by decide)),
    htrim,
    trimSuffixS_of_not (hasSuffixS_false_of_no_mem (by decide : 'x' ∈ gs ".x") hnox),
    trimSuffixS_of_not (hasSuffixS_false_of_no_mem (by decide : '+' ∈ gs "+") hnop),
    if_neg (List.cons_ne_nil '.' ks), hsplit]
  unfold floorSegments
  simp

/-- A matrix key whose normalized form does not begin with a digit scores
`(0, false)` against every installed version that begins with a digit. -/
theorem score_nonsemver_eq_zero (key instN : GoStr)
    (hk : isNonSemverKey (keyNormOf key) = true)
    (hd : startsWithDigit instN = true) :
    scoreMatrixKeyMatch key instN = (0, false) := by
  obtain ⟨d, is, rfl⟩ : ∃ d is, instN = d :: is := by
    cases instN with
    | nil => exact absurd hd (by decide)
    | cons d is => exact ⟨d, is, rfl⟩
  have hdd : d.isDigit = true := hd
  have hmk : matrixKeyMatchesInstalledVersion key (d :: is) = false := by
    unfold matrixKeyMatchesInstalledVersion
    by_cases h0 : keyNormOf key = []
    · simp [h0]
    · simp [h0, hk]
  have hfall : scoreMatrixFallback key (d :: is) = (0, false) := by
    unfold scoreMatrixFallback
    rw [hmk]
    simp
  rcases hkn : keyNormOf key with _ | ⟨c, ks⟩
  · simp [scoreMatrixKeyMatch, hkn]
  · have hknd : (c.toNat < 48 ∨ 57 < c.toNat) := by
      rw [hkn] at hk
      unfold isNonSemverKey at hk
      simpa using hk
    have hcnd : c.isDigit = false := by
      rcases hbd : c.isDigit with _ | _
      · rfl
      · have := isDigit_iff_toNat.mp hbd
        omega
    have hcd : c ≠ d := fun h => by
      rw [h, hdd] at hcnd
      cases hcnd
    have hpre1 : hasPrefixS (d :: is) ((c :: ks) ++ ['.']) = false := by
      rw [List.cons_append]
      exact hasPrefixS_cons_ne hcd
    have hpre2 : hasPrefixS (d :: is) ((c :: ks) ++ ['-']) = false := by
      rw [List.cons_append]
      exact hasPrefixS_cons_ne hcd
    have hnexact : (c :: ks : GoStr) ≠ (d :: is : GoStr) := by
      intro h
      exact hcd (List.cons_eq_cons.mp h).1
    simp only [scoreMatrixKeyMatch, hkn]
    rw [if_neg (List.cons_ne_nil c ks), if_neg hnexact]
    simp only [hpre1, hpre2, Bool.or_self, Bool.false_eq_true, if_false]
    by_cases hsx : hasSuffixS (c :: ks) (gs ".x") = true
    · have hkb : trimSuffixS (c :: ks) (gs ".x") = [] ∨
          ∃ t, trimSuffixS (c :: ks) (gs ".x") = c :: t := by
        unfold trimSuffixS
        rw [if_pos hsx]
        cases hlen : (c :: ks : GoStr).length - (gs ".x").length with
        | zero =>
          left
          rfl
        | succ n =>
          right
          exact ⟨ks.take n, rfl⟩
      have hinner : (((d :: is : GoStr) = trimSuffixS (c :: ks) (gs ".x")) ∨
          hasPrefixS (d :: is) (trimSuffixS (c :: ks) (gs ".x") ++ ['.']) = true) → False := by
        rintro (h | h)
        · rcases hkb with hb | ⟨t, hb⟩
          · rw [hb] at h
            cases h
          · rw [hb] at h
            exact hcd ((List.cons_eq_cons.mp h.symm).1)
        · rcases hkb with hb | ⟨t, hb⟩
          · rw [hb] at h
            have : ('.' : Char) = d := hasPrefixS_cons_head (by simpa using h)
            rw [← this] at hdd
            exact absurd hdd (by decide)
          · rw [hb, List.cons_append] at h
            exact hcd (hasPrefixS_cons_head h)
      have hinner1 : (decide ((d :: is : GoStr) = trimSuffixS (c :: ks) (gs ".x"))) = false := by
        rw [decide_eq_false_iff_not]
        intro h
        exact hinner (Or.inl h)
      have hinner2 : hasPrefixS (d :: is) (trimSuffixS (c :: ks) (gs ".x") ++ ['.']) = false := by
        rcases hb : hasPrefixS (d :: is) (trimSuffixS (c :: ks) (gs ".x") ++ ['.']) with _ | _
        · rfl
        · exact (hinner (Or.inr hb)).elim
      simp only [hsx, if_true, hinner1, hinner2, Bool.or_self, Bool.false_eq_true, if_false]
      exact hfall
    · have hsxf : hasSuffixS (c :: ks) (gs ".x") = false := by
        rcases hb : hasSuffixS (c :: ks) (gs ".x") with _ | _
        · rfl
        · exact absurd hb hsx
      have hpatchf : isPatchLevelKeyCompatible (c :: ks) (d :: is) = false := by
        by_cases hpt : isSimpleSemverTriplet (c :: ks) = true
        · have hall : ∀ ch ∈ (c :: ks : GoStr), ch = '.' ∨ ch.isDigit = true := by
            intro ch hm
            have h1 : ((c :: ks : GoStr).all fun x => x = '.' || x.isDigit) = true := by
              unfold isSimpleSemverTriplet at hpt
              exact ((Bool.and_eq_true _ _).mp hpt).1
            have h2 := List.all_eq_true.mp h1 ch hm
            simpa using h2
          have hcdot : c = '.' := by
            rcases hall c (List.mem_cons_self c ks) with h | h
            · exact h
            · rw [hcnd] at h
              cases h
          subst hcdot
          have hparse : parseAddonVersionFloor ('.' :: ks) = none :=
            parseFloor_dot_leading_none ks hall
          unfold isPatchLevelKeyCompatible
          simp only [hpt, Bool.not_true, Bool.false_eq_true, if_false]
          rw [hparse]
        · have : isSimpleSemverTriplet (c :: ks) = false := by
            rcases hb : isSimpleSemverTriplet (c :: ks) with _ | _
            · rfl
            · exact absurd hb hpt
          unfold isPatchLevelKeyCompatible
          rw [this]
          simp
      simp only [hsxf, Bool.false_eq_true, if_false, hpatchf]
      exact hfall



/-- The key returned by the `bestDirectKey` loop is either the incoming best
or a key from the list whose score matched. -/
theorem bestDirectKey_mem (instN : GoStr) : ∀ (keys : List GoStr) (bk : GoStr) (bs : Int),
    bestDirectKey instN keys bk bs = bk ∨
    (bestDirectKey instN keys bk bs ∈ keys ∧
      (scoreMatrixKeyMatch (bestDirectKey instN keys bk bs) instN).2 = true)
  | [], bk, bs => Or.inl rfl
  | key :: rest, bk, bs => by
    unfold bestDirectKey
    rcases hsc : (scoreMatrixKeyMatch key instN).2 with _ | _
    · simp only [hsc, Bool.not_false, if_true]
      rcases bestDirectKey_mem instN rest bk bs with h | ⟨h1, h2⟩
      · exact Or.inl h
      · exact Or.inr ⟨List.mem_cons_of_mem key h1, h2⟩
    · simp only [hsc, Bool.not_true, Bool.false_eq_true, if_false]
      by_cases hlt : bs < (scoreMatrixKeyMatch key instN).1
      · rw [if_pos hlt]
        rcases bestDirectKey_mem instN rest key (scoreMatrixKeyMatch key instN).1 with h | ⟨h1, h2⟩
        · exact Or.inr ⟨by rw [h]; exact List.mem_cons_self key rest, by rw [h]; exact hsc⟩
        · exact Or.inr ⟨List.mem_cons_of_mem key h1, h2⟩
      · rw [if_neg hlt]
        rcases bestDirectKey_mem instN rest bk bs with h | ⟨h1, h2⟩
        · exact Or.inl h
        · exact Or.inr ⟨List.mem_cons_of_mem key h1, h2⟩

/-- **C3 (amended).** For every matrix key whose trimmed, `"v"`-stripped,
lower-cased form does not begin with a digit, and every installed version
whose normalized form *begins with a digit*, the direct matrix-matching score
of that key is `(0, false)` and such a key is never selected as the
best-matching key. -/
theorem C3_nonsemver_score_zero_never_selected (key instN instRaw : GoStr)
    (matrix : Matrix) (matchedKey : GoStr) (matchedVers : List GoStr)
    (hk : isNonSemverKey (keyNormOf key) = true)
    (hdN : startsWithDigit instN = true)
    (hdR : startsWithDigit (installedNormOf instRaw) = true)
    (hsel : findDirectMatrixCompatibilityMatch matrix instRaw =
      some (matchedKey, matchedVers)) :
    scoreMatrixKeyMatch key instN = (0, false) ∧
    isNonSemverKey (keyNormOf matchedKey) = false := by
  refine ⟨score_nonsemver_eq_zero key instN hk hdN, ?_⟩
  have hne : installedNormOf instRaw ≠ [] := by
    intro h
    rw [h] at hdR
    exact absurd hdR (by decide)
  unfold findDirectMatrixCompatibilityMatch at hsel
  simp only [if_neg hne] at hsel
  by_cases hb : bestDirectKey (installedNormOf instRaw) (sortedMatrixKeys matrix) [] (-1) = []
  · rw [if_pos hb] at hsel
    cases hsel
  · rw [if_neg hb] at hsel
    have hkey : matchedKey =
        bestDirectKey (installedNormOf instRaw) (sortedMatrixKeys matrix) [] (-1) := by
      have := (Option.some.injEq _ _).mp hsel
      exact (congrArg Prod.fst this).symm
    rcases bestDirectKey_mem (installedNormOf instRaw) (sortedMatrixKeys matrix) [] (-1)
      with h | ⟨_, h2⟩
    · exact absurd h hb
    · rcases hnk : isNonSemverKey (keyNormOf matchedKey) with _ | _
      · rfl
      · have := score_nonsemver_eq_zero matchedKey (installedNormOf instRaw) hnk hdR
        rw [hkey] at this
        rw [this] at h2
        cases h2

/-- **C3 witness.** `C3_nonsemver_score_zero_never_selected` at key
`"master"`, installed version `"1.0.0"`, and a concrete matrix resolution. -/
theorem C3_nonsemver_score_zero_never_selected_witness :
    scoreMatrixKeyMatch (gs "master") (gs "1.0.0") = (0, false) ∧
    isNonSemverKey (keyNormOf (gs "1.15")) = false := by
  exact C3_nonsemver_score_zero_never_selected (gs "master") (gs "1.0.0") (gs "1.15.2")
    [(gs "master", [gs "1.30"]), (gs "1.15", [gs "1.30"])] (gs "1.15") [gs "1.30"]
    (by decide) (by decide) (by decide) (by decide)

/-! ## Claim C4: numeric tuple comparison -/

/-- The comparison described by the spec: "dot-separated integer tuples,
comparing left-to-right, treating a missing trailing component as zero".
Defined from the spec's words, to be compared with the source comparators. -/
def specTupleCmp (a b : List Nat) : Int :=
  if a = [] ∧ b = [] then 0
  else
    if a.headD 0 < b.headD 0 then -1
    else if b.headD 0 < a.headD 0 then 1
    else specTupleCmp a.tail b.tail
termination_by a.length + b.length
decreasing_by
  rcases a with _ | ⟨x, xs⟩ <;> rcases b with _ | ⟨y, ys⟩ <;> simp_all <;> omega

/-- **C4 counterexample.** Two resolver comparisons are not zero-padded tuple
comparisons: `compareK8sVersions "1" "1.5"` returns `0` (the missing minor
component is ignored, not read as zero, so the min/max fallback accepts
platform `"1"` against minimum `"1.5"`), and `findLatestCompatibleVersion`
breaks ties between keys with no parseable floor by *lexical* string order. -/
theorem C4_counterexample :
    compareK8sVersions (gs "1") (gs "1.5") = 0 ∧
    compareAddonVersionFloors [1] [1, 5] = -1 ∧
    (resolveFromStoredData
      ({ version := gs "v1.0.0", dbMatch := { kubernetesMinVersion := gs "1.5" } } :
        AddonWithInfo) (gs "1")).compatible = Status.strue ∧
    findLatestCompatibleVersion [(gs "alpha", [gs "1.30"]), (gs "beta", [gs "1.30"])]
      (gs "1.30") = gs "beta" ∧
    strLtB (gs "alpha") (gs "beta") = true := by
  exact ⟨by decide, by decide, by decide, by decide, by decide⟩

/-- The fuelled loop agrees with the spec comparator given enough fuel. -/
theorem cmpFloorsGo_eq_spec : ∀ (fuel : Nat) (a b : List Nat),
    a.length ≤ fuel → b.length ≤ fuel → cmpFloorsGo fuel a b = specTupleCmp a b
  | 0, a, b, ha, hb => by
    have ha0 : a = [] := List.length_eq_zero.mp (Nat.le_zero.mp ha)
    have hb0 : b = [] := List.length_eq_zero.mp (Nat.le_zero.mp hb)
    subst ha0
    subst hb0
    rw [specTupleCmp]
    simp [cmpFloorsGo]
  | fuel + 1, a, b, ha, hb => by
    rw [specTupleCmp]
    by_cases hz : a = [] ∧ b = []
    · rw [if_pos hz]
      obtain ⟨rfl, rfl⟩ := hz
      simp only [cmpFloorsGo, List.headD_nil, lt_irrefl, if_false, List.tail_nil]
      rw [cmpFloorsGo_eq_spec fuel [] [] (by simp) (by simp)]
      rw [specTupleCmp]
      simp
    · rw [if_neg hz]
      simp only [cmpFloorsGo]
      have hta : a.tail.length ≤ fuel := by
        cases a <;> simp_all
      have htb : b.tail.length ≤ fuel := by
        cases b <;> simp_all
      rw [cmpFloorsGo_eq_spec fuel a.tail b.tail hta htb]

/-- **C4 (amended).** The tuple comparator used for matrix keys, thresholds,
ranges and latest-version selection (`compareAddonVersionFloors`) is exactly
the left-to-right, zero-padded integer-tuple comparison of the spec; and the
major.minor comparator `compareK8sVersions` agrees with that tuple comparison
whenever both arguments have at least two dot-components.  (Per the
counterexample, a missing minor component is *ignored* rather than read as
zero, and keys with no parseable floor are ordered lexically.) -/
theorem C4_numeric_tuple_comparison :
    (∀ a b : List Nat, compareAddonVersionFloors a b = specTupleCmp a b) ∧
    (∀ (a b a0 a1 b0 b1 : GoStr) (na0 na1 nb0 nb1 : Nat),
      splitNCharS '.' 2 a = [a0, a1] → splitNCharS '.' 2 b = [b0, b1] →
      parseLeadingInt a0 = (na0 : Int) → parseLeadingInt a1 = (na1 : Int) →
      parseLeadingInt b0 = (nb0 : Int) → parseLeadingInt b1 = (nb1 : Int) →
      compareK8sVersions a b = specTupleCmp [na0, na1] [nb0, nb1]) := by
  constructor
  · intro a b
    exact cmpFloorsGo_eq_spec (max a.length b.length) a b (le_max_left _ _) (le_max_right _ _)
  · intro a b a0 a1 b0 b1 na0 na1 nb0 nb1 hsa hsb h0 h1 h2 h3
    unfold compareK8sVersions
    simp only [hsa, hsb, List.length_cons, List.length_nil, List.getD_cons_zero,
      List.getD_cons_succ, h0, h1, h2, h3]
    rw [if_neg (by simp)]
    rw [specTupleCmp]
    rw [specTupleCmp]
    rw [specTupleCmp]
    simp only [List.headD_cons, List.tail_cons, Nat.cast_lt]
    by_cases hmaj : na0 = nb0
    · subst hmaj
      simp only [ne_eq, not_true_eq_false, if_false, lt_irrefl, ite_self]
      by_cases hmin : na1 < nb1
      · simp [hmin]
      · by_cases hmin2 : nb1 < na1
        · simp [hmin, hmin2, Nat.cast_lt]
        · simp [hmin, hmin2, Nat.cast_lt]
    · have : (na0 : Int) ≠ (nb0 : Int) := by exact_mod_cast hmaj
      simp only [ne_eq, this, not_false_eq_true, if_true, hmaj]
      by_cases hlt : na0 < nb0
      · simp [hlt, Nat.cast_lt]
      · have hni : ¬ (na0 : Int) < (nb0 : Int) := by exact_mod_cast hlt
        have hgt : nb0 < na0 := by omega
        simp [hlt, hni, hgt, Nat.cast_lt]

/-- **C4 witness.** `C4_numeric_tuple_comparison` at `"1.30"` vs `"1.29"`. -/
theorem C4_numeric_tuple_comparison_witness :
    compareK8sVersions (gs "1.30") (gs "1.29") = specTupleCmp [1, 30] [1, 29] := by
  exact C4_numeric_tuple_comparison.2 (gs "1.30") (gs "1.29") (gs "1") (gs "30")
    (gs "1") (gs "29") 1 30 1 29 (by decide) (by decide) (by decide) (by decide)
    (by decide) (by decide)

/-! ## Claim C10: graceful unknown with latest-compatible hint -/

/-- The empty string has no parseable floor. -/
theorem parseFloor_nil : parseAddonVersionFloor ([] : GoStr) = none := by decide

/-- Nothing is lexicographically below the empty string. -/
theorem strLtB_nil_right (s : GoStr) : strLtB s [] = false := by
  cases s <;> rfl

/-- One step of the latest-version loop either keeps the current best key or
moves to the entry's key, and moves only when the entry supports the target. -/
theorem latestStep_fst (t : GoStr) (st : GoStr × Option (List Nat))
    (e : GoStr × List GoStr) :
    (latestStep t st e).1 = st.1 ∨
    ((latestStep t st e).1 = e.1 ∧
      e.2.any (fun v => normalizeK8sVersion v = t) = true) := by
  obtain ⟨k, vs⟩ := e
  unfold latestStep
  by_cases hsupp : supportsK8sVersion vs t = true
  · rw [if_pos hsupp]
    repeat' split
    all_goals first
      | exact Or.inr ⟨rfl, hsupp⟩
      | exact Or.inl rfl
  · rw [if_neg hsupp]
    exact Or.inl rfl

/-- A step keeps a nonempty best key nonempty. -/
theorem latestStep_ne_nil (t : GoStr) (st : GoStr × Option (List Nat))
    (e : GoStr × List GoStr) (h : st.1 ≠ []) : (latestStep t st e).1 ≠ [] := by
  obtain ⟨k, vs⟩ := e
  have hkparse : ∀ p, parseAddonVersionFloor k = some p → k ≠ [] := by
    intro p hp hknil
    rw [hknil, parseFloor_nil] at hp
    cases hp
  unfold latestStep
  by_cases hsupp : supportsK8sVersion vs t = true
  · rw [if_pos hsupp]
    split
    · rename_i cp heq
      have hk := hkparse cp heq
      repeat' split
      all_goals first | exact hk | exact h
    · rw [if_neg h]
      split
      · exact h
      · split
        · rename_i hlt
          intro hknil
          rw [hknil, strLtB_nil_right] at hlt
          cases hlt
        · exact h
  · rw [if_neg hsupp]
    exact h

/-- The latest-version fold only lands on keys of entries that support the
target (or keeps the incoming state). -/
theorem latest_fold_mem (t : GoStr) : ∀ (m : Matrix) (st : GoStr × Option (List Nat)),
    (m.foldl (latestStep t) st).1 = st.1 ∨
    ∃ vs, ((m.foldl (latestStep t) st).1, vs) ∈ m ∧
      vs.any (fun v => normalizeK8sVersion v = t) = true
  | [], st => Or.inl rfl
  | e :: m, st => by
    rw [List.foldl_cons]
    rcases latest_fold_mem t m (latestStep t st e) with h | ⟨vs, hmem, hany⟩
    · rw [h]
      rcases latestStep_fst t st e with h2 | ⟨h2, h3⟩
      · exact Or.inl h2
      · exact Or.inr ⟨e.2, by rw [h2]; exact ⟨List.mem_cons_self e m, h3⟩⟩
    · exact Or.inr ⟨vs, List.mem_cons_of_mem e hmem, hany⟩

/-- If some entry with a nonempty key supports the target, the latest-version
fold ends on a nonempty key. -/
theorem latest_fold_ne_nil (t : GoStr) : ∀ (m : Matrix) (st : GoStr × Option (List Nat)),
    (st.1 ≠ [] ∨ ∃ p ∈ m, p.1 ≠ [] ∧ p.2.any (fun v => normalizeK8sVersion v = t) = true) →
    (m.foldl (latestStep t) st).1 ≠ []
  | [], st, h => by
    rcases h with h | ⟨p, hp, _⟩
    · exact h
    · cases hp
  | e :: m, st, h => by
    rw [List.foldl_cons]
    rcases h with h | ⟨p, hp, hpne, hpany⟩
    · exact latest_fold_ne_nil t m _ (Or.inl (latestStep_ne_nil t st e h))
    · rcases List.mem_cons.mp hp with rfl | hpm
      · by_cases hst : st.1 = []
        · apply latest_fold_ne_nil t m _ (Or.inl ?_)
          obtain ⟨k, vs⟩ := p
          have hpany' : supportsK8sVersion vs t = true := hpany
          unfold latestStep
          rw [if_pos hpany']
          split
          · rw [if_pos hst]
            exact hpne
          · rw [if_pos hst]
            exact hpne
        · exact latest_fold_ne_nil t m _ (Or.inl (latestStep_ne_nil t st p hst))
      · exact latest_fold_ne_nil t m _ (Or.inr ⟨p, hpm, hpne, hpany⟩)

/-- **C10.** When an entry has a non-empty compatibility matrix but no direct
match, no threshold verdict and no min/max data, the stored-data resolver
still returns a verdict record (the model is a total function) with verdict
`unknown`; and if some matrix key's supported-version set contains the target
platform version, `latestCompatibleVersion` is set to such a key and the note
names it. -/
theorem C10_unknown_branch (info : AddonWithInfo) (k8sVersion : GoStr)
    (hne : info.dbMatch.kubernetesCompatibility ≠ [])
    (hdir : findDirectMatrixCompatibilityMatch info.dbMatch.kubernetesCompatibility
      (trimPrefixS info.version (gs "v")) = none)
    (hthr : findThresholdCompatibilityMatch info.dbMatch.kubernetesCompatibility
      (trimPrefixS info.version (gs "v")) (normalizeK8sVersion k8sVersion) = none)
    (hmin : info.dbMatch.kubernetesMinVersion = [])
    (hmax : info.dbMatch.kubernetesMaxVersion = []) :
    (resolveFromStoredData info k8sVersion).compatible = Status.unknown ∧
    ((∃ p ∈ info.dbMatch.kubernetesCompatibility, p.1 ≠ [] ∧
        p.2.any (fun v => normalizeK8sVersion v = normalizeK8sVersion k8sVersion) = true) →
      (resolveFromStoredData info k8sVersion).latestCompatibleVersion ≠ [] ∧
      (∃ vs, ((resolveFromStoredData info k8sVersion).latestCompatibleVersion, vs) ∈
          info.dbMatch.kubernetesCompatibility ∧
        vs.any (fun v => normalizeK8sVersion v = normalizeK8sVersion k8sVersion) = true) ∧
      (resolveFromStoredData info k8sVersion).note =
        appendSourceReference
          (gs "Installed version " ++ info.version ++
            gs " not found in stored matrix. Latest version supporting K8s " ++
            normalizeK8sVersion k8sVersion ++ gs ": " ++
            (resolveFromStoredData info k8sVersion).latestCompatibleVersion)
          info.dbMatch.compatibilityMatrixURL) := by
  have hmm : resolveFromMinMaxVersion info.dbMatch (normalizeK8sVersion k8sVersion) = none := by
    unfold resolveFromMinMaxVersion
    rw [if_pos ⟨hmin, hmax⟩]
  have hres : resolveFromStoredData info k8sVersion =
      (if findLatestCompatibleVersion info.dbMatch.kubernetesCompatibility
          (normalizeK8sVersion k8sVersion) ≠ [] then
        { name := info.name, nspace := info.nspace, installedVersion := info.version,
          dataSource := DataSource.stored, compatible := Status.unknown,
          latestCompatibleVersion := findLatestCompatibleVersion
            info.dbMatch.kubernetesCompatibility (normalizeK8sVersion k8sVersion),
          note := appendSourceReference
            (gs "Installed version " ++ info.version ++
              gs " not found in stored matrix. Latest version supporting K8s " ++
              normalizeK8sVersion k8sVersion ++ gs ": " ++
              findLatestCompatibleVersion info.dbMatch.kubernetesCompatibility
                (normalizeK8sVersion k8sVersion))
            info.dbMatch.compatibilityMatrixURL }
      else
        { name := info.name, nspace := info.nspace, installedVersion := info.version,
          dataSource := DataSource.stored, compatible := Status.unknown,
          note := appendSourceReference
            (gs "Installed version " ++ info.version ++
              gs " not found in stored compatibility matrix")
            info.dbMatch.compatibilityMatrixURL }) := by
    unfold resolveFromStoredData
    rw [if_pos hne]
    simp only [hdir, hthr, hmm]
  constructor
  · rw [hres]
    by_cases hL : findLatestCompatibleVersion info.dbMatch.kubernetesCompatibility
        (normalizeK8sVersion k8sVersion) ≠ []
    · rw [if_pos hL]
    · rw [if_neg hL]
  · intro hex
    have hL : findLatestCompatibleVersion info.dbMatch.kubernetesCompatibility
        (normalizeK8sVersion k8sVersion) ≠ [] := by
      unfold findLatestCompatibleVersion
      exact latest_fold_ne_nil _ _ _ (Or.inr hex)
    rw [hres, if_pos hL]
    refine ⟨by simpa using hL, ?_, by simp⟩
    have := latest_fold_mem (normalizeK8sVersion k8sVersion)
      info.dbMatch.kubernetesCompatibility ([], none)
    rcases this with h | ⟨vs, hmem, hany⟩
    · exact absurd h hL
    · exact ⟨vs, hmem, hany⟩

/-- **C10 witness.** `C10_unknown_branch` at installed `"9.9.9"`, matrix
`{"1.0": ["1.30"]}`, target `"1.30"`. -/
theorem C10_unknown_branch_witness :
    (resolveFromStoredData
      ({ version := gs "9.9.9",
         dbMatch := { kubernetesCompatibility := [(gs "1.0", [gs "1.30"])] } } :
        AddonWithInfo) (gs "1.30")).compatible = Status.unknown ∧
    (resolveFromStoredData
      ({ version := gs "9.9.9",
         dbMatch := { kubernetesCompatibility := [(gs "1.0", [gs "1.30"])] } } :
        AddonWithInfo) (gs "1.30")).latestCompatibleVersion ≠ [] := by
  have h := C10_unknown_branch
    ({ version := gs "9.9.9",
       dbMatch := { kubernetesCompatibility := [(gs "1.0", [gs "1.30"])] } } :
      AddonWithInfo) (gs "1.30") (by decide) (by decide) (by decide) (by decide) (by decide)
  exact ⟨h.1, (h.2 ⟨(gs "1.0", [gs "1.30"]), by decide, by decide, by decide⟩).1⟩

/-! ## Claim C1: order-independence of the resolver -/

/-- The two permuted matrices of the C1 counterexample. -/
def c1m1 : Matrix := [(gs "1.0", [gs "1.30"]), (gs "1.0.0", [gs "1.30"])]

/-- Reversal of `c1m1`. -/
def c1m2 : Matrix := [(gs "1.0.0", [gs "1.30"]), (gs "1.0", [gs "1.30"])]

/-- C1 counterexample resolver input over `c1m1`. -/
def c1info1 : AddonWithInfo :=
  { version := gs "9.9.9", dbMatch := { kubernetesCompatibility := c1m1 } }

/-- C1 counterexample resolver input over `c1m2`. -/
def c1info2 : AddonWithInfo :=
  { version := gs "9.9.9", dbMatch := { kubernetesCompatibility := c1m2 } }

/-- **C1 counterexample.** `findLatestCompatibleVersion` (and
`findThresholdCompatibilityMatch`) iterate the Go map directly, so when two
distinct keys have equal parsed floors (`"1.0"` and `"1.0.0"` both parse to
floor `[1,0]`-with-padding) the selected key — and hence the resolver's
`latestCompatibleVersion` and note — depends on map iteration order. -/
theorem C1_counterexample :
    c1m1.Perm c1m2 ∧
    (resolveFromStoredData c1info1 (gs "1.30")).latestCompatibleVersion = gs "1.0" ∧
    (resolveFromStoredData c1info2 (gs "1.30")).latestCompatibleVersion = gs "1.0.0" ∧
    resolveFromStoredData c1info1 (gs "1.30") ≠ resolveFromStoredData c1info2 (gs "1.30") := by
  refine ⟨List.Perm.swap _ _ _, by decide, by decide, by decide⟩

/-- The comparison loop is skew-symmetric at any fuel. -/
theorem cmpFloorsGo_neg : ∀ (n : Nat) (a b : List Nat),
    cmpFloorsGo n a b = -(cmpFloorsGo n b a)
  | 0, a, b => rfl
  | n + 1, a, b => by
    unfold cmpFloorsGo
    rcases Nat.lt_trichotomy (a.headD 0) (b.headD 0) with h | h | h
    · rw [if_pos h, if_neg (by omega), if_pos h]
    · rw [if_neg (by omega), if_neg (by omega), if_neg (by omega), if_neg (by omega),
        cmpFloorsGo_neg n a.tail b.tail]
    · rw [if_neg (by omega), if_pos h, if_pos h]
      rfl

/-- The comparison loop is transitive in its positive part at a fixed fuel. -/
theorem cmpFloorsGo_trans_pos : ∀ (n : Nat) (a b c : List Nat),
    0 < cmpFloorsGo n a b → 0 < cmpFloorsGo n b c → 0 < cmpFloorsGo n a c
  | 0, a, b, c, h1, h2 => by
    simp [cmpFloorsGo] at h1
  | n + 1, a, b, c, h1, h2 => by
    unfold cmpFloorsGo at h1 h2 ⊢
    rcases Nat.lt_trichotomy (a.headD 0) (b.headD 0) with hab | hab | hab
    · rw [if_pos hab] at h1
      omega
    · rw [if_neg (by omega), if_neg (by omega)] at h1
      rcases Nat.lt_trichotomy (b.headD 0) (c.headD 0) with hbc | hbc | hbc
      · rw [if_pos hbc] at h2
        omega
      · rw [if_neg (by omega), if_neg (by omega)] at h2
        rw [if_neg (by omega), if_neg (by omega)]
        exact cmpFloorsGo_trans_pos n a.tail b.tail c.tail h1 h2
      · rw [if_neg (by omega), if_pos (by omega)]
        omega
    · rcases Nat.lt_trichotomy (b.headD 0) (c.headD 0) with hbc | hbc | hbc
      · rw [if_pos hbc] at h2
        omega
      · rw [if_neg (by omega), if_pos (by omega)]
        omega
      · rw [if_neg (by omega), if_pos (by omega)]
        omega

/-- `compareAddonVersionFloors` at any sufficient fuel. -/
theorem cmp_eq_go {a b : List Nat} (n : Nat) (ha : a.length ≤ n) (hb : b.length ≤ n) :
    compareAddonVersionFloors a b = cmpFloorsGo n a b := by
  rw [cmpFloorsGo_eq_spec n a b ha hb]
  exact cmpFloorsGo_eq_spec (max a.length b.length) a b (le_max_left _ _) (le_max_right _ _)

/-- Skew symmetry of the floor comparator. -/
theorem cmp_neg (a b : List Nat) :
    compareAddonVersionFloors a b = -(compareAddonVersionFloors b a) := by
  rw [cmp_eq_go (max a.length b.length) (le_max_left _ _) (le_max_right _ _),
    cmp_eq_go (max a.length b.length) (le_max_right _ _) (le_max_left _ _)]
  exact cmpFloorsGo_neg _ a b

/-- Transitivity of the strictly-greater part of the floor comparator. -/
theorem cmp_trans_pos {a b c : List Nat}
    (h1 : 0 < compareAddonVersionFloors a b) (h2 : 0 < compareAddonVersionFloors b c) :
    0 < compareAddonVersionFloors a c := by
  have hn := le_max_left (max a.length b.length) c.length
  set n := max (max a.length b.length) c.length with hdef
  have ha : a.length ≤ n := le_trans (le_max_left _ _) hn
  have hb : b.length ≤ n := le_trans (le_max_right _ _) hn
  have hc : c.length ≤ n := le_max_right _ _
  rw [cmp_eq_go n ha hb] at h1
  rw [cmp_eq_go n hb hc] at h2
  rw [cmp_eq_go n ha hc]
  exact cmpFloorsGo_trans_pos n a b c h1 h2

/-- Lexical strict order: asymmetry. -/
theorem strLtB_asymm : ∀ {a b : GoStr}, strLtB a b = true → strLtB b a = false
  | [], [], h => by cases h
  | [], _ :: _, _ => rfl
  | _ :: _, [], h => by cases h
  | x :: xs, y :: ys, h => by
    unfold strLtB at h ⊢
    rcases lt_trichotomy x y with hxy | rfl | hxy
    · rw [if_neg (lt_asymm hxy), if_pos hxy]
    · rw [if_neg (lt_irrefl x), if_neg (lt_irrefl x)] at h ⊢
      exact strLtB_asymm h
    · rw [if_neg (lt_asymm hxy), if_pos hxy] at h
      cases h

/-- Lexical strict order: transitivity. -/
theorem strLtB_trans : ∀ {a b c : GoStr},
    strLtB a b = true → strLtB b c = true → strLtB a c = true
  | [], [], _, h1, _ => by cases h1
  | [], _ :: _, [], _, h2 => by cases h2
  | [], _ :: _, _ :: _, _, _ => rfl
  | _ :: _, [], _, h1, _ => by cases h1
  | _ :: _, _ :: _, [], _, h2 => by cases h2
  | x :: xs, y :: ys, z :: zs, h1, h2 => by
    unfold strLtB at h1 h2 ⊢
    rcases lt_trichotomy x y with hxy | rfl | hxy
    · rcases lt_trichotomy y z with hyz | rfl | hyz
      · rw [if_pos (lt_trans hxy hyz)]
      · rw [if_pos hxy]
      · rw [if_neg (lt_asymm hyz), if_pos hyz] at h2
        cases h2
    · rw [if_neg (lt_irrefl x), if_neg (lt_irrefl x)] at h1
      rcases lt_trichotomy x z with hxz | rfl | hxz
      · rw [if_pos hxz]
      · rw [if_neg (lt_irrefl x), if_neg (lt_irrefl x)] at h2 ⊢
        exact strLtB_trans h1 h2
      · rw [if_neg (lt_asymm hxz), if_pos hxz] at h2
        cases h2
    · rw [if_neg (lt_asymm hxy), if_pos hxy] at h1
      cases h1

/-- Lexical strict order: connexity. -/
theorem strLtB_connex : ∀ {a b : GoStr},
    strLtB a b = false → strLtB b a = false → a = b
  | [], [], _, _ => rfl
  | [], _ :: _, h1, _ => by cases h1
  | _ :: _, [], _, h2 => by cases h2
  | x :: xs, y :: ys, h1, h2 => by
    unfold strLtB at h1 h2
    rcases lt_trichotomy x y with hxy | rfl | hxy
    · rw [if_pos hxy] at h1
      cases h1
    · rw [if_neg (lt_irrefl x), if_neg (lt_irrefl x)] at h1 h2
      rw [strLtB_connex h1 h2]
    · rw [if_pos hxy] at h2
      cases h2

instance : IsTotal GoStr strLe :=
  ⟨fun a b => by
    unfold strLe strLeB
    by_cases h : strLtB b a = true
    · right
      rw [strLtB_asymm h]
      rfl
    · left
      rw [Bool.not_eq_true] at h
      rw [h]
      rfl⟩

instance : IsTrans GoStr strLe :=
  ⟨fun a b c hab hbc => by
    unfold strLe strLeB at hab hbc ⊢
    rw [Bool.not_eq_true'] at hab hbc ⊢
    rcases hca : strLtB c a with _ | _
    · rfl
    · exfalso
      rcases hbc2 : strLtB b c with _ | _
      · rw [strLtB_connex hbc2 hbc] at hab
        rw [hab] at hca
        cases hca
      · have hba := strLtB_trans hbc2 hca
        rw [hba] at hab
        cases hab⟩

instance : IsAntisymm GoStr strLe :=
  ⟨fun a b hab hba => by
    unfold strLe strLeB at hab hba
    rw [Bool.not_eq_true'] at hab hba
    exact (strLtB_connex hba hab)⟩

/-- `sortedMatrixKeys` is invariant under permutation of the matrix entries. -/
theorem sortedMatrixKeys_perm {m1 m2 : Matrix} (h : m1.Perm m2) :
    sortedMatrixKeys m1 = sortedMatrixKeys m2 := by
  unfold sortedMatrixKeys
  apply List.eq_of_perm_of_sorted (r := strLe)
  · exact (List.perm_insertionSort strLe _).trans ((h.map Prod.fst).trans
      (List.perm_insertionSort strLe _).symm)
  · exact List.sorted_insertionSort strLe _
  · exact List.sorted_insertionSort strLe _

/-- Go map lookup is permutation-invariant for duplicate-free keys. -/
theorem lookupMatrix_perm {m1 m2 : Matrix} (h : m1.Perm m2)
    (hnd : (m1.map Prod.fst).Nodup) (k : GoStr) :
    lookupMatrix m1 k = lookupMatrix m2 k := by
  have hinj := List.inj_on_of_nodup_map hnd
  unfold lookupMatrix
  rcases h1 : m1.find? (fun p => p.1 = k) with _ | p1
  · rcases h2 : m2.find? (fun p => p.1 = k) with _ | p2
    · rw [h1, h2]
    · have hp2 : p2 ∈ m2 := List.mem_of_find?_eq_some h2
      have hp2k := List.find?_some h2
      have : m1.find? (fun p => p.1 = k) ≠ none := by
        rw [Ne, List.find?_eq_none]
        push_neg
        exact ⟨p2, h.mem_iff.mpr hp2, hp2k⟩
      exact absurd h1 this
  · have hp1 : p1 ∈ m1 := List.mem_of_find?_eq_some h1
    have hp1k : p1.1 = k := by
      have hx := List.find?_some h1
      simpa using hx
    rcases h2 : m2.find? (fun p => p.1 = k) with _ | p2
    · have : m2.find? (fun p => p.1 = k) ≠ none := by
        rw [Ne, List.find?_eq_none]
        push_neg
        exact ⟨p1, h.mem_iff.mp hp1, by simpa using hp1k⟩
      exact absurd h2 this
    · have hp2 : p2 ∈ m2 := List.mem_of_find?_eq_some h2
      have hp2k : p2.1 = k := by
        have hx := List.find?_some h2
        simpa using hx
      have hpp : p1 = p2 := hinj hp1 (h.mem_iff.mpr hp2) (by rw [hp1k, hp2k])
      rw [h1, h2, hpp]

/-- `findDirectMatrixCompatibilityMatch` is invariant under permutation of
the matrix entries (the code sorts the keys before scoring). -/
theorem findDirect_perm {m1 m2 : Matrix} (h : m1.Perm m2)
    (hnd : (m1.map Prod.fst).Nodup) (inst : GoStr) :
    findDirectMatrixCompatibilityMatch m1 inst = findDirectMatrixCompatibilityMatch m2 inst := by
  unfold findDirectMatrixCompatibilityMatch
  rw [sortedMatrixKeys_perm h]
  by_cases hni : installedNormOf inst = []
  · rw [if_pos hni, if_pos hni]
  · rw [if_neg hni, if_neg hni]
    by_cases hb : bestDirectKey (installedNormOf inst) (sortedMatrixKeys m2) [] (-1) = []
    · rw [if_pos hb, if_pos hb]
    · rw [if_neg hb, if_neg hb, lookupMatrix_perm h hnd]

/-- State invariant of the latest-version fold: an empty best key carries no
floor, and a recorded floor is the parse of the best key. -/
def LatestValid (st : GoStr × Option (List Nat)) : Prop :=
  (st.1 = [] → st.2 = none) ∧
  (∀ p, st.2 = some p → parseAddonVersionFloor st.1 = some p)

/-- Pairwise condition under which key selection is order-independent:
distinct keys, and distinct floors among parseable keys that support the
target. -/
def SelRel (t : GoStr) (e1 e2 : GoStr × List GoStr) : Prop :=
  e1.1 ≠ e2.1 ∧
  (∀ p1 p2, supportsK8sVersion e1.2 t = true → supportsK8sVersion e2.2 t = true →
    parseAddonVersionFloor e1.1 = some p1 → parseAddonVersionFloor e2.1 = some p2 →
    compareAddonVersionFloors p1 p2 ≠ 0)

/-- `SelRel` is symmetric. -/
theorem SelRel_symm {t : GoStr} {e1 e2 : GoStr × List GoStr} (h : SelRel t e1 e2) :
    SelRel t e2 e1 := by
  refine ⟨h.1.symm, fun p2 p1 hs2 hs1 hp2 hp1 hc => ?_⟩
  apply h.2 p1 p2 hs1 hs2 hp1 hp2
  rw [cmp_neg, hc]
  rfl

/-- A non-supporting entry leaves the latest-version state unchanged. -/
theorem latestStep_not_supp (t : GoStr) (st : GoStr × Option (List Nat))
    (e : GoStr × List GoStr) (hs : supportsK8sVersion e.2 t = false) :
    latestStep t st e = st := by
  unfold latestStep
  rw [if_neg]
  rw [Bool.not_eq_true]
  exact hs

/-- Normal form of a supporting, parseable step. -/
theorem latestStep_supp_some (t : GoStr) (l : GoStr) (lp : Option (List Nat))
    (k : GoStr) (vs : List GoStr) (cp : List Nat)
    (hs : supportsK8sVersion vs t = true) (hp : parseAddonVersionFloor k = some cp) :
    latestStep t (l, lp) (k, vs) =
      (if l = [] then (k, some cp)
      else
        match lp with
        | some q =>
          if 0 < compareAddonVersionFloors cp q then (k, some cp) else (l, some q)
        | none => (k, some cp)) := by
  unfold latestStep
  rw [if_pos hs, hp]

/-- Normal form of a supporting, unparseable step. -/
theorem latestStep_supp_none (t : GoStr) (l : GoStr) (lp : Option (List Nat))
    (k : GoStr) (vs : List GoStr)
    (hs : supportsK8sVersion vs t = true) (hp : parseAddonVersionFloor k = none) :
    latestStep t (l, lp) (k, vs) =
      (if l = [] then (k, lp)
      else
        match lp with
        | some q => (l, some q)
        | none => if strLtB l k = true then (k, none) else (l, none)) := by
  unfold latestStep
  rw [if_pos hs, hp]

/-- A parseable key is nonempty. -/
theorem parse_some_ne_nil {k : GoStr} {p : List Nat}
    (hp : parseAddonVersionFloor k = some p) : k ≠ [] := by
  intro h
  rw [h, parseFloor_nil] at hp
  cases hp

/-- The latest-version step preserves `LatestValid`. -/
theorem latestStep_valid (t : GoStr) (st : GoStr × Option (List Nat))
    (e : GoStr × List GoStr) (hv : LatestValid st) : LatestValid (latestStep t st e) := by
  obtain ⟨l, lp⟩ := st
  obtain ⟨k, vs⟩ := e
  unfold latestStep
  split
  · split
    · rename_i cp hp
      split
      · exact ⟨fun h => absurd h (parse_some_ne_nil hp),
          fun p h => by cases h; exact hp⟩
      · rename_i hl
        split
      -- state floor present: compare, keep the larger
        · rename_i q heq
          split
          · exact ⟨fun h => absurd h (parse_some_ne_nil hp),
              fun p h => by cases h; exact hp⟩
          · exact ⟨fun h => absurd h hl, fun p h => by cases h; exact hv.2 q heq⟩
        · exact ⟨fun h => absurd h (parse_some_ne_nil hp),
            fun p h => by cases h; exact hp⟩
    · split
      · rename_i hl
        have h2 : lp = none := hv.1 hl
        subst h2
        exact ⟨fun _ => rfl, fun p h => by cases h⟩
      · rename_i hl
        split
        · rename_i q heq
          exact ⟨fun h => absurd h hl, fun p h => by cases h; exact hv.2 q heq⟩
        · split
          · exact ⟨fun _ => rfl, fun p h => by cases h⟩
          · exact ⟨fun h => absurd h hl, fun p h => by cases h⟩
  · exact hv

/-- Supporting, parseable entry against an empty best: the entry wins. -/
theorem latestStep_sA (t : GoStr) (lp : Option (List Nat)) (k : GoStr)
    (vs : List GoStr) (cp : List Nat) (hs : supportsK8sVersion vs t = true)
    (hp : parseAddonVersionFloor k = some cp) :
    latestStep t ([], lp) (k, vs) = (k, some cp) := by
  unfold latestStep
  simp [hs, hp]

/-- Supporting, parseable entry with a larger floor than the best: the entry
wins. -/
theorem latestStep_sB (t : GoStr) (l : GoStr) (q : List Nat) (k : GoStr)
    (vs : List GoStr) (cp : List Nat) (hs : supportsK8sVersion vs t = true)
    (hp : parseAddonVersionFloor k = some cp) (hl : l ≠ [])
    (hc : 0 < compareAddonVersionFloors cp q) :
    latestStep t (l, some q) (k, vs) = (k, some cp) := by
  unfold latestStep
  simp [hs, hp, hl, hc]

/-- Supporting, parseable entry with a floor not above the best: the best is
kept. -/
theorem latestStep_sC (t : GoStr) (l : GoStr) (q : List Nat) (k : GoStr)
    (vs : List GoStr) (cp : List Nat) (hs : supportsK8sVersion vs t = true)
    (hp : parseAddonVersionFloor k = some cp) (hl : l ≠ [])
    (hc : ¬ 0 < compareAddonVersionFloors cp q) :
    latestStep t (l, some q) (k, vs) = (l, some q) := by
  unfold latestStep
  simp [hs, hp, hl, hc]

/-- Supporting, parseable entry against a nonempty best with no floor: the
entry wins. -/
theorem latestStep_sD (t : GoStr) (l : GoStr) (k : GoStr)
    (vs : List GoStr) (cp : List Nat) (hs : supportsK8sVersion vs t = true)
    (hp : parseAddonVersionFloor k = some cp) (hl : l ≠ []) :
    latestStep t (l, none) (k, vs) = (k, some cp) := by
  unfold latestStep
  simp [hs, hp, hl]

/-- Supporting, unparseable entry against an empty best: the entry key is
taken, the floor is kept. -/
theorem latestStep_sE (t : GoStr) (lp : Option (List Nat)) (k : GoStr)
    (vs : List GoStr) (hs : supportsK8sVersion vs t = true)
    (hp : parseAddonVersionFloor k = none) :
    latestStep t ([], lp) (k, vs) = (k, lp) := by
  unfold latestStep
  simp [hs, hp]

/-- Supporting, unparseable entry against a nonempty best with a floor: the
best is kept. -/
theorem latestStep_sF (t : GoStr) (l : GoStr) (q : List Nat) (k : GoStr)
    (vs : List GoStr) (hs : supportsK8sVersion vs t = true)
    (hp : parseAddonVersionFloor k = none) (hl : l ≠ []) :
    latestStep t (l, some q) (k, vs) = (l, some q) := by
  unfold latestStep
  simp [hs, hp, hl]

/-- Supporting, unparseable entry, floorless best, lexically larger entry key:
the entry wins. -/
theorem latestStep_sG (t : GoStr) (l : GoStr) (k : GoStr)
    (vs : List GoStr) (hs : supportsK8sVersion vs t = true)
    (hp : parseAddonVersionFloor k = none) (hl : l ≠ [])
    (hlt : strLtB l k = true) :
    latestStep t (l, none) (k, vs) = (k, none) := by
  unfold latestStep
  simp [hs, hp, hl, hlt]

/-- Supporting, unparseable entry, floorless best, entry key not lexically
larger: the best is kept. -/
theorem latestStep_sH (t : GoStr) (l : GoStr) (k : GoStr)
    (vs : List GoStr) (hs : supportsK8sVersion vs t = true)
    (hp : parseAddonVersionFloor k = none) (hl : l ≠ [])
    (hlt : ¬ strLtB l k = true) :
    latestStep t (l, none) (k, vs) = (l, none) := by
  unfold latestStep
  simp [hs, hp, hl, hlt]

/-- A boolean that is not `true` is `false`. -/
theorem bfalse_of_not_true {b : Bool} (h : ¬ b = true) : b = false := by
  rcases hb : b with _ | _
  · rfl
  · exact absurd hb h

/-- Keys incomparable under `strLtB` in both directions are equal. -/
theorem strLtB_total_ne {a b : GoStr} (hab : ¬ strLtB a b = true)
    (hba : ¬ strLtB b a = true) : a = b :=
  strLtB_connex (bfalse_of_not_true hab) (bfalse_of_not_true hba)

/-- Head-to-head: two supporting parseable keys with distinct floors give the
same winner from either side. -/
theorem latestStep_duel (t : GoStr) (kx ky : GoStr) (vsx vsy : List GoStr)
    (px py : List Nat) (hsx : supportsK8sVersion vsx t = true)
    (hsy : supportsK8sVersion vsy t = true)
    (hpx : parseAddonVersionFloor kx = some px)
    (hpy : parseAddonVersionFloor ky = some py)
    (hne : compareAddonVersionFloors px py ≠ 0) :
    latestStep t (kx, some px) (ky, vsy) = latestStep t (ky, some py) (kx, vsx) := by
  have hkx : kx ≠ [] := parse_some_ne_nil hpx
  have hky : ky ≠ [] := parse_some_ne_nil hpy
  by_cases hc : 0 < compareAddonVersionFloors px py
  · have hc' : ¬ 0 < compareAddonVersionFloors py px := by
      rw [cmp_neg]
      omega
    rw [latestStep_sC t kx px ky vsy py hsy hpy hkx hc',
      latestStep_sB t ky py kx vsx px hsx hpx hky hc]
  · have hc' : 0 < compareAddonVersionFloors py px := by
      rw [cmp_neg]
      omega
    rw [latestStep_sB t kx px ky vsy py hsy hpy hkx hc',
      latestStep_sC t ky py kx vsx px hsx hpx hky hc]

/-- A supporting parseable key and a supporting unparseable key commute as
steps of the latest-version fold over any valid state. -/
theorem latestStep_comm_mixed (t : GoStr) (kx ky : GoStr) (vsx vsy : List GoStr)
    (px : List Nat) (l : GoStr) (lp : Option (List Nat))
    (hv : LatestValid (l, lp))
    (hsx : supportsK8sVersion vsx t = true) (hsy : supportsK8sVersion vsy t = true)
    (hpx : parseAddonVersionFloor kx = some px)
    (hpy : parseAddonVersionFloor ky = none) :
    latestStep t (latestStep t (l, lp) (kx, vsx)) (ky, vsy) =
      latestStep t (latestStep t (l, lp) (ky, vsy)) (kx, vsx) := by
  have hkx : kx ≠ [] := parse_some_ne_nil hpx
  by_cases hl : l = []
  · subst hl
    have hlp : lp = none := hv.1 rfl
    subst hlp
    rw [latestStep_sA t none kx vsx px hsx hpx,
      latestStep_sE t none ky vsy hsy hpy,
      latestStep_sF t kx px ky vsy hsy hpy hkx]
    by_cases hky : ky = []
    · subst hky
      rw [latestStep_sA t none kx vsx px hsx hpx]
    · rw [latestStep_sD t ky kx vsx px hsx hpx hky]
  · cases lp with
    | some q =>
      rw [latestStep_sF t l q ky vsy hsy hpy hl]
      by_cases hxq : 0 < compareAddonVersionFloors px q
      · rw [latestStep_sB t l q kx vsx px hsx hpx hl hxq,
          latestStep_sF t kx px ky vsy hsy hpy hkx]
      · rw [latestStep_sC t l q kx vsx px hsx hpx hl hxq,
          latestStep_sF t l q ky vsy hsy hpy hl]
    | none =>
      rw [latestStep_sD t l kx vsx px hsx hpx hl,
        latestStep_sF t kx px ky vsy hsy hpy hkx]
      by_cases hlt : strLtB l ky = true
      · rw [latestStep_sG t l ky vsy hsy hpy hl hlt]
        have hkyne : ky ≠ [] := by
          intro h
          rw [h, strLtB_nil_right] at hlt
          cases hlt
        rw [latestStep_sD t ky kx vsx px hsx hpx hkyne]
      · rw [latestStep_sH t l ky vsy hsy hpy hl hlt,
          latestStep_sD t l kx vsx px hsx hpx hl]

/-- Two entries satisfying `SelRel` commute as steps of the latest-version
fold, starting from any valid state. -/
theorem latestStep_comm (t : GoStr) (x y : GoStr × List GoStr)
    (st : GoStr × Option (List Nat)) (hv : LatestValid st) (hr : SelRel t x y) :
    latestStep t (latestStep t st x) y = latestStep t (latestStep t st y) x := by
  obtain ⟨kx, vsx⟩ := x
  obtain ⟨ky, vsy⟩ := y
  obtain ⟨l, lp⟩ := st
  have hkxky : kx ≠ ky := hr.1
  by_cases hsx : supportsK8sVersion vsx t = true
  · by_cases hsy : supportsK8sVersion vsy t = true
    · cases hpx : parseAddonVersionFloor kx with
      | some px =>
        cases hpy : parseAddonVersionFloor ky with
        | some py =>
          have hne : compareAddonVersionFloors px py ≠ 0 :=
            hr.2 px py hsx hsy hpx hpy
          have hkx : kx ≠ [] := parse_some_ne_nil hpx
          have hky : ky ≠ [] := parse_some_ne_nil hpy
          by_cases hl : l = []
          · subst hl
            rw [latestStep_sA t lp kx vsx px hsx hpx,
              latestStep_sA t lp ky vsy py hsy hpy]
            exact latestStep_duel t kx ky vsx vsy px py hsx hsy hpx hpy hne
          · cases lp with
            | none =>
              rw [latestStep_sD t l kx vsx px hsx hpx hl,
                latestStep_sD t l ky vsy py hsy hpy hl]
              exact latestStep_duel t kx ky vsx vsy px py hsx hsy hpx hpy hne
            | some q =>
              by_cases hxq : 0 < compareAddonVersionFloors px q
              · by_cases hyq : 0 < compareAddonVersionFloors py q
                · rw [latestStep_sB t l q kx vsx px hsx hpx hl hxq,
                    latestStep_sB t l q ky vsy py hsy hpy hl hyq]
                  exact latestStep_duel t kx ky vsx vsy px py hsx hsy hpx hpy hne
                · rw [latestStep_sB t l q kx vsx px hsx hpx hl hxq,
                    latestStep_sC t l q ky vsy py hsy hpy hl hyq]
                  have h1 : ¬ 0 < compareAddonVersionFloors py px :=
                    fun hgt => hyq (cmp_trans_pos hgt hxq)
                  rw [latestStep_sC t kx px ky vsy py hsy hpy hkx h1,
                    latestStep_sB t l q kx vsx px hsx hpx hl hxq]
              · by_cases hyq : 0 < compareAddonVersionFloors py q
                · rw [latestStep_sC t l q kx vsx px hsx hpx hl hxq,
                    latestStep_sB t l q ky vsy py hsy hpy hl hyq]
                  have h1 : ¬ 0 < compareAddonVersionFloors px py :=
                    fun hgt => hxq (cmp_trans_pos hgt hyq)
                  rw [latestStep_sC t ky py kx vsx px hsx hpx hky h1]
                · rw [latestStep_sC t l q kx vsx px hsx hpx hl hxq,
                    latestStep_sC t l q ky vsy py hsy hpy hl hyq,
                    latestStep_sC t l q kx vsx px hsx hpx hl hxq]
        | none =>
          exact latestStep_comm_mixed t kx ky vsx vsy px l lp hv hsx hsy hpx hpy
      | none =>
        cases hpy : parseAddonVersionFloor ky with
        | some py =>
          exact (latestStep_comm_mixed t ky kx vsy vsx py l lp hv hsy hsx hpy hpx).symm
        | none =>
          by_cases hl : l = []
          · subst hl
            have hlp : lp = none := hv.1 rfl
            subst hlp
            rw [latestStep_sE t none kx vsx hsx hpx,
              latestStep_sE t none ky vsy hsy hpy]
            by_cases hkx : kx = []
            · subst hkx
              have hkyne : ky ≠ [] := Ne.symm hkxky
              rw [latestStep_sE t none ky vsy hsy hpy,
                latestStep_sH t ky ([] : GoStr) vsx hsx hpx hkyne
                  (by simp [strLtB_nil_right])]
            · by_cases hky : ky = []
              · subst hky
                rw [latestStep_sH t kx ([] : GoStr) vsy hsy hpy hkx
                    (by simp [strLtB_nil_right]),
                  latestStep_sE t none kx vsx hsx hpx]
              · by_cases hxy : strLtB kx ky = true
                · have h1 : ¬ strLtB ky kx = true := by simp [strLtB_asymm hxy]
                  rw [latestStep_sG t kx ky vsy hsy hpy hkx hxy,
                    latestStep_sH t ky kx vsx hsx hpx hky h1]
                · by_cases hyx : strLtB ky kx = true
                  · rw [latestStep_sH t kx ky vsy hsy hpy hkx hxy,
                      latestStep_sG t ky kx vsx hsx hpx hky hyx]
                  · exact absurd (strLtB_total_ne hxy hyx) hkxky
          · cases lp with
            | some q =>
              rw [latestStep_sF t l q kx vsx hsx hpx hl,
                latestStep_sF t l q ky vsy hsy hpy hl,
                latestStep_sF t l q kx vsx hsx hpx hl]
            | none =>
              by_cases hlx : strLtB l kx = true
              · rw [latestStep_sG t l kx vsx hsx hpx hl hlx]
                have hkxne : kx ≠ [] := by
                  intro h
                  rw [h, strLtB_nil_right] at hlx
                  cases hlx
                by_cases hly : strLtB l ky = true
                · rw [latestStep_sG t l ky vsy hsy hpy hl hly]
                  have hkyne : ky ≠ [] := by
                    intro h
                    rw [h, strLtB_nil_right] at hly
                    cases hly
                  by_cases hxy : strLtB kx ky = true
                  · have h1 : ¬ strLtB ky kx = true := by simp [strLtB_asymm hxy]
                    rw [latestStep_sG t kx ky vsy hsy hpy hkxne hxy,
                      latestStep_sH t ky kx vsx hsx hpx hkyne h1]
                  · by_cases hyx : strLtB ky kx = true
                    · rw [latestStep_sH t kx ky vsy hsy hpy hkxne hxy,
                        latestStep_sG t ky kx vsx hsx hpx hkyne hyx]
                    · exact absurd (strLtB_total_ne hxy hyx) hkxky
                · rw [latestStep_sH t l ky vsy hsy hpy hl hly,
                    latestStep_sG t l kx vsx hsx hpx hl hlx]
                  have h1 : ¬ strLtB kx ky = true := fun h => hly (strLtB_trans hlx h)
                  rw [latestStep_sH t kx ky vsy hsy hpy hkxne h1]
              · rw [latestStep_sH t l kx vsx hsx hpx hl hlx]
                by_cases hly : strLtB l ky = true
                · rw [latestStep_sG t l ky vsy hsy hpy hl hly]
                  have hkyne : ky ≠ [] := by
                    intro h
                    rw [h, strLtB_nil_right] at hly
                    cases hly
                  have h1 : ¬ strLtB ky kx = true := fun h => hlx (strLtB_trans hly h)
                  rw [latestStep_sH t ky kx vsx hsx hpx hkyne h1]
                · rw [latestStep_sH t l ky vsy hsy hpy hl hly,
                    latestStep_sH t l kx vsx hsx hpx hl hlx]
    · have hsy' : supportsK8sVersion vsy t = false := bfalse_of_not_true hsy
      rw [latestStep_not_supp t (latestStep t (l, lp) (kx, vsx)) (ky, vsy) hsy',
        latestStep_not_supp t (l, lp) (ky, vsy) hsy']
  · have hsx' : supportsK8sVersion vsx t = false := bfalse_of_not_true hsx
    rw [latestStep_not_supp t (l, lp) (kx, vsx) hsx',
      latestStep_not_supp t (latestStep t (l, lp) (ky, vsy)) (kx, vsx) hsx']

/-- The latest-version fold is invariant under permutation of the matrix,
given pairwise `SelRel` and a valid initial state. -/
theorem latest_foldl_perm (t : GoStr) {m1 m2 : Matrix} (h : m1.Perm m2) :
    ∀ st, List.Pairwise (SelRel t) m1 → LatestValid st →
      m1.foldl (latestStep t) st = m2.foldl (latestStep t) st := by
  induction h with
  | nil =>
    intro st _ _
    rfl
  | cons e h' ih =>
    intro st hp hv
    rw [List.foldl_cons, List.foldl_cons]
    exact ih (latestStep t st e) hp.of_cons (latestStep_valid t st e hv)
  | swap a b l =>
    intro st hp hv
    rw [List.foldl_cons, List.foldl_cons, List.foldl_cons, List.foldl_cons]
    have hrel : SelRel t b a :=
      (List.pairwise_cons.mp hp).1 a (List.mem_cons_self a l)
    rw [latestStep_comm t b a st hv hrel]
  | trans h1 h2 ih1 ih2 =>
    intro st hp hv
    rw [ih1 st hp hv,
      ih2 st ((h1.pairwise_iff fun hab => SelRel_symm hab).mp hp) hv]

/-- `findLatestCompatibleVersion` is invariant under permutation of the
matrix, given pairwise `SelRel`. -/
theorem findLatest_perm (t : GoStr) {m1 m2 : Matrix} (h : m1.Perm m2)
    (hp : List.Pairwise (SelRel t) m1) :
    findLatestCompatibleVersion m1 t = findLatestCompatibleVersion m2 t := by
  unfold findLatestCompatibleVersion
  rw [latest_foldl_perm t h ([], none) hp ⟨fun _ => rfl, fun p hp2 => by cases hp2⟩]

/-- A non-supporting entry leaves the threshold state unchanged. -/
theorem thresholdStep_ns (ip : List Nat) (t : GoStr)
    (best : Option (GoStr × List GoStr × List Nat)) (k : GoStr) (vs : List GoStr)
    (hs : supportsK8sVersion vs t = false) :
    thresholdStep ip t best (k, vs) = best := by
  unfold thresholdStep
  simp [hs]

/-- An unparseable key leaves the threshold state unchanged. -/
theorem thresholdStep_np (ip : List Nat) (t : GoStr)
    (best : Option (GoStr × List GoStr × List Nat)) (k : GoStr) (vs : List GoStr)
    (hs : supportsK8sVersion vs t = true) (hp : parseAddonVersionFloor k = none) :
    thresholdStep ip t best (k, vs) = best := by
  unfold thresholdStep
  simp [hs, hp]

/-- A key whose floor is above the installed version leaves the threshold
state unchanged. -/
theorem thresholdStep_lo (ip : List Nat) (t : GoStr)
    (best : Option (GoStr × List GoStr × List Nat)) (k : GoStr) (vs : List GoStr)
    (kp : List Nat) (hs : supportsK8sVersion vs t = true)
    (hp : parseAddonVersionFloor k = some kp)
    (hlo : compareAddonVersionFloors ip kp < 0) :
    thresholdStep ip t best (k, vs) = best := by
  unfold thresholdStep
  simp [hs, hp, hlo]

/-- A qualifying key against an empty threshold state is adopted. -/
theorem thresholdStep_new (ip : List Nat) (t : GoStr) (k : GoStr) (vs : List GoStr)
    (kp : List Nat) (hs : supportsK8sVersion vs t = true)
    (hp : parseAddonVersionFloor k = some kp)
    (hlo : ¬ compareAddonVersionFloors ip kp < 0) :
    thresholdStep ip t none (k, vs) = some (k, vs, kp) := by
  unfold thresholdStep
  simp [hs, hp, hlo]

/-- A qualifying key with a floor above the current best replaces it. -/
theorem thresholdStep_beat (ip : List Nat) (t : GoStr) (k : GoStr) (vs : List GoStr)
    (kp : List Nat) (bk : GoStr) (bv : List GoStr) (bp : List Nat)
    (hs : supportsK8sVersion vs t = true)
    (hp : parseAddonVersionFloor k = some kp)
    (hlo : ¬ compareAddonVersionFloors ip kp < 0)
    (hb : 0 < compareAddonVersionFloors kp bp) :
    thresholdStep ip t (some (bk, bv, bp)) (k, vs) = some (k, vs, kp) := by
  unfold thresholdStep
  simp [hs, hp, hlo, hb]

/-- A qualifying key with a floor not above the current best is discarded. -/
theorem thresholdStep_keep (ip : List Nat) (t : GoStr) (k : GoStr) (vs : List GoStr)
    (kp : List Nat) (bk : GoStr) (bv : List GoStr) (bp : List Nat)
    (hs : supportsK8sVersion vs t = true)
    (hp : parseAddonVersionFloor k = some kp)
    (hlo : ¬ compareAddonVersionFloors ip kp < 0)
    (hb : ¬ 0 < compareAddonVersionFloors kp bp) :
    thresholdStep ip t (some (bk, bv, bp)) (k, vs) = some (bk, bv, bp) := by
  unfold thresholdStep
  simp [hs, hp, hlo, hb]

/-- Two entries satisfying `SelRel` commute as steps of the threshold fold. -/
theorem thresholdStep_comm (ip : List Nat) (t : GoStr) (x y : GoStr × List GoStr)
    (hr : SelRel t x y) (best : Option (GoStr × List GoStr × List Nat)) :
    thresholdStep ip t (thresholdStep ip t best x) y =
      thresholdStep ip t (thresholdStep ip t best y) x := by
  obtain ⟨kx, vsx⟩ := x
  obtain ⟨ky, vsy⟩ := y
  by_cases hsx : supportsK8sVersion vsx t = true
  · by_cases hsy : supportsK8sVersion vsy t = true
    · cases hpx : parseAddonVersionFloor kx with
      | none =>
        rw [thresholdStep_np ip t best kx vsx hsx hpx,
          thresholdStep_np ip t (thresholdStep ip t best (ky, vsy)) kx vsx hsx hpx]
      | some px =>
        cases hpy : parseAddonVersionFloor ky with
        | none =>
          rw [thresholdStep_np ip t best ky vsy hsy hpy,
            thresholdStep_np ip t (thresholdStep ip t best (kx, vsx)) ky vsy hsy hpy]
        | some py =>
          by_cases hbx : compareAddonVersionFloors ip px < 0
          · rw [thresholdStep_lo ip t best kx vsx px hsx hpx hbx,
              thresholdStep_lo ip t (thresholdStep ip t best (ky, vsy)) kx vsx px hsx
                hpx hbx]
          · by_cases hby : compareAddonVersionFloors ip py < 0
            · rw [thresholdStep_lo ip t best ky vsy py hsy hpy hby,
                thresholdStep_lo ip t (thresholdStep ip t best (kx, vsx)) ky vsy py hsy
                  hpy hby]
            · have hne : compareAddonVersionFloors px py ≠ 0 :=
                hr.2 px py hsx hsy hpx hpy
              cases best with
              | none =>
                rw [thresholdStep_new ip t kx vsx px hsx hpx hbx,
                  thresholdStep_new ip t ky vsy py hsy hpy hby]
                by_cases hc : 0 < compareAddonVersionFloors px py
                · have hc' : ¬ 0 < compareAddonVersionFloors py px := by
                    rw [cmp_neg]
                    omega
                  rw [thresholdStep_keep ip t ky vsy py kx vsx px hsy hpy hby hc',
                    thresholdStep_beat ip t kx vsx px ky vsy py hsx hpx hbx hc]
                · have hc' : 0 < compareAddonVersionFloors py px := by
                    rw [cmp_neg]
                    omega
                  rw [thresholdStep_beat ip t ky vsy py kx vsx px hsy hpy hby hc',
                    thresholdStep_keep ip t kx vsx px ky vsy py hsx hpx hbx hc]
              | some b =>
                obtain ⟨bk, bv, bp⟩ := b
                by_cases hxb : 0 < compareAddonVersionFloors px bp
                · rw [thresholdStep_beat ip t kx vsx px bk bv bp hsx hpx hbx hxb]
                  by_cases hyb : 0 < compareAddonVersionFloors py bp
                  · rw [thresholdStep_beat ip t ky vsy py bk bv bp hsy hpy hby hyb]
                    by_cases hc : 0 < compareAddonVersionFloors px py
                    · have hc' : ¬ 0 < compareAddonVersionFloors py px := by
                        rw [cmp_neg]
                        omega
                      rw [thresholdStep_keep ip t ky vsy py kx vsx px hsy hpy hby hc',
                        thresholdStep_beat ip t kx vsx px ky vsy py hsx hpx hbx hc]
                    · have hc' : 0 < compareAddonVersionFloors py px := by
                        rw [cmp_neg]
                        omega
                      rw [thresholdStep_beat ip t ky vsy py kx vsx px hsy hpy hby hc',
                        thresholdStep_keep ip t kx vsx px ky vsy py hsx hpx hbx hc]
                  · rw [thresholdStep_keep ip t ky vsy py bk bv bp hsy hpy hby hyb,
                      thresholdStep_beat ip t kx vsx px bk bv bp hsx hpx hbx hxb]
                    have hc' : ¬ 0 < compareAddonVersionFloors py px :=
                      fun hgt => hyb (cmp_trans_pos hgt hxb)
                    rw [thresholdStep_keep ip t ky vsy py kx vsx px hsy hpy hby hc']
                · rw [thresholdStep_keep ip t kx vsx px bk bv bp hsx hpx hbx hxb]
                  by_cases hyb : 0 < compareAddonVersionFloors py bp
                  · rw [thresholdStep_beat ip t ky vsy py bk bv bp hsy hpy hby hyb]
                    have hc' : ¬ 0 < compareAddonVersionFloors px py :=
                      fun hgt => hxb (cmp_trans_pos hgt hyb)
                    rw [thresholdStep_keep ip t kx vsx px ky vsy py hsx hpx hbx hc']
                  · rw [thresholdStep_keep ip t ky vsy py bk bv bp hsy hpy hby hyb,
                      thresholdStep_keep ip t kx vsx px bk bv bp hsx hpx hbx hxb]
    · have hsy' : supportsK8sVersion vsy t = false := bfalse_of_not_true hsy
      rw [thresholdStep_ns ip t (thresholdStep ip t best (kx, vsx)) ky vsy hsy',
        thresholdStep_ns ip t best ky vsy hsy']
  · have hsx' : supportsK8sVersion vsx t = false := bfalse_of_not_true hsx
    rw [thresholdStep_ns ip t best kx vsx hsx',
      thresholdStep_ns ip t (thresholdStep ip t best (ky, vsy)) kx vsx hsx']

/-- The threshold fold is invariant under permutation of the matrix, given
pairwise `SelRel`. -/
theorem threshold_foldl_perm (ip : List Nat) (t : GoStr) {m1 m2 : Matrix}
    (h : m1.Perm m2) :
    ∀ best, List.Pairwise (SelRel t) m1 →
      m1.foldl (thresholdStep ip t) best = m2.foldl (thresholdStep ip t) best := by
  induction h with
  | nil =>
    intro best _
    rfl
  | cons e h' ih =>
    intro best hp
    rw [List.foldl_cons, List.foldl_cons]
    exact ih (thresholdStep ip t best e) hp.of_cons
  | swap a b l =>
    intro best hp
    rw [List.foldl_cons, List.foldl_cons, List.foldl_cons, List.foldl_cons]
    have hrel : SelRel t b a :=
      (List.pairwise_cons.mp hp).1 a (List.mem_cons_self a l)
    rw [thresholdStep_comm ip t b a hrel best]
  | trans h1 h2 ih1 ih2 =>
    intro best hp
    rw [ih1 best hp, ih2 best ((h1.pairwise_iff fun hab => SelRel_symm hab).mp hp)]

/-- `List.any` is invariant under permutation. -/
theorem any_perm {α : Type} {l1 l2 : List α} (h : l1.Perm l2) (f : α → Bool) :
    l1.any f = l2.any f := by
  rcases h1 : l1.any f with _ | _ <;> rcases h2 : l2.any f with _ | _
  · rfl
  · rw [List.any_eq_true] at h2
    obtain ⟨a, ha, hfa⟩ := h2
    have h3 := List.any_eq_true.mpr ⟨a, h.mem_iff.mpr ha, hfa⟩
    rw [h1] at h3
    cases h3
  · rw [List.any_eq_true] at h1
    obtain ⟨a, ha, hfa⟩ := h1
    have h3 := List.any_eq_true.mpr ⟨a, h.mem_iff.mp ha, hfa⟩
    rw [h2] at h3
    cases h3
  · rfl

/-- A permuted matrix passes the threshold-style shape test identically. -/
theorem looksLike_perm {m1 m2 : Matrix} (h : m1.Perm m2) :
    looksLikeThresholdStyleMatrix m1 = looksLikeThresholdStyleMatrix m2 := by
  unfold looksLikeThresholdStyleMatrix
  exact any_perm h _

/-- `findThresholdCompatibilityMatch` is invariant under permutation of the
matrix, given pairwise `SelRel`. -/
theorem findThreshold_perm (iv t : GoStr) {m1 m2 : Matrix} (h : m1.Perm m2)
    (hp : List.Pairwise (SelRel t) m1) :
    findThresholdCompatibilityMatch m1 iv t = findThresholdCompatibilityMatch m2 iv t := by
  unfold findThresholdCompatibilityMatch
  rw [looksLike_perm h]
  cases hpi : parseAddonVersionFloor iv with
  | none => rfl
  | some ip =>
    have hfold := threshold_foldl_perm ip t h none hp
    simp only [hfold]

/-- `resolveFromMinMaxVersion` depends only on the min/max fields. -/
theorem minmax_congr (a b : Addon) (t : GoStr)
    (hmin : a.kubernetesMinVersion = b.kubernetesMinVersion)
    (hmax : a.kubernetesMaxVersion = b.kubernetesMaxVersion) :
    resolveFromMinMaxVersion a t = resolveFromMinMaxVersion b t := by
  unfold resolveFromMinMaxVersion
  rw [hmin, hmax]

/-- **C1 (amended).** For every addon entry, installed version and target
platform version, the stored-data resolver returns the same verdict record —
same verdict, same cited key, same `latestCompatibleVersion`, same note — for
any two iteration orders of the compatibility matrix, PROVIDED the matrix has
no duplicate keys and no two distinct keys that both support the target and
both parse to a numeric floor have equal floors. (Without the floor proviso
the resolver is order-dependent; see `C1_counterexample`.) -/
theorem C1_resolver_order_independent (info : AddonWithInfo) (m1 m2 : Matrix)
    (k8s : GoStr) (hperm : m1.Perm m2)
    (hnd : (m1.map Prod.fst).Nodup)
    (hfl : List.Pairwise
      (fun e1 e2 : GoStr × List GoStr =>
        ∀ p1 p2, supportsK8sVersion e1.2 (normalizeK8sVersion k8s) = true →
          supportsK8sVersion e2.2 (normalizeK8sVersion k8s) = true →
          parseAddonVersionFloor e1.1 = some p1 →
          parseAddonVersionFloor e2.1 = some p2 →
          compareAddonVersionFloors p1 p2 ≠ 0) m1) :
    resolveFromStoredData
        { info with dbMatch := { info.dbMatch with kubernetesCompatibility := m1 } } k8s =
      resolveFromStoredData
        { info with dbMatch := { info.dbMatch with kubernetesCompatibility := m2 } } k8s := by
  by_cases hm1 : m1 = []
  · have hm2 : m2 = [] := by
      rw [hm1] at hperm
      exact hperm.symm.eq_nil
    rw [hm1, hm2]
  · have hm2 : m2 ≠ [] := by
      intro h
      rw [h] at hperm
      exact hm1 hperm.eq_nil
    have hknd : List.Pairwise (fun e1 e2 : GoStr × List GoStr => e1.1 ≠ e2.1) m1 :=
      List.pairwise_map.mp hnd
    have hrel : List.Pairwise (SelRel (normalizeK8sVersion k8s)) m1 := hknd.and hfl
    have hd := findDirect_perm hperm hnd (trimPrefixS info.version (gs "v"))
    have hth := findThreshold_perm (trimPrefixS info.version (gs "v"))
      (normalizeK8sVersion k8s) hperm hrel
    have hlat := findLatest_perm (normalizeK8sVersion k8s) hperm hrel
    have hmm := minmax_congr { info.dbMatch with kubernetesCompatibility := m1 }
      { info.dbMatch with kubernetesCompatibility := m2 }
      (normalizeK8sVersion k8s) rfl rfl
    unfold resolveFromStoredData
    simp only [hd, hth, hlat, hmm]
    rw [if_pos hm1, if_pos hm2]

/-- A concrete two-entry matrix with distinct keys and distinct floors. -/
def c1w1 : Matrix := [(gs "1.0", [gs "1.30"]), (gs "2.0", [gs "1.31"])]

/-- The same matrix in the opposite iteration order. -/
def c1w2 : Matrix := [(gs "2.0", [gs "1.31"]), (gs "1.0", [gs "1.30"])]

/-- Witness: the amended C1 theorem applied to a concrete permuted pair of
matrices, every hypothesis discharged concretely. -/
theorem C1_resolver_order_independent_witness :
    resolveFromStoredData
        { ({} : AddonWithInfo) with
          dbMatch := { ({} : AddonWithInfo).dbMatch with
                       kubernetesCompatibility := c1w1 } } (gs "1.30") =
      resolveFromStoredData
        { ({} : AddonWithInfo) with
          dbMatch := { ({} : AddonWithInfo).dbMatch with
                       kubernetesCompatibility := c1w2 } } (gs "1.30") :=
  C1_resolver_order_independent {} c1w1 c1w2 (gs "1.30")
    (List.Perm.swap (gs "2.0", [gs "1.31"]) (gs "1.0", [gs "1.30"]) [])
    (by decide)
    (by
      refine List.Pairwise.cons ?_ (List.Pairwise.cons ?_ List.Pairwise.nil)
      · intro e2 hmem p1 p2 _ _ hp1 hp2
        have he : e2 = (gs "2.0", [gs "1.31"]) := List.mem_singleton.mp hmem
        subst he
        have h1 : p1 = [1, 0] := by
          rw [show parseAddonVersionFloor
              ((gs "1.0", [gs "1.30"]) : GoStr × List GoStr).1 = some [1, 0] from
            by decide] at hp1
          exact (Option.some.inj hp1).symm
        have h2 : p2 = [2, 0] := by
          rw [show parseAddonVersionFloor
              ((gs "2.0", [gs "1.31"]) : GoStr × List GoStr).1 = some [2, 0] from
            by decide] at hp2
          exact (Option.some.inj hp2).symm
        subst h1
        subst h2
        decide
      · intro e2 hmem
        exact absurd hmem (List.not_mem_nil e2))

/-! ## Claims C6 and C7: the addon name matcher (`addon.go`) -/

/-- `addonAliases` from `addon.go`. -/
def addonAliases : List (GoStr × GoStr) :=
  [(gs "nodelocaldns", gs "nodelocal dnscache"),
   (gs "node-local-dns", gs "nodelocal dnscache")]

/-- Go map lookup on `addonAliases` (distinct keys, so order-insensitive). -/
def aliasCanonical (s : GoStr) : Option GoStr :=
  (addonAliases.find? fun p => p.1 = s).map Prod.snd

/-- `componentRoleSuffixes` from `addon.go` (the keys of the Go set). -/
def componentRoleSuffixes : List GoStr :=
  [gs "node", gs "controller", gs "master", gs "replica", gs "replicas",
   gs "server", gs "agent", gs "webhook", gs "init", gs "snapshotter",
   gs "operator", gs "scheduler", gs "driver"]

/-- `normalizeName` from `addon.go`. -/
def normalizeName (name : GoStr) : GoStr :=
  let n := goToLower name
  let n2 := n.map fun c => if c = '-' then ' ' else c
  let n3 := joinS (fieldsS n2) (gs " ")
  if hasPrefixS n3 (gs "amazon ") then gs "aws " ++ n3.drop 7 else n3

/-- Index of the last occurrence of `c` in `s` (Go `strings.LastIndex` for a
one-character pattern), `-1` when absent. -/
def lastIndexCharS : GoStr → Char → Int
  | [], _ => -1
  | a :: rest, c =>
    let r := lastIndexCharS rest c
    if 0 ≤ r then r + 1
    else if a = c then 0 else -1

/-- `stripRoleSuffix` from `addon.go`. -/
def stripRoleSuffix (normalized : GoStr) : GoStr × Bool :=
  let idx := lastIndexCharS normalized ' '
  if idx ≤ 0 then (normalized, false)
  else
    let lastWord := normalized.drop (idx.toNat + 1)
    if componentRoleSuffixes.any (fun w => w = lastWord) then
      (normalized.take idx.toNat, true)
    else (normalized, false)

/-- `wordSubsetMatch` from `addon.go`. -/
def wordSubsetMatch (subset superset : GoStr) : Bool :=
  (fieldsS subset).all fun w => (fieldsS superset).any fun w2 => w2 = w

/-- The `firstByLower` map of `NewMatcher`: first catalog entry whose
lower-cased name is `key` (Go map insertion keeps the first entry). -/
def firstByLower (catalog : List Addon) (key : GoStr) : Option Addon :=
  catalog.find? fun a => goToLower a.name = key

/-- The detected name after Pass 0 (alias resolution) of `Matcher.Match`. -/
def matchLower (name : GoStr) : GoStr :=
  match aliasCanonical (goToLower name) with
  | some canonical => canonical
  | none => goToLower name

/-- The role-stripped core of the normalized detected name. -/
def matchCore (name : GoStr) : GoStr := (stripRoleSuffix (normalizeName name)).1

/-- Pass 4 of `Matcher.Match` for one candidate string: catalog entries whose
lower-cased name starts with the candidate plus a separator, in catalog
order. -/
def pass4For (catalog : List Addon) (candidate : GoStr) : List Addon :=
  catalog.filter fun a =>
    hasPrefixS (goToLower a.name) (candidate ++ gs " ") ||
      hasPrefixS (goToLower a.name) (candidate ++ gs "-")

/-- Pass 5 of `Matcher.Match`: catalog entries (of name length at least 4)
whose lower-cased name plus a separator starts the normalized detected name. -/
def pass5For (catalog : List Addon) (normalized : GoStr) : List Addon :=
  catalog.filter fun a =>
    decide (4 ≤ (goToLower a.name).length) &&
      (hasPrefixS normalized (goToLower a.name ++ gs " ") ||
        hasPrefixS normalized (goToLower a.name ++ gs "-"))

/-- Pass 6 of `Matcher.Match`: word-subset matches, only for multi-word
cores. -/
def pass6For (catalog : List Addon) (core : GoStr) : List Addon :=
  if 2 ≤ (fieldsS core).length then
    catalog.filter fun a => wordSubsetMatch core (goToLower a.name)
  else []

/-- `Matcher.Match` from `addon.go`: the matcher built by `NewMatcher` over
`catalog`, applied to detected name `name`. -/
def matchName (catalog : List Addon) (name : GoStr) : List Addon :=
  match firstByLower catalog (matchLower name) with
  | some e => [e]
  | none =>
    match (if normalizeName name ≠ matchLower name
        then firstByLower catalog (normalizeName name) else none) with
    | some e => [e]
    | none =>
      match (if (stripRoleSuffix (normalizeName name)).2
          then firstByLower catalog (matchCore name) else none) with
      | some e => [e]
      | none =>
        if (normalizeName name).length < 4 then []
        else if pass4For catalog (matchLower name) ≠ [] then
          pass4For catalog (matchLower name)
        else if pass4For catalog (normalizeName name) ≠ [] then
          pass4For catalog (normalizeName name)
        else if pass4For catalog (matchCore name) ≠ [] then
          pass4For catalog (matchCore name)
        else if pass5For catalog (normalizeName name) ≠ [] then
          pass5For catalog (normalizeName name)
        else pass6For catalog (matchCore name)

/-- A catalog entry named "istio operator". -/
def c6a1 : Addon := { name := gs "istio operator" }

/-- A catalog entry named "istio ambient mesh". -/
def c6a2 : Addon := { name := gs "istio ambient mesh" }

/-- Counterexample to C6 as stated: permuting the catalog permutes the
returned match list, so the returned entries are not "in the same order". -/
theorem C6_counterexample :
    ([c6a1, c6a2] : List Addon).Perm [c6a2, c6a1] ∧
    matchName [c6a1, c6a2] (gs "istio") = [c6a1, c6a2] ∧
    matchName [c6a2, c6a1] (gs "istio") = [c6a2, c6a1] ∧
    matchName [c6a1, c6a2] (gs "istio") ≠ matchName [c6a2, c6a1] (gs "istio") :=
  ⟨List.Perm.swap c6a2 c6a1 [], by decide, by decide, by decide⟩

/-- Under distinct lower-cased names, the `firstByLower` lookup is invariant
under permutation of the catalog. -/
theorem firstByLower_perm {c1 c2 : List Addon} (h : c1.Perm c2)
    (hnd : (c1.map fun a => goToLower a.name).Nodup) (key : GoStr) :
    firstByLower c1 key = firstByLower c2 key := by
  unfold firstByLower
  cases h1 : c1.find? (fun a => goToLower a.name = key) with
  | none =>
    cases h2 : c2.find? (fun a => goToLower a.name = key) with
    | none => rfl
    | some b =>
      have hb := List.find?_some h2
      have hbm : b ∈ c1 := h.mem_iff.mpr (List.mem_of_find?_eq_some h2)
      exact absurd hb (List.find?_eq_none.mp h1 b hbm)
  | some a =>
    have ha := List.find?_some h1
    have ham := List.mem_of_find?_eq_some h1
    cases h2 : c2.find? (fun a => goToLower a.name = key) with
    | none =>
      exact absurd ha (List.find?_eq_none.mp h2 a (h.mem_iff.mp ham))
    | some b =>
      have hb := List.find?_some h2
      have hbm : b ∈ c1 := h.mem_iff.mpr (List.mem_of_find?_eq_some h2)
      have hinj := List.inj_on_of_nodup_map hnd
      have hab : a = b := hinj ham hbm (by
        have ha' : goToLower a.name = key := by simpa using ha
        have hb' : goToLower b.name = key := by simpa using hb
        rw [ha', hb'])
      rw [hab]

/-- A permutation preserves non-emptiness. -/
theorem perm_ne_nil_iff {α : Type} {l1 l2 : List α} (h : l1.Perm l2) :
    (l1 ≠ []) ↔ (l2 ≠ []) := by
  constructor
  · intro hne h2
    rw [h2] at h
    exact hne h.eq_nil
  · intro hne h1
    rw [h1] at h
    exact hne h.symm.eq_nil

/-- `pass6For` maps permuted catalogs to permuted results. -/
theorem pass6For_perm {c1 c2 : List Addon} (h : c1.Perm c2) (core : GoStr) :
    (pass6For c1 core).Perm (pass6For c2 core) := by
  unfold pass6For
  by_cases hg : 2 ≤ (fieldsS core).length
  · rw [if_pos hg, if_pos hg]
    exact h.filter _
  · rw [if_neg hg, if_neg hg]

/-- **C6 (amended).** `Matcher.Match` applied to permuted catalogs returns the
same multiset of entries (the lists are permutations of one another; the
order follows catalog order), PROVIDED no two catalog entries share a
lower-cased name. As stated — same list in the same order — the claim fails;
see `C6_counterexample`. -/
theorem C6_match_perm (name : GoStr) (c1 c2 : List Addon) (hperm : c1.Perm c2)
    (hnd : (c1.map fun a => goToLower a.name).Nodup) :
    (matchName c1 name).Perm (matchName c2 name) := by
  unfold matchName
  rw [firstByLower_perm hperm hnd (matchLower name)]
  cases firstByLower c2 (matchLower name) with
  | some e => exact List.Perm.refl _
  | none =>
    rw [firstByLower_perm hperm hnd (normalizeName name)]
    cases (if normalizeName name ≠ matchLower name
        then firstByLower c2 (normalizeName name) else none) with
    | some e => exact List.Perm.refl _
    | none =>
      rw [firstByLower_perm hperm hnd (matchCore name)]
      cases (if (stripRoleSuffix (normalizeName name)).2
          then firstByLower c2 (matchCore name) else none) with
      | some e => exact List.Perm.refl _
      | none =>
        by_cases hlen : (normalizeName name).length < 4
        · rw [if_pos hlen, if_pos hlen]
        · rw [if_neg hlen, if_neg hlen]
          have h4a : (pass4For c1 (matchLower name)).Perm
              (pass4For c2 (matchLower name)) := hperm.filter _
          have h4b : (pass4For c1 (normalizeName name)).Perm
              (pass4For c2 (normalizeName name)) := hperm.filter _
          have h4c : (pass4For c1 (matchCore name)).Perm
              (pass4For c2 (matchCore name)) := hperm.filter _
          have h5 : (pass5For c1 (normalizeName name)).Perm
              (pass5For c2 (normalizeName name)) := hperm.filter _
          by_cases hc4a : pass4For c2 (matchLower name) ≠ []
          · rw [if_pos ((perm_ne_nil_iff h4a).mpr hc4a), if_pos hc4a]
            exact h4a
          · rw [if_neg (fun hh => hc4a ((perm_ne_nil_iff h4a).mp hh)), if_neg hc4a]
            by_cases hc4b : pass4For c2 (normalizeName name) ≠ []
            · rw [if_pos ((perm_ne_nil_iff h4b).mpr hc4b), if_pos hc4b]
              exact h4b
            · rw [if_neg (fun hh => hc4b ((perm_ne_nil_iff h4b).mp hh)), if_neg hc4b]
              by_cases hc4c : pass4For c2 (matchCore name) ≠ []
              · rw [if_pos ((perm_ne_nil_iff h4c).mpr hc4c), if_pos hc4c]
                exact h4c
              · rw [if_neg (fun hh => hc4c ((perm_ne_nil_iff h4c).mp hh)),
                  if_neg hc4c]
                by_cases hc5 : pass5For c2 (normalizeName name) ≠ []
                · rw [if_pos ((perm_ne_nil_iff h5).mpr hc5), if_pos hc5]
                  exact h5
                · rw [if_neg (fun hh => hc5 ((perm_ne_nil_iff h5).mp hh)),
                    if_neg hc5]
                  exact pass6For_perm hperm (matchCore name)

/-- Witness: the amended C6 theorem applied to a concrete permuted catalog
pair, every hypothesis discharged concretely. -/
theorem C6_match_perm_witness :
    (matchName [c6a1, c6a2] (gs "istio")).Perm (matchName [c6a2, c6a1] (gs "istio")) :=
  C6_match_perm (gs "istio") [c6a1, c6a2] [c6a2, c6a1]
    (List.Perm.swap c6a2 c6a1 []) (by decide)

/-- The per-pass result lists of `Matcher.Match`, in the fixed pass order:
exact (on the alias-resolved lower name) → normalized → role-stripped →
forward-prefix for each candidate (lower, normalized, core) → reverse-prefix
→ word-subset. Passes 4–6 are guarded by the short-name cutoff. -/
def matchPassResults (catalog : List Addon) (name : GoStr) : List (List Addon) :=
  [ (match firstByLower catalog (matchLower name) with
     | some e => [e]
     | none => []),
    (match (if normalizeName name ≠ matchLower name
        then firstByLower catalog (normalizeName name) else none) with
     | some e => [e]
     | none => []),
    (match (if (stripRoleSuffix (normalizeName name)).2
        then firstByLower catalog (matchCore name) else none) with
     | some e => [e]
     | none => []),
    (if (normalizeName name).length < 4 then []
     else pass4For catalog (matchLower name)),
    (if (normalizeName name).length < 4 then []
     else pass4For catalog (normalizeName name)),
    (if (normalizeName name).length < 4 then []
     else pass4For catalog (matchCore name)),
    (if (normalizeName name).length < 4 then []
     else pass5For catalog (normalizeName name)),
    (if (normalizeName name).length < 4 then []
     else pass6For catalog (matchCore name)) ]

/-- The first non-empty list of a sequence of result lists. -/
def firstNonEmptyList : List (List Addon) → List Addon
  | [] => []
  | l :: rest => if l ≠ [] then l else firstNonEmptyList rest

/-- **C7.** Every `Match` result is the result of exactly one pass: the whole
returned list equals the per-pass result of the first pass (in the fixed
order alias-resolved exact → normalized → role-stripped → short-name guard →
forward-prefix per candidate → reverse-prefix → word-subset) that yields any
match, and results of distinct passes or distinct forward-prefix candidates
are never merged. -/
theorem C7_single_pass (catalog : List Addon) (name : GoStr) :
    matchName catalog name = firstNonEmptyList (matchPassResults catalog name) := by
  unfold matchName matchPassResults
  cases firstByLower catalog (matchLower name) with
  | some e => simp [firstNonEmptyList]
  | none =>
    cases (if normalizeName name ≠ matchLower name
        then firstByLower catalog (normalizeName name) else none) with
    | some e => simp [firstNonEmptyList]
    | none =>
      cases (if (stripRoleSuffix (normalizeName name)).2
          then firstByLower catalog (matchCore name) else none) with
      | some e => simp [firstNonEmptyList]
      | none =>
        by_cases hlen : (normalizeName name).length < 4
        · simp [firstNonEmptyList, hlen]
        · by_cases h4a : pass4For catalog (matchLower name) = []
          · by_cases h4b : pass4For catalog (normalizeName name) = []
            · by_cases h4c : pass4For catalog (matchCore name) = []
              · by_cases h5 : pass5For catalog (normalizeName name) = []
                · by_cases h6 : pass6For catalog (matchCore name) = []
                  · simp [firstNonEmptyList, hlen, h4a, h4b, h4c, h5, h6]
                  · simp [firstNonEmptyList, hlen, h4a, h4b, h4c, h5, h6]
                · simp [firstNonEmptyList, hlen, h4a, h4b, h4c, h5]
              · simp [firstNonEmptyList, hlen, h4a, h4b, h4c]
            · simp [firstNonEmptyList, hlen, h4a, h4b]
          · simp [firstNonEmptyList, hlen, h4a]

/-! ## Claim C9: EOL resolution (`addon.go`) -/

/-- The polymorphic JSON `eol` field of an EOL cycle (`any` in Go): a
boolean, a string, or anything else (null, number, object). -/
inductive EOLField where
  | fbool : Bool → EOLField
  | fstr : GoStr → EOLField
  | other : EOLField
deriving DecidableEq, Repr

/-- `addon.EOLCycle`, restricted to the fields read by `ResolveEOLStatus`. -/
structure EOLCycle where
  cycle : GoStr := []
  eol : EOLField := EOLField.other
deriving DecidableEq, Repr

/-- Gregorian leap year, as in Go's `time` package. -/
def isLeapYear (y : Nat) : Bool :=
  y % 4 = 0 && (y % 100 ≠ 0 || y % 400 = 0)

/-- Days in month `m` of year `y`. -/
def daysInMonth (y m : Nat) : Nat :=
  if m = 2 then (if isLeapYear y then 29 else 28)
  else if m = 4 ∨ m = 6 ∨ m = 9 ∨ m = 11 then 30
  else 31

/-- Go `time.Parse("2006-01-02", s)`: strict ten-character date, four-digit
year, two-digit month 01–12, two-digit day valid for the month; the result is
the `(year, month, day)` triple. -/
def parseDateS : GoStr → Option (Nat × Nat × Nat)
  | [y1, y2, y3, y4, '-', m1, m2, '-', d1, d2] =>
    if y1.isDigit && y2.isDigit && y3.isDigit && y4.isDigit &&
        m1.isDigit && m2.isDigit && d1.isDigit && d2.isDigit then
      let y := (((y1.toNat - 48) * 10 + (y2.toNat - 48)) * 10 + (y3.toNat - 48)) * 10 +
        (y4.toNat - 48)
      let m := (m1.toNat - 48) * 10 + (m2.toNat - 48)
      let d := (d1.toNat - 48) * 10 + (d2.toNat - 48)
      if 1 ≤ m ∧ m ≤ 12 ∧ 1 ≤ d ∧ d ≤ daysInMonth y m then some (y, m, d)
      else none
    else none
  | _ => none

/-- Date comparison: Go's `time.Now().Before(t)` for `t` at midnight of a
date holds exactly when today's date lexicographically precedes it. -/
def dateLtB (a b : Nat × Nat × Nat) : Bool :=
  a.1 < b.1 || (a.1 = b.1 && (a.2.1 < b.2.1 || (a.2.1 = b.2.1 && a.2.2 < b.2.2)))

/-- `parseEOLField` from `addon.go`, with the current date passed
explicitly in place of `time.Now()`. -/
def parseEOLField (now : Nat × Nat × Nat) : EOLField → Option Bool × GoStr
  | EOLField.fbool v => (some (!v), [])
  | EOLField.fstr v =>
    match parseDateS v with
    | none => (none, [])
    | some d => (some (dateLtB now d), v)
  | EOLField.other => (none, [])

/-- `versionMatchesCycle` from `addon.go`. -/
def versionMatchesCycle (version cycle : GoStr) : Bool :=
  let v := trimPrefixS version (gs "v")
  if v = cycle then true
  else
    let vParts := splitNCharS '.' 3 v
    let cParts := splitNCharS '.' 3 cycle
    if vParts.length < 2 ∨ cParts.length < 1 then false
    else if cParts.length = 1 then decide (vParts.getD 0 [] = cParts.getD 0 [])
    else decide (vParts.getD 0 [] = cParts.getD 0 [] ∧ vParts.getD 1 [] = cParts.getD 1 [])

/-- `ResolveEOLStatus` from `addon.go`: the first matching cycle (in input
order) mapped through `parseEOLField`; `(none, "")` when nothing matches. -/
def ResolveEOLStatus (now : Nat × Nat × Nat) (installedVersion : GoStr)
    (cycles : List EOLCycle) : Option Bool × GoStr :=
  if cycles.length = 0 then (none, [])
  else
    match cycles.find? (fun c => versionMatchesCycle installedVersion c.cycle) with
    | some c => parseEOLField now c.eol
    | none => (none, [])

/-- The cycle-matching rule exactly as the claim words it: the label equals
the installed version, or equals its major component (single-component
label), or equals its major.minor (two-component label). -/
def claimEOLCycleMatches (version cycle : GoStr) : Bool :=
  let v := trimPrefixS version (gs "v")
  let vParts := splitNCharS '.' 3 v
  decide (v = cycle) ||
    (decide ((splitNCharS '.' 3 cycle).length = 1) &&
      decide (cycle = vParts.getD 0 [])) ||
    (decide ((splitNCharS '.' 3 cycle).length = 2) &&
      decide (cycle = vParts.getD 0 [] ++ gs "." ++ vParts.getD 1 []))

/-- Counterexample to C9 as stated: a three-component cycle label such as
"1.2.3" matches any installed version with the same major.minor (the code
compares only the first two components whenever the label has more than one),
which the claim's matching rule does not allow; the resolution result then
differs from the claim's predicted "no match → (unknown, \x22\x22)". -/
theorem C9_counterexample :
    claimEOLCycleMatches (gs "1.2.9") (gs "1.2.3") = false ∧
    versionMatchesCycle (gs "1.2.9") (gs "1.2.3") = true ∧
    ResolveEOLStatus (2026, 2, 14) (gs "1.2.9")
        [{ cycle := gs "1.2.3", eol := EOLField.fbool true }] = (some false, []) := by
  decide

/-- The amended matching rule, written from the amended spec words: the label
equals the (v-stripped) installed version; or, when the installed version has
at least two dot-components, a single-component label equals the installed
major component, or a label with two or more components agrees with the
installed version on both major and minor. -/
def specEOLCycleMatches (version cycle : GoStr) : Bool :=
  decide (trimPrefixS version (gs "v") = cycle) ||
    (decide (2 ≤ (splitNCharS '.' 3 (trimPrefixS version (gs "v"))).length) &&
      (if (splitNCharS '.' 3 cycle).length = 1 then
        decide ((splitNCharS '.' 3 (trimPrefixS version (gs "v"))).getD 0 [] =
          (splitNCharS '.' 3 cycle).getD 0 [])
      else
        decide (2 ≤ (splitNCharS '.' 3 cycle).length) &&
          decide ((splitNCharS '.' 3 (trimPrefixS version (gs "v"))).getD 0 [] =
            (splitNCharS '.' 3 cycle).getD 0 []) &&
          decide ((splitNCharS '.' 3 (trimPrefixS version (gs "v"))).getD 1 [] =
            (splitNCharS '.' 3 cycle).getD 1 [])))

/-- The amended resolution spec, written from the spec words: first matching
cycle in input order; boolean `false` means supported with no date, `true`
unsupported with no date, a valid date string means supported exactly when
`now` precedes the date (echoing the date), anything else unknown; no match
means unknown. -/
def specEOLStatus (now : Nat × Nat × Nat) (installedVersion : GoStr)
    (cycles : List EOLCycle) : Option Bool × GoStr :=
  match cycles.find? (fun c => specEOLCycleMatches installedVersion c.cycle) with
  | some c =>
    match c.eol with
    | EOLField.fbool false => (some true, [])
    | EOLField.fbool true => (some false, [])
    | EOLField.fstr s =>
      match parseDateS s with
      | some d => (some (dateLtB now d), s)
      | none => (none, [])
    | EOLField.other => (none, [])
  | none => (none, [])

/-- The source matcher agrees with the amended matching rule everywhere. -/
theorem versionMatchesCycle_eq_spec (version cycle : GoStr) :
    versionMatchesCycle version cycle = specEOLCycleMatches version cycle := by
  unfold versionMatchesCycle specEOLCycleMatches
  by_cases h1 : trimPrefixS version (gs "v") = cycle
  · simp [h1]
  · by_cases h2 : 2 ≤ (splitNCharS '.' 3 (trimPrefixS version (gs "v"))).length
    · have h2' : ¬ (splitNCharS '.' 3 (trimPrefixS version (gs "v"))).length < 2 := by
        omega
      by_cases h3 : (splitNCharS '.' 3 cycle).length = 1
      · have h3' : ¬ (splitNCharS '.' 3 cycle).length < 1 := by omega
        simp [h1, h2, h2', h3, h3']
      · by_cases h4 : (splitNCharS '.' 3 cycle).length < 1
        · have h4' : ¬ 2 ≤ (splitNCharS '.' 3 cycle).length := by omega
          simp [h1, h2, h2', h3, h4, h4']
        · have h4' : 2 ≤ (splitNCharS '.' 3 cycle).length := by omega
          simp [h1, h2, h2', h3, h4, h4', Bool.and_assoc]
    · have h2' : (splitNCharS '.' 3 (trimPrefixS version (gs "v"))).length < 2 := by
        omega
      simp [h1, h2, h2']

/-- **C9 (amended).** EOL resolution equals the amended specification — first
cycle whose label equals the installed version, or (installed having at least
two components) whose single-component label equals the major, or whose
two-or-more-component label agrees on major.minor; boolean `eol` false/true
map to supported/unsupported with no date, a valid date string to
"supported iff now precedes it" echoing the date, anything else to unknown;
no match to unknown — and the claim's worked examples hold. -/
theorem C9_eol_resolution :
    (∀ (now : Nat × Nat × Nat) (iv : GoStr) (cycles : List EOLCycle),
      ResolveEOLStatus now iv cycles = specEOLStatus now iv cycles) ∧
    ResolveEOLStatus (2026, 2, 14) (gs "v1.14.2")
        [{ cycle := gs "1.14", eol := EOLField.fstr (gs "2099-12-31") }] =
      (some true, gs "2099-12-31") ∧
    ResolveEOLStatus (2026, 2, 14) (gs "v1.10.1")
        [{ cycle := gs "1.10", eol := EOLField.fstr (gs "2020-01-01") }] =
      (some false, gs "2020-01-01") := by
  refine ⟨?_, by decide, by decide⟩
  intro now iv cycles
  unfold ResolveEOLStatus specEOLStatus
  have hf : (fun c : EOLCycle => versionMatchesCycle iv c.cycle) =
      (fun c => specEOLCycleMatches iv c.cycle) :=
    funext fun c => versionMatchesCycle_eq_spec iv c.cycle
  rw [hf]
  rcases cycles with _ | ⟨c, rest⟩
  · rfl
  · rw [if_neg (by simp)]
    cases hfind : (c :: rest).find? (fun c => specEOLCycleMatches iv c.cycle) with
    | none => rfl
    | some c2 =>
      obtain ⟨cyc, ef⟩ := c2
      cases ef with
      | fbool b => cases b <;> rfl
      | fstr s =>
        show (match parseDateS s with
            | none => ((none : Option Bool), ([] : GoStr))
            | some d => (some (dateLtB now d), s)) =
          (match parseDateS s with
            | some d => (some (dateLtB now d), s)
            | none => ((none : Option Bool), ([] : GoStr)))
        cases parseDateS s with
        | none => rfl
        | some d => rfl
      | other => rfl

/-! ## Claim C8: the evidence pruner (`agent.go`), at byte level

Go strings are byte slices here; runes are decoded explicitly, exactly as
`unicode/utf8` does. -/

/-- A Go string viewed as its bytes. -/
abbrev GoBytes := List Nat

/-- A UTF-8 continuation byte (`0x80–0xBF`). -/
def isContB (c : Nat) : Bool := 0x80 ≤ c && c ≤ 0xBF

/-- Accepted second byte of a three-byte sequence (`utf8.acceptRanges`). -/
def accept3B (b c1 : Nat) : Bool :=
  if b = 0xE0 then 0xA0 ≤ c1 && c1 ≤ 0xBF
  else if b = 0xED then 0x80 ≤ c1 && c1 ≤ 0x9F
  else isContB c1

/-- Accepted second byte of a four-byte sequence (`utf8.acceptRanges`). -/
def accept4B (b c1 : Nat) : Bool :=
  if b = 0xF0 then 0x90 ≤ c1 && c1 ≤ 0xBF
  else if b = 0xF4 then 0x80 ≤ c1 && c1 ≤ 0x8F
  else isContB c1

/-- Go `utf8.ValidString`: well-formed UTF-8 (no overlong forms, no
surrogates, nothing above U+10FFFF). -/
def validUtf8 : GoBytes → Bool
  | [] => true
  | b :: rest =>
    if b < 0x80 then validUtf8 rest
    else if 0xC2 ≤ b && b ≤ 0xDF then
      match rest with
      | c1 :: rest2 => isContB c1 && validUtf8 rest2
      | [] => false
    else if 0xE0 ≤ b && b ≤ 0xEF then
      match rest with
      | c1 :: c2 :: rest2 => accept3B b c1 && isContB c2 && validUtf8 rest2
      | _ => false
    else if 0xF0 ≤ b && b ≤ 0xF4 then
      match rest with
      | c1 :: c2 :: c3 :: rest2 =>
        accept4B b c1 && isContB c2 && isContB c3 && validUtf8 rest2
      | _ => false
    else false

/-- Go `utf8.DecodeRune` on bytes: the decoded rune and its byte width
(`(RuneError, 0)` on empty input, `(RuneError, 1)` on malformed input). -/
def decodeRuneB : GoBytes → Nat × Nat
  | [] => (0xFFFD, 0)
  | b :: rest =>
    if b < 0x80 then (b, 1)
    else if b < 0xC2 then (0xFFFD, 1)
    else if b ≤ 0xDF then
      match rest with
      | c1 :: _ =>
        if isContB c1 then ((b - 0xC0) * 64 + (c1 - 0x80), 2) else (0xFFFD, 1)
      | [] => (0xFFFD, 1)
    else if b ≤ 0xEF then
      match rest with
      | c1 :: c2 :: _ =>
        if accept3B b c1 && isContB c2 then
          (((b - 0xE0) * 64 + (c1 - 0x80)) * 64 + (c2 - 0x80), 3)
        else (0xFFFD, 1)
      | _ => (0xFFFD, 1)
    else if b ≤ 0xF4 then
      match rest with
      | c1 :: c2 :: c3 :: _ =>
        if accept4B b c1 && isContB c2 && isContB c3 then
          ((((b - 0xF0) * 64 + (c1 - 0x80)) * 64 + (c2 - 0x80)) * 64 + (c3 - 0x80), 4)
        else (0xFFFD, 1)
      | _ => (0xFFFD, 1)
    else (0xFFFD, 1)

/-- Go `utf8.RuneStart`: not a continuation byte. -/
def runeStartB (b : Nat) : Bool := !(0x80 ≤ b && b ≤ 0xBF)

/-- The backward scan of `utf8.DecodeLastRune`: from position `i` down to
`lim`, the first position holding a non-continuation byte; Go's `start`
variable after the loop (possibly `lim - 1`, possibly `-1`). -/
def lastStartGo (p : GoBytes) (lim : Nat) : Nat → Int
  | 0 =>
    if 0 < lim then (lim : Int) - 1
    else if runeStartB (p.getD 0 0) then 0
    else -1
  | i + 1 =>
    if i + 1 < lim then (lim : Int) - 1
    else if runeStartB (p.getD (i + 1) 0) then ((i + 1 : Nat) : Int)
    else lastStartGo p lim i

/-- The clamped start position found by `utf8.DecodeLastRune`'s backward
scan. -/
def goLastStart (p : GoBytes) : Nat :=
  if p.length = 1 then 0
  else if lastStartGo p (p.length - 4) (p.length - 2) < 0 then 0
  else (lastStartGo p (p.length - 4) (p.length - 2)).toNat

/-- Go `utf8.DecodeLastRune`. -/
def decodeLastRuneB (p : GoBytes) : Nat × Nat :=
  if p.length = 0 then (0xFFFD, 0)
  else if p.getD (p.length - 1) 0 < 0x80 then (p.getD (p.length - 1) 0, 1)
  else if goLastStart p + (decodeRuneB (p.drop (goLastStart p))).2 ≠ p.length then
    (0xFFFD, 1)
  else decodeRuneB (p.drop (goLastStart p))

/-- Go `unicode.IsSpace` on a rune value. -/
def isSpaceRuneB (r : Nat) : Bool :=
  r = 9 || r = 10 || r = 11 || r = 12 || r = 13 || r = 32 ||
    r = 0x85 || r = 0xA0 || r = 0x1680 ||
    (0x2000 ≤ r && r ≤ 0x200A) ||
    r = 0x2028 || r = 0x2029 || r = 0x202F || r = 0x205F || r = 0x3000

/-- Leading-space trimming of Go `strings.TrimSpace` (its fast path and
`TrimLeftFunc` agree: drop leading `unicode.IsSpace` runes), fuelled. -/
def trimLeftSpaceGo : Nat → GoBytes → GoBytes
  | 0, s => s
  | fuel + 1, s =>
    if (decodeRuneB s).2 = 0 then s
    else if isSpaceRuneB (decodeRuneB s).1 then
      trimLeftSpaceGo fuel (s.drop (decodeRuneB s).2)
    else s

/-- Trailing-space trimming of Go `strings.TrimSpace` (`TrimRightFunc` with
`unicode.IsSpace`), fuelled. -/
def trimRightSpaceGo : Nat → GoBytes → GoBytes
  | 0, s => s
  | fuel + 1, s =>
    if (decodeLastRuneB s).2 = 0 then s
    else if isSpaceRuneB (decodeLastRuneB s).1 then
      trimRightSpaceGo fuel (s.take (s.length - (decodeLastRuneB s).2))
    else s

/-- Go `strings.TrimSpace` on bytes. -/
def trimSpaceB (s : GoBytes) : GoBytes :=
  trimRightSpaceGo s.length (trimLeftSpaceGo s.length s)

/-- Split at the first occurrence of byte `c`. -/
def splitFirstB (c : Nat) (s : GoBytes) : Option (GoBytes × GoBytes) :=
  if s.contains c then some (s.takeWhile (· ≠ c), (s.dropWhile (· ≠ c)).tail)
  else none

/-- Fuelled worker for `splitOnByteB`. -/
def splitOnByteGo (c : Nat) : Nat → GoBytes → List GoBytes
  | 0, s => [s]
  | n + 1, s =>
    match splitFirstB c s with
    | none => [s]
    | some (a, b) => a :: splitOnByteGo c n b

/-- Go `strings.Split` on bytes for a one-byte separator. -/
def splitOnByteB (c : Nat) (s : GoBytes) : List GoBytes :=
  splitOnByteGo c (s.length + 1) s

/-- Fuelled worker for `fieldsB` (`strings.Fields` ≡ `FieldsFunc` with
`unicode.IsSpace`, decoding rune by rune); `acc` is the current field. -/
def fieldsGoB : Nat → GoBytes → GoBytes → List GoBytes
  | 0, _, acc => if acc = [] then [] else [acc]
  | fuel + 1, s, acc =>
    if s = [] then (if acc = [] then [] else [acc])
    else if isSpaceRuneB (decodeRuneB s).1 then
      if acc = [] then fieldsGoB fuel (s.drop (decodeRuneB s).2) []
      else acc :: fieldsGoB fuel (s.drop (decodeRuneB s).2) []
    else fieldsGoB fuel (s.drop (decodeRuneB s).2) (acc ++ s.take (decodeRuneB s).2)

/-- Go `strings.Fields` on bytes. -/
def fieldsB (s : GoBytes) : List GoBytes := fieldsGoB s.length s []

/-- Go `strings.Join` on bytes. -/
def joinBytes : List GoBytes → GoBytes → GoBytes
  | [], _ => []
  | [x], _ => x
  | x :: xs, sep => x ++ sep ++ joinBytes xs sep

/-- The decreasing scan of `truncateToValidUTF8Prefix`: the largest index
`i ≤ k` with a valid prefix `text[:i]`, `0` if none. -/
def findValidCut : Nat → GoBytes → Nat
  | 0, _ => 0
  | i + 1, text => if validUtf8 (text.take (i + 1)) then i + 1 else findValidCut i text

/-- `truncateToValidUTF8Prefix` from `agent.go`. -/
def truncateToValidUTF8Prefix (text : GoBytes) (maxBytes : Int) : GoBytes :=
  if maxBytes ≤ 0 ∨ text = [] then []
  else if (text.length : Int) ≤ maxBytes then text
  else
    let idx := findValidCut maxBytes.toNat text
    if idx = 0 then [] else text.take idx

/-- `addLine` from `pruneEvidenceText`: add index `i` to the selection unless
out of range, at budget, or already selected (`selectedCount` is always the
size of the selection, so the selection list carries both). -/
def addLineGo (n : Nat) (lineBudget : Nat) (sel : List Nat) (i : Int) : List Nat :=
  if i < 0 ∨ (n : Int) ≤ i then sel
  else if lineBudget ≤ sel.length then sel
  else if sel.contains i.toNat then sel
  else sel ++ [i.toNat]

/-- The anchor score of one normalized line (`pruneEvidenceText`), with the
five regular expressions abstracted as predicates. -/
def anchorScore (k8sP versionP supportP relevP negP : GoBytes → Bool)
    (line : GoBytes) : Int :=
  (if k8sP line && versionP line then 5 else 0) +
    (if supportP line then 3 else 0) +
    (if versionP line then 2 else 0) +
    (if relevP line then 1 else 0) -
    (if negP line then 4 else 0)

/-- The stable anchor order of `pruneEvidenceText`: higher score first, lower
index first among equal scores (`sort.SliceStable`, a strict weak order, so
the stable sort is the unique sort by this total order). -/
def anchorLE (a b : Nat × Int) : Prop :=
  b.2 < a.2 ∨ (a.2 = b.2 ∧ a.1 ≤ b.1)

instance : DecidableRel anchorLE := fun a b =>
  inferInstanceAs (Decidable (b.2 < a.2 ∨ (a.2 = b.2 ∧ a.1 ≤ b.1)))

/-- One iteration of the builder loop of `pruneEvidenceText` (the second
state component is Go's `break`). -/
def builderStep (maxChars : Int) (st : GoBytes × Bool) (line : GoBytes) :
    GoBytes × Bool :=
  if st.2 then st
  else
    let acc1 := if 0 < st.1.length then st.1 ++ [0x0A] else st.1
    if 0 < maxChars ∧ maxChars < (acc1.length : Int) + (line.length : Int) then
      (if 0 < maxChars - (acc1.length : Int) then
        acc1 ++ truncateToValidUTF8Prefix line (maxChars - (acc1.length : Int))
      else acc1, true)
    else (acc1 ++ line, false)

/-- The normalized, non-empty lines of the trimmed input
(`pruneEvidenceText`, normalization loop). -/
def normalizedLinesOf (input : GoBytes) : List GoBytes :=
  ((splitOnByteB 0x0A (trimSpaceB input)).map
    (fun line => joinBytes (fieldsB (trimSpaceB line)) [0x20])).filter (· ≠ [])

/-- The line-selection phase of `pruneEvidenceText`: leading context, scored
anchors with two context lines on both sides, then a deterministic fill; the
selected indexes are emitted in ascending order, falling back to all lines
when nothing was selected. -/
def pruneSelectedLines (k8sP versionP supportP relevP negP : GoBytes → Bool)
    (normalizedLines : List GoBytes) (maxLines : Int) : List GoBytes :=
  let n := normalizedLines.length
  let lineBudget : Nat :=
    if maxLines ≤ 0 ∨ (n : Int) < maxLines then n else maxLines.toNat
  let sel0 := (List.range (min 12 n)).foldl
    (fun sel i => addLineGo n lineBudget sel (i : Int)) []
  let anchors := ((List.range n).map
    (fun i => (i, anchorScore k8sP versionP supportP relevP negP
      (normalizedLines.getD i [])))).filter (fun a => 0 < a.2)
  let anchorsSorted := List.insertionSort anchorLE anchors
  let sel1 := anchorsSorted.foldl (fun sel a =>
    if lineBudget ≤ sel.length then sel
    else
      let s1 := addLineGo n lineBudget sel (a.1 : Int)
      let s2 := addLineGo n lineBudget s1 ((a.1 : Int) + 1)
      let s3 := addLineGo n lineBudget s2 ((a.1 : Int) - 1)
      let s4 := addLineGo n lineBudget s3 ((a.1 : Int) + 2)
      addLineGo n lineBudget s4 ((a.1 : Int) - 2)) sel0
  let sel2 := (List.range n).foldl (fun sel i =>
    if sel.length < lineBudget then addLineGo n lineBudget sel (i : Int)
    else sel) sel1
  let ordered := List.insertionSort (fun a b : Nat => a ≤ b) sel2
  let selectedLines0 := ordered.map (fun i => normalizedLines.getD i [])
  if selectedLines0 = [] then normalizedLines else selectedLines0

/-- `pruneEvidenceText` from `agent.go`, with the five package-level regular
expressions abstracted as line predicates. -/
def pruneEvidenceText (k8sP versionP supportP relevP negP : GoBytes → Bool)
    (input : GoBytes) (maxChars maxLines : Int) : GoBytes :=
  if trimSpaceB input = [] then []
  else if normalizedLinesOf input = [] then []
  else
    trimSpaceB ((pruneSelectedLines k8sP versionP supportP relevP negP
      (normalizedLinesOf input) maxLines).foldl (builderStep maxChars) ([], false)).1

/-- The decreasing scan never exceeds its starting budget. -/
theorem findValidCut_le : ∀ (k : Nat) (text : GoBytes), findValidCut k text ≤ k
  | 0, _ => Nat.le_refl 0
  | k + 1, text => by
    unfold findValidCut
    split
    · exact Nat.le_refl _
    · exact Nat.le_succ_of_le (findValidCut_le k text)

/-- Truncation respects the byte budget. -/
theorem truncate_len_le (text : GoBytes) (m : Int) (hm : 0 < m) :
    ((truncateToValidUTF8Prefix text m).length : Int) ≤ m := by
  unfold truncateToValidUTF8Prefix
  split
  · simp
    omega
  · split
    · rename_i h1 h2
      exact h2
    · rename_i h1 h2
      have h4 := findValidCut_le m.toNat text
      have h5 : (text.take (findValidCut m.toNat text)).length ≤ m.toNat := by
        rw [List.length_take]
        omega
      show ((if findValidCut m.toNat text = 0 then ([] : GoBytes)
        else List.take (findValidCut m.toNat text) text).length : Int) ≤ m
      split
      · simp
        omega
      · omega

/-- Builder-state invariant: a running builder stays within the budget; a
stopped builder may exceed it by exactly one trailing newline byte. -/
def BuilderOk (maxChars : Int) (st : GoBytes × Bool) : Prop :=
  (st.2 = false → (st.1.length : Int) ≤ maxChars) ∧
  (st.2 = true → (st.1.length : Int) ≤ maxChars + 1 ∧
    ((st.1.length : Int) = maxChars + 1 → st.1.getLast? = some 0x0A))

/-- One builder step preserves the invariant. -/
theorem builderStep_ok {maxChars : Int} (hm : 0 < maxChars) {st : GoBytes × Bool}
    (hst : BuilderOk maxChars st) (line : GoBytes) :
    BuilderOk maxChars (builderStep maxChars st line) := by
  obtain ⟨acc, stopped⟩ := st
  cases stopped
  · have hacc : (acc.length : Int) ≤ maxChars := hst.1 rfl
    unfold builderStep
    rw [if_neg (by simp : ¬ ((acc, false).2 = true))]
    by_cases h0 : 0 < (acc, false).1.length
    · rw [if_pos h0]
      by_cases hover : 0 < maxChars ∧
          maxChars < (((acc, false).1 ++ [0x0A]).length : Int) + (line.length : Int)
      · rw [if_pos hover]
        by_cases hrem : 0 < maxChars - (((acc, false).1 ++ [0x0A]).length : Int)
        · rw [if_pos hrem]
          refine ⟨fun h => Bool.noConfusion h, fun _ => ⟨?_, fun hlen => ?_⟩⟩
          · have ht := truncate_len_le line
              (maxChars - (((acc, false).1 ++ [0x0A]).length : Int)) hrem
            simp only [List.length_append] at *
            omega
          · exfalso
            have ht := truncate_len_le line
              (maxChars - (((acc, false).1 ++ [0x0A]).length : Int)) hrem
            simp only [List.length_append] at *
            omega
        · rw [if_neg hrem]
          refine ⟨fun h => Bool.noConfusion h, fun _ => ⟨?_, fun hlen => ?_⟩⟩
          · simp only [List.length_append]
            simp at hacc ⊢
            omega
          · exact List.getLast?_concat _
      · rw [if_neg hover]
        refine ⟨fun _ => ?_, fun h => Bool.noConfusion h⟩
        simp only [List.length_append] at *
        push_neg at hover
        have := hover hm
        omega
    · rw [if_neg h0]
      by_cases hover : 0 < maxChars ∧
          maxChars < (((acc, false).1 : GoBytes).length : Int) + (line.length : Int)
      · rw [if_pos hover]
        by_cases hrem : 0 < maxChars - (((acc, false).1 : GoBytes).length : Int)
        · rw [if_pos hrem]
          refine ⟨fun h => Bool.noConfusion h, fun _ => ⟨?_, fun hlen => ?_⟩⟩
          · have ht := truncate_len_le line
              (maxChars - (((acc, false).1 : GoBytes).length : Int)) hrem
            simp only [List.length_append] at *
            omega
          · exfalso
            have ht := truncate_len_le line
              (maxChars - (((acc, false).1 : GoBytes).length : Int)) hrem
            simp only [List.length_append] at *
            omega
        · rw [if_neg hrem]
          refine ⟨fun h => Bool.noConfusion h, fun _ => ⟨?_, fun hlen => ?_⟩⟩
          · omega
          · exfalso
            simp at h0
            simp [h0] at hlen
            omega
      · rw [if_neg hover]
        refine ⟨fun _ => ?_, fun h => Bool.noConfusion h⟩
        simp only [List.length_append] at *
        push_neg at hover
        have := hover hm
        omega
  · unfold builderStep
    rw [if_pos (by simp : ((acc, true).2 = true))]
    exact hst

/-- The builder fold preserves the invariant. -/
theorem builder_fold_ok (maxChars : Int) (hm : 0 < maxChars) :
    ∀ (lines : List GoBytes) (st : GoBytes × Bool), BuilderOk maxChars st →
      BuilderOk maxChars (lines.foldl (builderStep maxChars) st)
  | [], _, h => h
  | l :: ls, st, h => by
    rw [List.foldl_cons]
    exact builder_fold_ok maxChars hm ls _ (builderStep_ok hm h l)

/-- Left trimming is a `drop`. -/
theorem trimLeft_isDrop : ∀ (fuel : Nat) (s : GoBytes),
    ∃ k, trimLeftSpaceGo fuel s = s.drop k
  | 0, s => ⟨0, rfl⟩
  | fuel + 1, s => by
    unfold trimLeftSpaceGo
    by_cases h0 : (decodeRuneB s).2 = 0
    · exact ⟨0, by simp [h0]⟩
    · by_cases h1 : isSpaceRuneB (decodeRuneB s).1 = true
      · obtain ⟨k, hk⟩ := trimLeft_isDrop fuel (s.drop (decodeRuneB s).2)
        refine ⟨k + (decodeRuneB s).2, ?_⟩
        simp only [h0, h1, if_neg, if_pos, if_false, if_true]
        rw [hk, List.drop_drop, Nat.add_comm]
      · exact ⟨0, by simp [h0, h1]⟩

/-- Left trimming never lengthens. -/
theorem trimLeft_len_le (fuel : Nat) (s : GoBytes) :
    (trimLeftSpaceGo fuel s).length ≤ s.length := by
  obtain ⟨k, hk⟩ := trimLeft_isDrop fuel s
  rw [hk, List.length_drop]
  omega

/-- Right trimming never lengthens. -/
theorem trimRight_len_le : ∀ (fuel : Nat) (s : GoBytes),
    (trimRightSpaceGo fuel s).length ≤ s.length
  | 0, _ => Nat.le_refl _
  | fuel + 1, s => by
    unfold trimRightSpaceGo
    by_cases h0 : (decodeLastRuneB s).2 = 0
    · simp [h0]
    · by_cases h1 : isSpaceRuneB (decodeLastRuneB s).1 = true
      · simp only [h0, h1, if_neg, if_pos, if_false, if_true]
        have h2 := trimRight_len_le fuel (s.take (s.length - (decodeLastRuneB s).2))
        have h3 : (s.take (s.length - (decodeLastRuneB s).2)).length ≤ s.length := by
          rw [List.length_take]
          omega
        omega
      · simp [h0, h1]

/-- Dropping from the front keeps the last element of a list (when anything
survives). -/
theorem getLast?_drop_ne_nil : ∀ (k : Nat) (l : GoBytes), l.drop k ≠ [] →
    (l.drop k).getLast? = l.getLast?
  | 0, _, _ => rfl
  | k + 1, [], h => absurd rfl h
  | k + 1, a :: t, h => by
    have ht : t.drop k ≠ [] := h
    have h2 := getLast?_drop_ne_nil k t ht
    have ht2 : t ≠ [] := by
      intro hnil
      rw [hnil, List.drop_nil] at ht
      exact ht rfl
    obtain ⟨b, t2, rfl⟩ := List.exists_cons_of_ne_nil ht2
    rw [List.drop_succ_cons, h2, List.getLast?_cons_cons]

/-- A list whose `getLast?` is a byte has that byte at index `length - 1`. -/
theorem getD_last_of_getLast? {l : GoBytes} {b : Nat} (h : l.getLast? = some b) :
    l.getD (l.length - 1) 0 = b := by
  rw [List.getLast?_eq_getElem?] at h
  rw [List.getD_eq_getElem?_getD, h]
  rfl

/-- Right trimming a string ending in a newline removes at least that byte. -/
theorem trimRight_trailing_nl : ∀ (fuel : Nat) (s : GoBytes), 0 < fuel →
    s.getLast? = some 0x0A → (trimRightSpaceGo fuel s).length ≤ s.length - 1
  | 0, _, hf, _ => absurd hf (by omega)
  | fuel + 1, s, _, hl => by
    have hs : s ≠ [] := by
      intro h
      rw [h] at hl
      cases hl
    have hlen : 0 < s.length := List.length_pos.mpr hs
    have hgd : s.getD (s.length - 1) 0 = 10 := getD_last_of_getLast? hl
    have hdec : decodeLastRuneB s = (10, 1) := by
      unfold decodeLastRuneB
      rw [if_neg (by omega)]
      simp only [hgd]
      rw [if_pos (by omega : (10 : Nat) < 0x80)]
    unfold trimRightSpaceGo
    rw [hdec]
    simp only [if_neg, if_pos, if_false, if_true]
    rw [if_neg (by omega : ¬ (((10 : Nat), (1 : Nat)).2 = 0)),
      if_pos (by decide : isSpaceRuneB ((10 : Nat), (1 : Nat)).1 = true)]
    have h2 := trimRight_len_le fuel (s.take (s.length - 1))
    have h3 : (s.take (s.length - 1)).length = s.length - 1 := by
      rw [List.length_take]
      omega
    omega

/-- `TrimSpace` never lengthens. -/
theorem trimSpaceB_len_le (s : GoBytes) : (trimSpaceB s).length ≤ s.length := by
  unfold trimSpaceB
  have h1 := trimRight_len_le s.length (trimLeftSpaceGo s.length s)
  have h2 := trimLeft_len_le s.length s
  omega

/-- `TrimSpace` of a string ending in a newline removes at least that byte. -/
theorem trimSpaceB_trailing_nl (s : GoBytes) (h : s.getLast? = some 0x0A) :
    (trimSpaceB s).length ≤ s.length - 1 := by
  unfold trimSpaceB
  obtain ⟨k, hk⟩ := trimLeft_isDrop s.length s
  rw [hk]
  by_cases hd : s.drop k = []
  · rw [hd]
    have h9 := trimRight_len_le s.length ([] : GoBytes)
    rw [List.length_nil] at h9
    omega
  · have h2 := getLast?_drop_ne_nil k s hd
    have hs : s ≠ [] := by
      intro hnil
      rw [hnil] at h
      cases h
    have h3 := trimRight_trailing_nl s.length (s.drop k)
      (List.length_pos.mpr hs) (by rw [h2]; exact h)
    have h4 : (s.drop k).length ≤ s.length := by
      rw [List.length_drop]
      omega
    omega

/-- The builder-plus-final-trim core of the pruner respects the byte
budget, whatever lines were selected. -/
theorem prune_core_bound (maxChars : Int) (hm : 0 < maxChars) (lines : List GoBytes) :
    ((trimSpaceB (lines.foldl (builderStep maxChars) ([], false)).1).length : Int) ≤
      maxChars := by
  have hok := builder_fold_ok maxChars hm lines ([], false)
    ⟨fun _ => by simp only [List.length_nil, Int.ofNat_zero]; omega, fun h => Bool.noConfusion h⟩
  rcases hfold : lines.foldl (builderStep maxChars) ([], false) with ⟨B, stopped⟩
  rw [hfold] at hok
  cases stopped
  · have h1 : (B.length : Int) ≤ maxChars := hok.1 rfl
    have h2 := trimSpaceB_len_le B
    show ((trimSpaceB B).length : Int) ≤ maxChars
    omega
  · have h1 : (B.length : Int) ≤ maxChars + 1 := (hok.2 rfl).1
    show ((trimSpaceB B).length : Int) ≤ maxChars
    by_cases h3 : (B.length : Int) ≤ maxChars
    · have h2 := trimSpaceB_len_le B
      omega
    · have h4 : (B.length : Int) = maxChars + 1 := by omega
      have h5 : B.getLast? = some 0x0A := (hok.2 rfl).2 h4
      have h6 := trimSpaceB_trailing_nl B h5
      omega

/-- One well-formed UTF-8 rune encoding (one to four bytes). -/
inductive IsRuneEnc : GoBytes → Prop
  | ascii (b : Nat) (h : b < 0x80) : IsRuneEnc [b]
  | two (b c1 : Nat) (h1 : 0xC2 ≤ b) (h2 : b ≤ 0xDF) (h3 : isContB c1 = true) :
      IsRuneEnc [b, c1]
  | three (b c1 c2 : Nat) (h1 : 0xE0 ≤ b) (h2 : b ≤ 0xEF)
      (h3 : accept3B b c1 = true) (h4 : isContB c2 = true) : IsRuneEnc [b, c1, c2]
  | four (b c1 c2 c3 : Nat) (h1 : 0xF0 ≤ b) (h2 : b ≤ 0xF4)
      (h3 : accept4B b c1 = true) (h4 : isContB c2 = true) (h5 : isContB c3 = true) :
      IsRuneEnc [b, c1, c2, c3]

/-- A byte string decomposable into rune encodings. -/
inductive ValidU : GoBytes → Prop
  | nil : ValidU []
  | cons {chunk rest : GoBytes} :
      IsRuneEnc chunk → ValidU rest → ValidU (chunk ++ rest)

/-- Rune encodings are nonempty. -/
theorem IsRuneEnc_length_pos {chunk : GoBytes} (hc : IsRuneEnc chunk) :
    0 < chunk.length := by
  cases hc <;> simp

/-- Concatenation preserves decomposability. -/
theorem ValidU_append {a b : GoBytes} (ha : ValidU a) (hb : ValidU b) :
    ValidU (a ++ b) := by
  induction ha with
  | nil => exact hb
  | cons hc _ ih =>
    rw [List.append_assoc]
    exact ValidU.cons hc ih

/-- Peel the first rune of a nonempty decomposable string. -/
theorem ValidU_decompose {s : GoBytes} (h : ValidU s) (hne : s ≠ []) :
    ∃ chunk rest, s = chunk ++ rest ∧ IsRuneEnc chunk ∧ ValidU rest := by
  cases h with
  | nil => exact absurd rfl hne
  | cons hc hr => exact ⟨_, _, rfl, hc, hr⟩

/-- Peel the last rune of a decomposable string. -/
theorem ValidU_decompose_last {s : GoBytes} (h : ValidU s) :
    s = [] ∨ ∃ init chunk, s = init ++ chunk ∧ ValidU init ∧ IsRuneEnc chunk := by
  induction h with
  | nil => exact Or.inl rfl
  | cons hc hr ih =>
    rename_i chunk rest
    rcases ih with hnil | ⟨init, chunk2, heq, hvi, hc2⟩
    · subst hnil
      exact Or.inr ⟨[], chunk, by simp, ValidU.nil, hc⟩
    · exact Or.inr ⟨chunk ++ init, chunk2, by rw [heq, List.append_assoc],
        ValidU.cons hc hvi, hc2⟩

/-- The one-step equation of `validUtf8`. -/
theorem validUtf8_cons (b : Nat) (rest : GoBytes) :
    validUtf8 (b :: rest) =
      (if b < 0x80 then validUtf8 rest
      else if 0xC2 ≤ b && b ≤ 0xDF then
        match rest with
        | c1 :: rest2 => isContB c1 && validUtf8 rest2
        | [] => false
      else if 0xE0 ≤ b && b ≤ 0xEF then
        match rest with
        | c1 :: c2 :: rest2 => accept3B b c1 && isContB c2 && validUtf8 rest2
        | _ => false
      else if 0xF0 ≤ b && b ≤ 0xF4 then
        match rest with
        | c1 :: c2 :: c3 :: rest2 =>
          accept4B b c1 && isContB c2 && isContB c3 && validUtf8 rest2
        | _ => false
      else false) := by
  cases rest with
  | nil => rfl
  | cons c1 r1 =>
    cases r1 with
    | nil => rfl
    | cons c2 r2 =>
      cases r2 with
      | nil => rfl
      | cons c3 r3 => rfl

/-- `validUtf8` accepts a rune encoding followed by accepted bytes. -/
theorem IsRuneEnc_validUtf8_append {chunk rest : GoBytes} (hc : IsRuneEnc chunk)
    (hr : validUtf8 rest = true) : validUtf8 (chunk ++ rest) = true := by
  cases hc with
  | ascii b h =>
    show validUtf8 (b :: rest) = true
    rw [validUtf8_cons, if_pos h]
    exact hr
  | two b c1 h1 h2 h3 =>
    show validUtf8 (b :: c1 :: rest) = true
    rw [validUtf8_cons, if_neg (by omega),
      if_pos (by simp only [Bool.and_eq_true, decide_eq_true_eq]; exact ⟨h1, h2⟩)]
    show (isContB c1 && validUtf8 rest) = true
    rw [h3, hr]
    rfl
  | three b c1 c2 h1 h2 h3 h4 =>
    show validUtf8 (b :: c1 :: c2 :: rest) = true
    rw [validUtf8_cons, if_neg (by omega),
      if_neg (by simp only [Bool.and_eq_true, decide_eq_true_eq]; omega),
      if_pos (by simp only [Bool.and_eq_true, decide_eq_true_eq]; exact ⟨h1, h2⟩)]
    show (accept3B b c1 && isContB c2 && validUtf8 rest) = true
    rw [h3, h4, hr]
    rfl
  | four b c1 c2 c3 h1 h2 h3 h4 h5 =>
    show validUtf8 (b :: c1 :: c2 :: c3 :: rest) = true
    rw [validUtf8_cons, if_neg (by omega),
      if_neg (by simp only [Bool.and_eq_true, decide_eq_true_eq]; omega),
      if_neg (by simp only [Bool.and_eq_true, decide_eq_true_eq]; omega),
      if_pos (by simp only [Bool.and_eq_true, decide_eq_true_eq]; exact ⟨h1, h2⟩)]
    show (accept4B b c1 && isContB c2 && isContB c3 && validUtf8 rest) = true
    rw [h3, h4, h5, hr]
    rfl

/-- Decomposability implies `utf8.ValidString`. -/
theorem ValidU_validUtf8 {s : GoBytes} (h : ValidU s) : validUtf8 s = true := by
  induction h with
  | nil => rfl
  | cons hc _ ih => exact IsRuneEnc_validUtf8_append hc ih

/-- `utf8.ValidString` implies decomposability (length-bounded recursion). -/
theorem validUtf8_to_ValidU : ∀ (n : Nat) (s : GoBytes), s.length ≤ n →
    validUtf8 s = true → ValidU s
  | _, [], _, _ => ValidU.nil
  | 0, _ :: _, h, _ => absurd h (by simp)
  | n + 1, b :: rest, hlen, hv => by
    rw [validUtf8_cons] at hv
    by_cases h1 : b < 0x80
    · rw [if_pos h1] at hv
      have ih := validUtf8_to_ValidU n rest (by simp at hlen; omega) hv
      exact ValidU.cons (IsRuneEnc.ascii b h1) ih
    · rw [if_neg h1] at hv
      by_cases h2 : (0xC2 ≤ b && b ≤ 0xDF) = true
      · rw [if_pos h2] at hv
        obtain ⟨ha, hb⟩ : 0xC2 ≤ b ∧ b ≤ 0xDF := by simpa using h2
        cases rest with
        | nil => simp at hv
        | cons c1 rest2 =>
          obtain ⟨hc, hrest⟩ : isContB c1 = true ∧ validUtf8 rest2 = true := by
            simpa using hv
          have ih := validUtf8_to_ValidU n rest2 (by simp at hlen; omega) hrest
          exact ValidU.cons (IsRuneEnc.two b c1 ha hb hc) ih
      · rw [if_neg h2] at hv
        by_cases h3 : (0xE0 ≤ b && b ≤ 0xEF) = true
        · rw [if_pos h3] at hv
          obtain ⟨ha, hb⟩ : 0xE0 ≤ b ∧ b ≤ 0xEF := by simpa using h3
          cases rest with
          | nil => simp at hv
          | cons c1 rest1 =>
            cases rest1 with
            | nil => simp at hv
            | cons c2 rest2 =>
              obtain ⟨hac, hc2, hrest⟩ : accept3B b c1 = true ∧ isContB c2 = true ∧
                  validUtf8 rest2 = true := by
                simpa [Bool.and_assoc] using hv
              have ih := validUtf8_to_ValidU n rest2 (by simp at hlen; omega) hrest
              exact ValidU.cons (IsRuneEnc.three b c1 c2 ha hb hac hc2) ih
        · rw [if_neg h3] at hv
          by_cases h4 : (0xF0 ≤ b && b ≤ 0xF4) = true
          · rw [if_pos h4] at hv
            obtain ⟨ha, hb⟩ : 0xF0 ≤ b ∧ b ≤ 0xF4 := by simpa using h4
            cases rest with
            | nil => simp at hv
            | cons c1 rest1 =>
              cases rest1 with
              | nil => simp at hv
              | cons c2 rest1b =>
                cases rest1b with
                | nil => simp at hv
                | cons c3 rest2 =>
                  obtain ⟨hac, hc2, hc3, hrest⟩ : accept4B b c1 = true ∧
                      isContB c2 = true ∧ isContB c3 = true ∧
                      validUtf8 rest2 = true := by
                    simpa [Bool.and_assoc] using hv
                  have ih := validUtf8_to_ValidU n rest2 (by simp at hlen; omega) hrest
                  exact ValidU.cons (IsRuneEnc.four b c1 c2 c3 ha hb hac hc2 hc3) ih
          · rw [if_neg h4] at hv
            cases hv

/-- The two validity notions agree. -/
theorem validUtf8_iff_ValidU (s : GoBytes) : validUtf8 s = true ↔ ValidU s :=
  ⟨fun h => validUtf8_to_ValidU s.length s (Nat.le_refl _) h, ValidU_validUtf8⟩

/-- The one-step equation of `decodeRuneB`. -/
theorem decodeRuneB_eq (b : Nat) (rest : GoBytes) :
    decodeRuneB (b :: rest) =
      (if b < 0x80 then (b, 1)
      else if b < 0xC2 then (0xFFFD, 1)
      else if b ≤ 0xDF then
        match rest with
        | c1 :: _ =>
          if isContB c1 then ((b - 0xC0) * 64 + (c1 - 0x80), 2) else (0xFFFD, 1)
        | [] => (0xFFFD, 1)
      else if b ≤ 0xEF then
        match rest with
        | c1 :: c2 :: _ =>
          if accept3B b c1 && isContB c2 then
            (((b - 0xE0) * 64 + (c1 - 0x80)) * 64 + (c2 - 0x80), 3)
          else (0xFFFD, 1)
        | _ => (0xFFFD, 1)
      else if b ≤ 0xF4 then
        match rest with
        | c1 :: c2 :: c3 :: _ =>
          if accept4B b c1 && isContB c2 && isContB c3 then
            ((((b - 0xF0) * 64 + (c1 - 0x80)) * 64 + (c2 - 0x80)) * 64 + (c3 - 0x80), 4)
          else (0xFFFD, 1)
        | _ => (0xFFFD, 1)
      else (0xFFFD, 1)) := by
  cases rest with
  | nil => rfl
  | cons c1 r1 =>
    cases r1 with
    | nil => rfl
    | cons c2 r2 =>
      cases r2 with
      | nil => rfl
      | cons c3 r3 => rfl

/-- Decoding a rune encoding consumes exactly its bytes. -/
theorem decodeRuneB_chunk {chunk : GoBytes} (hc : IsRuneEnc chunk) (rest : GoBytes) :
    (decodeRuneB (chunk ++ rest)).2 = chunk.length := by
  cases hc with
  | ascii b h =>
    show (decodeRuneB (b :: rest)).2 = 1
    rw [decodeRuneB_eq, if_pos h]
  | two b c1 h1 h2 h3 =>
    show (decodeRuneB (b :: c1 :: rest)).2 = 2
    rw [decodeRuneB_eq, if_neg (by omega), if_neg (by omega), if_pos h2]
    show (if isContB c1 = true then ((b - 0xC0) * 64 + (c1 - 0x80), 2)
      else ((0xFFFD : Nat), (1 : Nat))).2 = 2
    rw [if_pos h3]
  | three b c1 c2 h1 h2 h3 h4 =>
    show (decodeRuneB (b :: c1 :: c2 :: rest)).2 = 3
    rw [decodeRuneB_eq, if_neg (by omega), if_neg (by omega), if_neg (by omega),
      if_pos h2]
    show (if (accept3B b c1 && isContB c2) = true then
        (((b - 0xE0) * 64 + (c1 - 0x80)) * 64 + (c2 - 0x80), 3)
      else ((0xFFFD : Nat), (1 : Nat))).2 = 3
    rw [if_pos (by rw [h3, h4]; rfl)]
  | four b c1 c2 c3 h1 h2 h3 h4 h5 =>
    show (decodeRuneB (b :: c1 :: c2 :: c3 :: rest)).2 = 4
    rw [decodeRuneB_eq, if_neg (by omega), if_neg (by omega), if_neg (by omega),
      if_neg (by omega), if_pos h2]
    show (if (accept4B b c1 && isContB c2 && isContB c3) = true then
        ((((b - 0xF0) * 64 + (c1 - 0x80)) * 64 + (c2 - 0x80)) * 64 + (c3 - 0x80), 4)
      else ((0xFFFD : Nat), (1 : Nat))).2 = 4
    rw [if_pos (by rw [h3, h4, h5]; rfl)]

/-- Indexing into the right part of an append. -/
theorem getD_append_at (init l : GoBytes) (m : Nat) :
    (init ++ l).getD (init.length + m) 0 = l.getD m 0 := by
  rw [List.getD_eq_getElem?_getD, List.getD_eq_getElem?_getD,
    List.getElem?_append_right (Nat.le_add_right _ _), Nat.add_sub_cancel_left]

/-- Continuation bytes lie in `0x80–0xBF`. -/
theorem isContB_range {c : Nat} (h : isContB c = true) : 0x80 ≤ c ∧ c ≤ 0xBF := by
  simpa [isContB] using h

/-- The accepted second byte of a three-byte form is a continuation byte. -/
theorem accept3B_cont {b c1 : Nat} (h : accept3B b c1 = true) :
    0x80 ≤ c1 ∧ c1 ≤ 0xBF := by
  unfold accept3B at h
  by_cases h1 : b = 0xE0
  · rw [if_pos h1] at h
    have h2 : 0xA0 ≤ c1 ∧ c1 ≤ 0xBF := by simpa using h
    omega
  · rw [if_neg h1] at h
    by_cases h2 : b = 0xED
    · rw [if_pos h2] at h
      have h3 : 0x80 ≤ c1 ∧ c1 ≤ 0x9F := by simpa using h
      omega
    · rw [if_neg h2] at h
      exact isContB_range h

/-- The accepted second byte of a four-byte form is a continuation byte. -/
theorem accept4B_cont {b c1 : Nat} (h : accept4B b c1 = true) :
    0x80 ≤ c1 ∧ c1 ≤ 0xBF := by
  unfold accept4B at h
  by_cases h1 : b = 0xF0
  · rw [if_pos h1] at h
    have h2 : 0x90 ≤ c1 ∧ c1 ≤ 0xBF := by simpa using h
    omega
  · rw [if_neg h1] at h
    by_cases h2 : b = 0xF4
    · rw [if_pos h2] at h
      have h3 : 0x80 ≤ c1 ∧ c1 ≤ 0x8F := by simpa using h
      omega
    · rw [if_neg h2] at h
      exact isContB_range h

/-- Lead bytes start a rune. -/
theorem runeStartB_of_lead {b : Nat} (h : 0xC0 ≤ b) : runeStartB b = true := by
  simp only [runeStartB, Bool.not_eq_true', Bool.and_eq_false_iff,
    decide_eq_false_iff_not]
  omega

/-- Continuation bytes do not start a rune. -/
theorem runeStartB_cont {c : Nat} (h1 : 0x80 ≤ c) (h2 : c ≤ 0xBF) :
    runeStartB c = false := by
  simp [runeStartB, h1, h2]

/-- The one-step equation of the backward scan. -/
theorem lastStartGo_eq (p : GoBytes) (lim : Nat) (i : Nat) :
    lastStartGo p lim i =
      (if i < lim then (lim : Int) - 1
      else if runeStartB (p.getD i 0) then (i : Int)
      else if i = 0 then -1 else lastStartGo p lim (i - 1)) := by
  cases i with
  | zero =>
    show (if 0 < lim then (lim : Int) - 1
      else if runeStartB (p.getD 0 0) then 0 else -1) = _
    by_cases h1 : 0 < lim
    · rw [if_pos h1, if_pos h1]
    · rw [if_neg h1, if_neg (by omega : ¬ (0 : Nat) < lim)]
      by_cases h2 : runeStartB (p.getD 0 0) = true
      · rw [if_pos h2, if_pos h2]
        simp
      · rw [if_neg h2, if_neg h2, if_pos rfl]
  | succ j =>
    show (if j + 1 < lim then (lim : Int) - 1
      else if runeStartB (p.getD (j + 1) 0) then ((j + 1 : Nat) : Int)
      else lastStartGo p lim j) = _
    by_cases h1 : j + 1 < lim
    · rw [if_pos h1, if_pos h1]
    · rw [if_neg h1, if_neg h1]
      by_cases h2 : runeStartB (p.getD (j + 1) 0) = true
      · rw [if_pos h2, if_pos h2]
      · rw [if_neg h2, if_neg h2, if_neg (by omega : ¬ j + 1 = 0)]
        rfl

/-- The backward scan stops at the first rune-start position below a run of
continuation bytes. -/
theorem lastStartGo_lands (p : GoBytes) (lim : Nat) :
    ∀ (i j : Nat), lim ≤ j → j ≤ i →
      (∀ t, j < t → t ≤ i → runeStartB (p.getD t 0) = false) →
      runeStartB (p.getD j 0) = true → lastStartGo p lim i = (j : Int)
  | 0, j, hlj, hji, _, hj => by
    have hj0 : j = 0 := by omega
    subst hj0
    rw [lastStartGo_eq, if_neg (by omega), if_pos hj]
  | i + 1, j, hlj, hji, hcont, hj => by
    rw [lastStartGo_eq, if_neg (by omega)]
    by_cases he : j = i + 1
    · subst he
      rw [if_pos hj]
    · have hc1 : runeStartB (p.getD (i + 1) 0) = false :=
        hcont (i + 1) (by omega) (Nat.le_refl _)
      rw [if_neg (by rw [hc1]; simp), if_neg (by omega : ¬ i + 1 = 0)]
      exact lastStartGo_lands p lim i j hlj (by omega)
        (fun t ht1 ht2 => hcont t ht1 (by omega)) hj

/-- Decoding the last rune of a string ending in a rune encoding consumes
exactly that encoding. -/
theorem decodeLastRuneB_chunk {init chunk : GoBytes} (hc : IsRuneEnc chunk) :
    (decodeLastRuneB (init ++ chunk)).2 = chunk.length := by
  have hchunkdec : (decodeRuneB chunk).2 = chunk.length := by
    have h := decodeRuneB_chunk hc []
    rw [List.append_nil] at h
    exact h
  have hdec : decodeRuneB ((init ++ chunk).drop init.length) = decodeRuneB chunk := by
    rw [List.drop_left]
  cases hc with
  | ascii b h =>
    have hlen : (init ++ [b]).length = init.length + 1 := by simp
    have hgd : (init ++ [b]).getD ((init ++ [b]).length - 1) 0 = b := by
      rw [hlen, show init.length + 1 - 1 = init.length + 0 from rfl, getD_append_at]
      rfl
    unfold decodeLastRuneB
    rw [if_neg (by omega), hgd, if_pos h]
    rfl
  | two b c1 h1 h2 h3 =>
    have hc1 := isContB_range h3
    have hlen : (init ++ [b, c1]).length = init.length + 2 := by simp
    have hgd : (init ++ [b, c1]).getD ((init ++ [b, c1]).length - 1) 0 = c1 := by
      rw [hlen, show init.length + 2 - 1 = init.length + 1 from rfl, getD_append_at]
      rfl
    have hgb : (init ++ [b, c1]).getD init.length 0 = b := by
      rw [show init.length = init.length + 0 from rfl, getD_append_at]
      rfl
    have hstart : goLastStart (init ++ [b, c1]) = init.length := by
      unfold goLastStart
      rw [if_neg (by omega)]
      have hscan : lastStartGo (init ++ [b, c1]) ((init ++ [b, c1]).length - 4)
          ((init ++ [b, c1]).length - 2) = (init.length : Int) := by
        rw [hlen, show init.length + 2 - 2 = init.length from by omega]
        exact lastStartGo_lands _ _ init.length init.length (by omega) (Nat.le_refl _)
          (fun t ht1 ht2 => absurd ht1 (by omega))
          (by rw [hgb]; exact runeStartB_of_lead (by omega))
      rw [hscan, if_neg (by omega : ¬ (init.length : Int) < 0)]
      simp
    unfold decodeLastRuneB
    rw [if_neg (by omega), hgd, if_neg (by omega), hstart, hdec, hchunkdec,
      if_neg (by simp [hlen])]
    exact hchunkdec
  | three b c1 c2 h1 h2 h3 h4 =>
    have hc1 := accept3B_cont h3
    have hc2 := isContB_range h4
    have hlen : (init ++ [b, c1, c2]).length = init.length + 3 := by simp
    have hgd : (init ++ [b, c1, c2]).getD ((init ++ [b, c1, c2]).length - 1) 0 = c2 := by
      rw [hlen, show init.length + 3 - 1 = init.length + 2 from rfl, getD_append_at]
      rfl
    have hgc1 : (init ++ [b, c1, c2]).getD (init.length + 1) 0 = c1 := by
      rw [getD_append_at]
      rfl
    have hgb : (init ++ [b, c1, c2]).getD init.length 0 = b := by
      rw [show init.length = init.length + 0 from rfl, getD_append_at]
      rfl
    have hstart : goLastStart (init ++ [b, c1, c2]) = init.length := by
      unfold goLastStart
      rw [if_neg (by omega)]
      have hscan : lastStartGo (init ++ [b, c1, c2]) ((init ++ [b, c1, c2]).length - 4)
          ((init ++ [b, c1, c2]).length - 2) = (init.length : Int) := by
        rw [hlen, show init.length + 3 - 2 = init.length + 1 from by omega]
        refine lastStartGo_lands _ _ (init.length + 1) init.length (by omega)
          (by omega) (fun t ht1 ht2 => ?_)
          (by rw [hgb]; exact runeStartB_of_lead (by omega))
        have ht : t = init.length + 1 := by omega
        subst ht
        rw [hgc1]
        exact runeStartB_cont hc1.1 hc1.2
      rw [hscan, if_neg (by omega : ¬ (init.length : Int) < 0)]
      simp
    unfold decodeLastRuneB
    rw [if_neg (by omega), hgd, if_neg (by omega), hstart, hdec, hchunkdec,
      if_neg (by simp [hlen])]
    exact hchunkdec
  | four b c1 c2 c3 h1 h2 h3 h4 h5 =>
    have hc1 := accept4B_cont h3
    have hc2 := isContB_range h4
    have hc3 := isContB_range h5
    have hlen : (init ++ [b, c1, c2, c3]).length = init.length + 4 := by simp
    have hgd : (init ++ [b, c1, c2, c3]).getD
        ((init ++ [b, c1, c2, c3]).length - 1) 0 = c3 := by
      rw [hlen, show init.length + 4 - 1 = init.length + 3 from rfl, getD_append_at]
      rfl
    have hgc2 : (init ++ [b, c1, c2, c3]).getD (init.length + 2) 0 = c2 := by
      rw [getD_append_at]
      rfl
    have hgc1 : (init ++ [b, c1, c2, c3]).getD (init.length + 1) 0 = c1 := by
      rw [getD_append_at]
      rfl
    have hgb : (init ++ [b, c1, c2, c3]).getD init.length 0 = b := by
      rw [show init.length = init.length + 0 from rfl, getD_append_at]
      rfl
    have hstart : goLastStart (init ++ [b, c1, c2, c3]) = init.length := by
      unfold goLastStart
      rw [if_neg (by omega)]
      have hscan : lastStartGo (init ++ [b, c1, c2, c3])
          ((init ++ [b, c1, c2, c3]).length - 4)
          ((init ++ [b, c1, c2, c3]).length - 2) = (init.length : Int) := by
        rw [hlen, show init.length + 4 - 2 = init.length + 2 from by omega]
        refine lastStartGo_lands _ _ (init.length + 2) init.length (by omega)
          (by omega) (fun t ht1 ht2 => ?_)
          (by rw [hgb]; exact runeStartB_of_lead (by omega))
        rcases (by omega : t = init.length + 1 ∨ t = init.length + 2) with ht | ht
        · subst ht
          rw [hgc1]
          exact runeStartB_cont hc1.1 hc1.2
        · subst ht
          rw [hgc2]
          exact runeStartB_cont hc2.1 hc2.2
      rw [hscan, if_neg (by omega : ¬ (init.length : Int) < 0)]
      simp
    unfold decodeLastRuneB
    rw [if_neg (by omega), hgd, if_neg (by omega), hstart, hdec, hchunkdec,
      if_neg (by simp [hlen])]
    exact hchunkdec

/-- Left trimming preserves UTF-8 decomposability. -/
theorem trimLeft_valid : ∀ (fuel : Nat) {s : GoBytes}, ValidU s →
    ValidU (trimLeftSpaceGo fuel s)
  | 0, _, h => h
  | fuel + 1, s, h => by
    by_cases hne : s = []
    · subst hne
      exact h
    · obtain ⟨chunk, rest, heq, hc, hr⟩ := ValidU_decompose h hne
      subst heq
      have hsz : (decodeRuneB (chunk ++ rest)).2 = chunk.length :=
        decodeRuneB_chunk hc rest
      have hcl := IsRuneEnc_length_pos hc
      show ValidU (if (decodeRuneB (chunk ++ rest)).2 = 0 then chunk ++ rest
        else if isSpaceRuneB (decodeRuneB (chunk ++ rest)).1 = true then
          trimLeftSpaceGo fuel ((chunk ++ rest).drop (decodeRuneB (chunk ++ rest)).2)
        else chunk ++ rest)
      rw [hsz, if_neg (by omega)]
      by_cases hsp : isSpaceRuneB (decodeRuneB (chunk ++ rest)).1 = true
      · rw [if_pos hsp, List.drop_left]
        exact trimLeft_valid fuel hr
      · rw [if_neg hsp]
        exact h

/-- Right trimming preserves UTF-8 decomposability. -/
theorem trimRight_valid : ∀ (fuel : Nat) {s : GoBytes}, ValidU s →
    ValidU (trimRightSpaceGo fuel s)
  | 0, _, h => h
  | fuel + 1, s, h => by
    rcases ValidU_decompose_last h with hnil | ⟨init, chunk, heq, hvi, hc⟩
    · subst hnil
      exact h
    · subst heq
      have hsz : (decodeLastRuneB (init ++ chunk)).2 = chunk.length :=
        decodeLastRuneB_chunk hc
      have hcl := IsRuneEnc_length_pos hc
      show ValidU (if (decodeLastRuneB (init ++ chunk)).2 = 0 then init ++ chunk
        else if isSpaceRuneB (decodeLastRuneB (init ++ chunk)).1 = true then
          trimRightSpaceGo fuel ((init ++ chunk).take
            ((init ++ chunk).length - (decodeLastRuneB (init ++ chunk)).2))
        else init ++ chunk)
      rw [hsz, if_neg (by omega)]
      by_cases hsp : isSpaceRuneB (decodeLastRuneB (init ++ chunk)).1 = true
      · rw [if_pos hsp]
        have htake : (init ++ chunk).take ((init ++ chunk).length - chunk.length) =
            init := by
          rw [List.length_append,
            show init.length + chunk.length - chunk.length = init.length from by omega,
            List.take_left]
        rw [htake]
        exact trimRight_valid fuel hvi
      · rw [if_neg hsp]
        exact h

/-- `TrimSpace` preserves UTF-8 decomposability. -/
theorem trimSpaceB_valid {s : GoBytes} (h : ValidU s) : ValidU (trimSpaceB s) :=
  trimRight_valid _ (trimLeft_valid _ h)

/-- `takeWhile` passes over a block of satisfying elements. -/
theorem takeWhile_append_all {p : Nat → Bool} : ∀ {chunk rest : GoBytes},
    (∀ b ∈ chunk, p b = true) →
    (chunk ++ rest).takeWhile p = chunk ++ rest.takeWhile p
  | [], _, _ => rfl
  | a :: chunk, rest, hall => by
    have ha := hall a (List.mem_cons_self a chunk)
    show ((a :: (chunk ++ rest)).takeWhile p) = _
    rw [List.takeWhile_cons, if_pos ha,
      takeWhile_append_all (fun b hb => hall b (List.mem_cons_of_mem a hb))]
    rfl

/-- `dropWhile` passes over a block of satisfying elements. -/
theorem dropWhile_append_all {p : Nat → Bool} : ∀ {chunk rest : GoBytes},
    (∀ b ∈ chunk, p b = true) →
    (chunk ++ rest).dropWhile p = rest.dropWhile p
  | [], _, _ => rfl
  | a :: chunk, rest, hall => by
    have ha := hall a (List.mem_cons_self a chunk)
    show ((a :: (chunk ++ rest)).dropWhile p) = _
    rw [List.dropWhile_cons, if_pos ha,
      dropWhile_append_all (fun b hb => hall b (List.mem_cons_of_mem a hb))]

/-- A rune encoding either is the newline byte or contains no newline. -/
theorem chunk_nl_cases {chunk : GoBytes} (hc : IsRuneEnc chunk) :
    chunk = [10] ∨ ∀ b ∈ chunk, b ≠ 10 := by
  cases hc with
  | ascii b h =>
    by_cases h10 : b = 10
    · subst h10
      exact Or.inl rfl
    · refine Or.inr fun x hx => ?_
      rcases List.mem_singleton.mp hx with rfl
      exact h10
  | two b c1 h1 h2 h3 =>
    have hr := isContB_range h3
    refine Or.inr fun x hx => ?_
    rcases hx with _ | ⟨_, hx⟩
    · omega
    · rcases List.mem_singleton.mp hx with rfl
      omega
  | three b c1 c2 h1 h2 h3 h4 =>
    have hr1 := accept3B_cont h3
    have hr2 := isContB_range h4
    refine Or.inr fun x hx => ?_
    rcases hx with _ | ⟨_, hx⟩
    · omega
    · rcases hx with _ | ⟨_, hx⟩
      · omega
      · rcases List.mem_singleton.mp hx with rfl
        omega
  | four b c1 c2 c3 h1 h2 h3 h4 h5 =>
    have hr1 := accept4B_cont h3
    have hr2 := isContB_range h4
    have hr3 := isContB_range h5
    refine Or.inr fun x hx => ?_
    rcases hx with _ | ⟨_, hx⟩
    · omega
    · rcases hx with _ | ⟨_, hx⟩
      · omega
      · rcases hx with _ | ⟨_, hx⟩
        · omega
        · rcases List.mem_singleton.mp hx with rfl
          omega

/-- Splitting a decomposable string at its first newline: the head piece is
decomposable, and what follows the newline is decomposable. -/
theorem splitNl_valid {s : GoBytes} (h : ValidU s) :
    ValidU (s.takeWhile (· ≠ 10)) ∧
    ((s.dropWhile (· ≠ 10)) = [] ∨
      ∃ rest, s.dropWhile (· ≠ 10) = 10 :: rest ∧ ValidU rest) := by
  induction h with
  | nil => exact ⟨ValidU.nil, Or.inl rfl⟩
  | cons hc hr ih =>
    rename_i chunk rest
    rcases chunk_nl_cases hc with rfl | hno
    · constructor
      · have ht : ((10 :: rest : GoBytes)).takeWhile (· ≠ 10) = [] := by
          rw [List.takeWhile_cons, if_neg (by simp)]
        show ValidU ((10 :: rest : GoBytes).takeWhile (· ≠ 10))
        rw [ht]
        exact ValidU.nil
      · refine Or.inr ⟨rest, ?_, hr⟩
        show (10 :: rest : GoBytes).dropWhile (· ≠ 10) = 10 :: rest
        rw [List.dropWhile_cons, if_neg (by simp)]
    · have hall : ∀ b ∈ chunk, (fun x => decide (x ≠ 10)) b = true := by
        intro b hb
        simpa using hno b hb
      constructor
      · rw [takeWhile_append_all hall]
        exact ValidU.cons hc ih.1
      · rw [dropWhile_append_all hall]
        exact ih.2

/-- Every piece of the newline split of a decomposable string is
decomposable. -/
theorem splitOnByteGo_valid : ∀ (fuel : Nat) {s : GoBytes}, ValidU s →
    ∀ piece ∈ splitOnByteGo 10 fuel s, ValidU piece
  | 0, s, h, piece, hp => by
    rcases List.mem_singleton.mp hp with rfl
    exact h
  | fuel + 1, s, h, piece, hp => by
    unfold splitOnByteGo splitFirstB at hp
    by_cases hcont : s.contains 10 = true
    · rw [if_pos hcont] at hp
      have hsp := splitNl_valid h
      rcases List.mem_cons.mp hp with rfl | hmem
      · exact hsp.1
      · rcases hsp.2 with hnil | ⟨rest2, heq, hrv⟩
        · exfalso
          have hall := List.dropWhile_eq_nil_iff.mp hnil
          have h10 : (10 : Nat) ∈ s := by
            simpa using hcont
          have := hall 10 h10
          simp at this
        · rw [heq] at hmem
          exact splitOnByteGo_valid fuel hrv piece hmem
    · rw [if_neg hcont] at hp
      rcases List.mem_singleton.mp hp with rfl
      exact h

/-- Every field of a decomposable string is decomposable. -/
theorem fieldsGoB_valid : ∀ (fuel : Nat) {s acc : GoBytes}, s.length ≤ fuel →
    ValidU s → ValidU acc → ∀ f ∈ fieldsGoB fuel s acc, ValidU f
  | 0, s, acc, _, _, hacc, f, hf => by
    unfold fieldsGoB at hf
    split at hf
    · cases hf
    · rcases List.mem_singleton.mp hf with rfl
      exact hacc
  | fuel + 1, s, acc, hle, hs, hacc, f, hf => by
    by_cases hne : s = []
    · subst hne
      unfold fieldsGoB at hf
      rw [if_pos rfl] at hf
      split at hf
      · cases hf
      · rcases List.mem_singleton.mp hf with rfl
        exact hacc
    · obtain ⟨chunk, rest, heq, hc, hr⟩ := ValidU_decompose hs hne
      subst heq
      have hsz : (decodeRuneB (chunk ++ rest)).2 = chunk.length :=
        decodeRuneB_chunk hc rest
      have hcl := IsRuneEnc_length_pos hc
      have hlen : (chunk ++ rest).length = chunk.length + rest.length :=
        List.length_append _ _
      have hrle : rest.length ≤ fuel := by omega
      unfold fieldsGoB at hf
      rw [if_neg hne, hsz, List.drop_left] at hf
      by_cases hsp : isSpaceRuneB (decodeRuneB (chunk ++ rest)).1 = true
      · rw [if_pos hsp] at hf
        by_cases hae : acc = []
        · rw [if_pos hae] at hf
          exact fieldsGoB_valid fuel hrle hr ValidU.nil f hf
        · rw [if_neg hae] at hf
          rcases List.mem_cons.mp hf with rfl | hmem
          · exact hacc
          · exact fieldsGoB_valid fuel hrle hr ValidU.nil f hmem
      · rw [if_neg hsp, List.take_left] at hf
        have hchv : ValidU chunk := by
          have h2 := ValidU.cons hc ValidU.nil
          rwa [List.append_nil] at h2
        exact fieldsGoB_valid fuel hrle hr (ValidU_append hacc hchv) f hf

/-- Every field of `strings.Fields` of a decomposable string is
decomposable. -/
theorem fieldsB_valid {s : GoBytes} (h : ValidU s) : ∀ f ∈ fieldsB s, ValidU f :=
  fieldsGoB_valid s.length (Nat.le_refl _) h ValidU.nil

/-- Joining decomposable pieces with a single space is decomposable. -/
theorem joinBytes_valid : ∀ {xs : List GoBytes}, (∀ x ∈ xs, ValidU x) →
    ValidU (joinBytes xs [0x20])
  | [], _ => ValidU.nil
  | [x], hall => hall x (List.mem_singleton.mpr rfl)
  | x :: y :: xs, hall => by
    show ValidU (x ++ [0x20] ++ joinBytes (y :: xs) [0x20])
    refine ValidU_append (ValidU_append (hall x (List.mem_cons_self _ _)) ?_) ?_
    · exact ValidU.cons (IsRuneEnc.ascii 0x20 (by omega)) ValidU.nil
    · exact joinBytes_valid fun z hz => hall z (List.mem_cons_of_mem x hz)

/-- The truncation scan returns a valid prefix or nothing. -/
theorem findValidCut_valid : ∀ (k : Nat) (text : GoBytes),
    findValidCut k text = 0 ∨ validUtf8 (text.take (findValidCut k text)) = true
  | 0, _ => Or.inl rfl
  | k + 1, text => by
    unfold findValidCut
    split
    · rename_i hv
      exact Or.inr hv
    · exact findValidCut_valid k text

/-- Truncation of a valid string yields a valid string. -/
theorem truncate_valid {text : GoBytes} (m : Int) (h : validUtf8 text = true) :
    validUtf8 (truncateToValidUTF8Prefix text m) = true := by
  unfold truncateToValidUTF8Prefix
  split
  · rfl
  · split
    · exact h
    · rename_i h1 h2
      show validUtf8 (if findValidCut m.toNat text = 0 then ([] : GoBytes)
        else List.take (findValidCut m.toNat text) text) = true
      split
      · rfl
      · rename_i h3
        rcases findValidCut_valid m.toNat text with h4 | h4
        · exact absurd h4 h3
        · exact h4

/-- One builder step keeps the accumulated bytes decomposable. -/
theorem builderStep_valid {maxChars : Int} {st : GoBytes × Bool} (hst : ValidU st.1)
    {line : GoBytes} (hline : ValidU line) :
    ValidU (builderStep maxChars st line).1 := by
  obtain ⟨acc, stopped⟩ := st
  unfold builderStep
  cases stopped
  · rw [if_neg (by simp : ¬ ((acc, false).2 = true))]
    have hnl : ValidU ([0x0A] : GoBytes) :=
      ValidU.cons (IsRuneEnc.ascii 0x0A (by omega)) ValidU.nil
    have htr : ∀ m : Int, ValidU (truncateToValidUTF8Prefix line m) := fun m =>
      (validUtf8_iff_ValidU _).mp (truncate_valid m (ValidU_validUtf8 hline))
    by_cases h0 : 0 < (acc, false).1.length
    · rw [if_pos h0]
      have hacc1 : ValidU ((acc, false).1 ++ [0x0A]) := ValidU_append hst hnl
      show ValidU ((if 0 < maxChars ∧
          maxChars < (((acc, false).1 ++ [0x0A]).length : Int) + (line.length : Int) then
          (if 0 < maxChars - (((acc, false).1 ++ [0x0A]).length : Int) then
            (acc, false).1 ++ [0x0A] ++ truncateToValidUTF8Prefix line
              (maxChars - (((acc, false).1 ++ [0x0A]).length : Int))
          else (acc, false).1 ++ [0x0A], true)
        else ((acc, false).1 ++ [0x0A] ++ line, false)).1)
      split
      · split
        · exact ValidU_append hacc1 (htr _)
        · exact hacc1
      · exact ValidU_append hacc1 hline
    · rw [if_neg h0]
      show ValidU ((if 0 < maxChars ∧
          maxChars < (((acc, false).1 : GoBytes).length : Int) + (line.length : Int) then
          (if 0 < maxChars - (((acc, false).1 : GoBytes).length : Int) then
            (acc, false).1 ++ truncateToValidUTF8Prefix line
              (maxChars - (((acc, false).1 : GoBytes).length : Int))
          else (acc, false).1, true)
        else ((acc, false).1 ++ line, false)).1)
      split
      · split
        · exact ValidU_append hst (htr _)
        · exact hst
      · exact ValidU_append hst hline
  · rw [if_pos (by simp : ((acc, true).2 = true))]
    exact hst

/-- The builder fold keeps the accumulated bytes decomposable. -/
theorem builder_fold_valid (maxChars : Int) :
    ∀ (lines : List GoBytes) (st : GoBytes × Bool), ValidU st.1 →
      (∀ l ∈ lines, ValidU l) →
      ValidU ((lines.foldl (builderStep maxChars) st).1)
  | [], _, h, _ => h
  | l :: ls, st, h, hall => by
    rw [List.foldl_cons]
    exact builder_fold_valid maxChars ls _
      (builderStep_valid h (hall l (List.mem_cons_self _ _)))
      (fun x hx => hall x (List.mem_cons_of_mem _ hx))

/-- All normalized lines of a valid input are decomposable. -/
theorem normalizedLinesOf_valid {input : GoBytes} (h : ValidU input) :
    ∀ l ∈ normalizedLinesOf input, ValidU l := by
  intro l hl
  have hl2 := List.mem_of_mem_filter hl
  obtain ⟨piece, hpmem, rfl⟩ := List.mem_map.mp hl2
  have hpv := splitOnByteGo_valid _ (trimSpaceB_valid h) piece hpmem
  exact joinBytes_valid (fieldsB_valid (trimSpaceB_valid hpv))

/-- An indexed pick from a list of decomposable lines is decomposable. -/
theorem getD_valid {L : List GoBytes} (h : ∀ l ∈ L, ValidU l) (i : Nat) :
    ValidU (L.getD i []) := by
  by_cases hi : i < L.length
  · rw [List.getD_eq_getElem L [] hi]
    exact h _ (L.getElem_mem hi)
  · rw [List.getD_eq_default L [] (by omega)]
    exact ValidU.nil

/-- Every selected line is a normalized line pick, hence decomposable. -/
theorem pruneSelectedLines_valid (k8sP versionP supportP relevP negP : GoBytes → Bool)
    (nl : List GoBytes) (maxLines : Int) (h : ∀ l ∈ nl, ValidU l) :
    ∀ l ∈ pruneSelectedLines k8sP versionP supportP relevP negP nl maxLines,
      ValidU l := by
  have key : ∀ (ordered : List Nat), ∀ l ∈ (if ordered.map
      (fun i => nl.getD i []) = [] then nl else ordered.map (fun i => nl.getD i [])),
      ValidU l := by
    intro ordered l hl
    split at hl
    · exact h l hl
    · obtain ⟨i, _, rfl⟩ := List.mem_map.mp hl
      exact getD_valid h i
  intro l hl
  simp only [pruneSelectedLines] at hl
  exact key _ l hl

/-- The builder core plus final trim is decomposable for decomposable
lines. -/
theorem prune_core_valid (maxChars : Int) (lines : List GoBytes)
    (hl : ∀ l ∈ lines, ValidU l) :
    ValidU (trimSpaceB (lines.foldl (builderStep maxChars) ([], false)).1) :=
  trimSpaceB_valid (builder_fold_valid maxChars lines ([], false) ValidU.nil hl)

/-- **C8.** For every input, every positive `maxChars` and every `maxLines`,
the pruner's output is at most `maxChars` bytes long; and when the input is
valid UTF-8 the output is valid UTF-8 — the byte-budget truncation never
splits a multi-byte character. (The five scoring regular expressions are
abstracted as arbitrary line predicates.) -/
theorem C8_prune_bounds (k8sP versionP supportP relevP negP : GoBytes → Bool)
    (input : GoBytes) (maxChars maxLines : Int) (hm : 0 < maxChars) :
    ((pruneEvidenceText k8sP versionP supportP relevP negP input
        maxChars maxLines).length : Int) ≤ maxChars ∧
    (validUtf8 input = true →
      validUtf8 (pruneEvidenceText k8sP versionP supportP relevP negP input
        maxChars maxLines) = true) := by
  unfold pruneEvidenceText
  by_cases h1 : trimSpaceB input = []
  · rw [if_pos h1]
    exact ⟨by simp; omega, fun _ => rfl⟩
  · rw [if_neg h1]
    by_cases h2 : normalizedLinesOf input = []
    · rw [if_pos h2]
      exact ⟨by simp; omega, fun _ => rfl⟩
    · rw [if_neg h2]
      refine ⟨prune_core_bound maxChars hm _, fun hv => ?_⟩
      have hnl := normalizedLinesOf_valid ((validUtf8_iff_ValidU input).mp hv)
      have hsel := pruneSelectedLines_valid k8sP versionP supportP relevP negP
        (normalizedLinesOf input) maxLines hnl
      exact ValidU_validUtf8 (prune_core_valid maxChars _ hsel)

/-- Witness for C8: applying the bound at predicates that never match, the
UTF-8 input "héllo", maxChars = 3 and maxLines = 0. -/
theorem C8_prune_bounds_witness :
    (0 : Int) < 3 ∧
    (((pruneEvidenceText (fun _ => false) (fun _ => false) (fun _ => false)
        (fun _ => false) (fun _ => false) [0x68, 0xC3, 0xA9, 0x6C, 0x6C, 0x6F]
        3 0).length : Int) ≤ 3 ∧
      (validUtf8 [0x68, 0xC3, 0xA9, 0x6C, 0x6C, 0x6F] = true →
        validUtf8 (pruneEvidenceText (fun _ => false) (fun _ => false)
          (fun _ => false) (fun _ => false) (fun _ => false)
          [0x68, 0xC3, 0xA9, 0x6C, 0x6C, 0x6F] 3 0) = true)) :=
  ⟨by decide, C8_prune_bounds (fun _ => false) (fun _ => false) (fun _ => false)
    (fun _ => false) (fun _ => false) [0x68, 0xC3, 0xA9, 0x6C, 0x6C, 0x6F]
    3 0 (by decide)⟩

end Kaddons
